import Mathlib

/-!
# Treap (treap.c / treap.h): shallow embedding and verification

The C program keeps its nodes in heap cells linked by `left`, `right` and
`parent` pointers; the handle `Treap t` points at a cell holding the root
pointer.  The embedding models

* a pointer as `Option Nat` (`none` is `NULL`),
* the heap as a partial map from addresses to `Treap_node` records,
* `random ()` as a stream of integers together with a counter of the draws made,
* `malloc` as an address handed to `Treap_Insert`,
* every `while` loop as a recursive function with a fuel argument
  (`none` is returned when the fuel runs out or when a `NULL`/dangling pointer
  is dereferenced).
-/

namespace Treap

/-- A `void *` payload: `none` is `NULL`. -/
abbrev treap_data_element (V : Type) := Option V

/-- A pointer to a node: `none` is `NULL`. -/
abbrev Ptr := Option Nat

/-- The record `struct Treap_node_struct` of treap.h. -/
structure Treap_node (K V : Type) where
  key : K
  data : treap_data_element V
  left : Ptr
  right : Ptr
  parent : Ptr
  priority : Int
deriving DecidableEq

/-- The heap: which addresses hold a node, and what the node contains. -/
abbrev Mem (K V : Type) := Nat → Option (Treap_node K V)

/-- The program state: the heap, the root cell `*t`, and the random source
(`rand i` is the value of the `i`-th call of `random ()`, `draws` the number of
calls made so far). -/
structure State (K V : Type) where
  mem : Mem K V
  root : Ptr
  rand : Nat → Int
  draws : Nat

variable {K V : Type}

/-- Overwrite the cell at address `a`. -/
def Mem.write (m : Mem K V) (a : Nat) (n : Treap_node K V) : Mem K V :=
  fun b => if b = a then some n else m b

/-- Release the cell at address `a` (`free`). -/
def Mem.release (m : Mem K V) (a : Nat) : Mem K V :=
  fun b => if b = a then none else m b

/-- The assignment `a->left = v`. -/
def setLeft (m : Mem K V) (a : Nat) (v : Ptr) : Option (Mem K V) :=
  match m a with
  | none => none
  | some n => some (m.write a { n with left := v })

/-- The assignment `a->right = v`. -/
def setRight (m : Mem K V) (a : Nat) (v : Ptr) : Option (Mem K V) :=
  match m a with
  | none => none
  | some n => some (m.write a { n with right := v })

/-- The assignment `a->parent = v`. -/
def setParent (m : Mem K V) (a : Nat) (v : Ptr) : Option (Mem K V) :=
  match m a with
  | none => none
  | some n => some (m.write a { n with parent := v })

/-- The assignment `a->priority = v`. -/
def setPriority (m : Mem K V) (a : Nat) (v : Int) : Option (Mem K V) :=
  match m a with
  | none => none
  | some n => some (m.write a { n with priority := v })

/-- The statement `if (n != NULL) n->parent = p;`. -/
def setParentIfAny (m : Mem K V) (n : Ptr) (v : Ptr) : Option (Mem K V) :=
  match n with
  | none => some m
  | some a => setParent m a v

/-- The statement
`if (g != NULL) { if (g->left == p) g->left = q; else g->right = q; } else *t = q;`
which redirects the link that pointed at `p` (treap.c lines 27-33, 206-212 and
226-232): the new heap and the new content of the root cell. -/
def relink (m : Mem K V) (root : Ptr) (g : Ptr) (p : Nat) (q : Ptr) :
    Option (Mem K V × Ptr) :=
  match g with
  | some g => do
    let gn ← m g
    if gn.left = some p then
      let m ← setLeft m g q
      pure (m, root)
    else
      let m ← setRight m g q
      pure (m, root)
  | none => pure (m, q)

/-- The function `sift_upwards` (treap.c lines 14-46); one unit of fuel per
evaluation of the loop condition. -/
def sift_upwards : Nat → State K V → Nat → Option (State K V)
  | 0, _, _ => none
  | fuel + 1, s, q => do
    let qn ← s.mem q
    match qn.parent with
    | none => pure s
    | some p0 =>
      let pn0 ← s.mem p0
      if pn0.priority < qn.priority then do
        -- p = q->parent; q->parent = p->parent; p->parent = q;
        let p := p0
        let pn ← s.mem p
        let m ← setParent s.mem q pn.parent
        let m ← setParent m p (some q)
        -- if (q->parent != NULL) ... else *t = q;
        let qn ← m q
        let (m, root) ← relink m s.root qn.parent p (some q)
        -- if (q == p->left) right rotation else left rotation
        let pn ← m p
        let (m, n) ← (if some q = pn.left then do
            let qn ← m q
            let n := qn.right
            let m ← setRight m q (some p)
            let m ← setLeft m p n
            pure (m, n)
          else do
            let qn ← m q
            let n := qn.left
            let m ← setLeft m q (some p)
            let m ← setRight m p n
            pure (m, n))
        -- if (n != NULL) n->parent = p;
        let m ← setParentIfAny m n (some p)
        sift_upwards fuel { s with mem := m, root := root } q
      else pure s

/-- The descent loop of `Treap_Lookup` (lines 58-65), which `Treap_Delete`
repeats verbatim (lines 179-187): the final value of `p`. -/
def descend (cmp : K → K → Int) (k : K) (m : Mem K V) : Nat → Ptr → Option Ptr
  | 0, _ => none
  | _ + 1, none => some none
  | fuel + 1, some p => do
    let pn ← m p
    let c := cmp k pn.key
    if c < 0 then descend cmp k m fuel pn.left
    else if c > 0 then descend cmp k m fuel pn.right
    else pure (some p)

/-- The function `Treap_Lookup` (treap.c lines 48-79): the new state and the
returned pointer. -/
def Treap_Lookup (fuel : Nat) (s : State K V) (cmp : K → K → Int) (k : K) :
    Option (State K V × treap_data_element V) := do
  let p ← descend cmp k s.mem fuel s.root
  match p with
  | none => pure (s, none)
  | some p =>
    let new_priority := s.rand s.draws
    let s := { s with draws := s.draws + 1 }
    let pn ← s.mem p
    if new_priority ≤ pn.priority then pure (s, pn.data)
    else do
      let m ← setPriority s.mem p new_priority
      let s ← sift_upwards fuel { s with mem := m } p
      let pn ← s.mem p
      pure (s, pn.data)

/-- The descent loop of `Treap_Insert` (lines 145-149): the heap (in which
`q->parent` has been overwritten on every iteration) and the final value of `c`. -/
def insert_loop (cmp : K → K → Int) (k : K) (q : Nat) :
    Nat → Mem K V → Ptr → Int → Option (Mem K V × Int)
  | 0, _, _, _ => none
  | _ + 1, m, none, c => some (m, c)
  | fuel + 1, m, some n, _ => do
    let m ← setParent m q (some n)
    let nn ← m n
    let c := cmp k nn.key
    insert_loop cmp k q fuel m (if c < 0 then nn.left else nn.right) c

/-- The function `Treap_Insert` (treap.c lines 118-163); `q` is the address
returned by `malloc`. -/
def Treap_Insert (fuel : Nat) (s : State K V) (cmp : K → K → Int) (k : K)
    (d : treap_data_element V) (q : Nat) : Option (State K V) := do
  let n := s.root
  let c : Int := 0
  let m := s.mem.write q
    { key := k, data := d, left := none, right := none, parent := none,
      priority := s.rand s.draws }
  let s := { s with mem := m, draws := s.draws + 1 }
  match s.root with
  | none => pure { s with root := some q }
  | some _ =>
    let (m, c) ← insert_loop cmp k q fuel s.mem n c
    let qn ← m q
    let par ← qn.parent
    let m ← (if c < 0 then setLeft m par (some q) else setRight m par (some q))
    sift_upwards fuel { s with mem := m } q

/-- The push-down loop of `Treap_Delete` (lines 194-216). -/
def delete_loop : Nat → Mem K V → Ptr → Nat → Option (Mem K V × Ptr)
  | 0, _, _, _ => none
  | fuel + 1, m, root, p => do
    let pn ← m p
    match pn.left, pn.right with
    | some l, some r =>
      let ln ← m l
      let rn ← m r
      let (m, q, n) ← (if ln.priority > rn.priority then do
          let q := l
          let qn ← m q
          let n := qn.right
          let m ← setRight m q (some p)
          let m ← setLeft m p n
          pure (m, q, n)
        else do
          let q := r
          let qn ← m q
          let n := qn.left
          let m ← setLeft m q (some p)
          let m ← setRight m p n
          pure (m, q, n))
      let pn ← m p
      let (m, root) ← relink m root pn.parent p (some q)
      let pn ← m p
      let m ← setParent m q pn.parent
      let m ← setParent m p (some q)
      let m ← setParentIfAny m n (some p)
      delete_loop fuel m root p
    | _, _ => pure (m, root)

/-- The function `Treap_Delete` (treap.c lines 165-243): the new state, the
final content of the cell `*k`, and the returned pointer. -/
def Treap_Delete (fuel : Nat) (s : State K V) (cmp : K → K → Int) (k : K) :
    Option (State K V × K × treap_data_element V) := do
  let p ← descend cmp k s.mem fuel s.root
  match p with
  | none => pure (s, k, none)
  | some p =>
    let (m, root) ← delete_loop fuel s.mem s.root p
    let pn ← m p
    let q := if pn.left = none then pn.right else pn.left
    let pn ← m p
    let m ← setParentIfAny m q pn.parent
    let pn ← m p
    let (m, root) ← relink m root pn.parent p q
    let pn ← m p
    pure ({ s with mem := m.release p, root := root }, pn.key, pn.data)

/-- The loop `while (p->left != NULL) p = p->left;`. -/
def leftmost (m : Mem K V) : Nat → Nat → Option Nat
  | 0, _ => none
  | fuel + 1, p => do
    let pn ← m p
    match pn.left with
    | none => pure p
    | some l => leftmost m fuel l

/-- The ascent `while ((p->parent != NULL) && (p == p->parent->right)) p = p->parent;`
of `Treap_Iterate` (lines 268-269). -/
def climb (m : Mem K V) : Nat → Nat → Option Nat
  | 0, _ => none
  | fuel + 1, p => do
    let pn ← m p
    match pn.parent with
    | none => pure p
    | some g =>
      let gn ← m g
      if some p = gn.right then climb m fuel g else pure p

/-- The `do ... while (p != NULL)` loop of `Treap_Iterate` (lines 257-272).
The callback `it` carries its own state `σ` and returns the C `int`.  The two
inner loops run on the fuel `inner`, the outer loop on the fuel it recurses on. -/
def iterate_loop {σ : Type} (m : Mem K V) (it : σ → K → treap_data_element V → σ × Int)
    (inner : Nat) : Nat → Nat → σ → Option σ
  | 0, _, _ => none
  | fuel + 1, p, st => do
    let pn ← m p
    let (st, stop) := it st pn.key pn.data
    if stop ≠ 0 then pure st
    else do
      let pn ← m p
      let next ← (match pn.right with
        | some r => do
          let p ← leftmost m inner r
          pure (some p)
        | none => do
          let p ← climb m inner p
          let pn ← m p
          pure pn.parent)
      match next with
      | none => pure st
      | some p => iterate_loop m it inner fuel p st

/-- The function `Treap_Iterate` (treap.c lines 245-273): the state of the
callback after the run. -/
def Treap_Iterate {σ : Type} (fuel : Nat) (s : State K V)
    (it : σ → K → treap_data_element V → σ × Int) (st : σ) : Option σ :=
  match s.root with
  | none => pure st
  | some p => do
    let p ← leftmost s.mem fuel p
    iterate_loop s.mem it fuel fuel p st

/-- The function `Treap_Lookup_First` (treap.c lines 275-290): the final
content of the cell `*k` and the returned pointer. -/
def Treap_Lookup_First (fuel : Nat) (s : State K V) (k : K) :
    Option (State K V × K × treap_data_element V) :=
  match s.root with
  | none => pure (s, k, none)
  | some n => do
    let n ← leftmost s.mem fuel n
    let nn ← s.mem n
    pure (s, nn.key, nn.data)

/-- The function `Treap_Delete_First` (treap.c lines 292-319): the new state,
the final content of the cell `*k`, and the returned pointer. -/
def Treap_Delete_First (fuel : Nat) (s : State K V) (k : K) :
    Option (State K V × K × treap_data_element V) :=
  match s.root with
  | none => pure (s, k, none)
  | some n => do
    let n ← leftmost s.mem fuel n
    let nn ← s.mem n
    let p := nn.parent
    let (m, root) ← (match p with
      | some p => do
        let m ← setLeft s.mem p nn.right
        pure (m, s.root)
      | none => pure (s.mem, nn.right))
    let nn ← m n
    let m ← setParentIfAny m nn.right p
    let nn ← m n
    pure ({ s with mem := m.release n, root := root }, nn.key, nn.data)

/-! ## The abstract tree of a heap -/

/-- What a node stores apart from its three links, with the address of its cell. -/
structure Entry (K V : Type) where
  addr : Nat
  key : K
  data : treap_data_element V
  priority : Int
deriving DecidableEq

/-- A finite binary tree of entries. -/
inductive Tree (K V : Type) where
  | nil : Tree K V
  | node (l : Tree K V) (x : Entry K V) (r : Tree K V) : Tree K V
deriving DecidableEq

/-- The pointer to the root node of a tree. -/
def Tree.ptr : Tree K V → Ptr
  | .nil => none
  | .node _ x _ => some x.addr

/-- The entries in in-order (left subtree, node, right subtree). -/
def Tree.entries : Tree K V → List (Entry K V)
  | .nil => []
  | .node l x r => l.entries ++ x :: r.entries

/-- The addresses of the nodes, in in-order. -/
def Tree.addrs (t : Tree K V) : List Nat := t.entries.map Entry.addr

/-- The number of nodes. -/
def Tree.size : Tree K V → Nat
  | .nil => 0
  | .node l _ r => l.size + 1 + r.size

/-- The cell that holds entry `x` with the given links. -/
abbrev cell (x : Entry K V) (l r par : Ptr) : Treap_node K V :=
  { key := x.key, data := x.data, left := l, right := r, parent := par,
    priority := x.priority }

/-- The heap holds the tree `t` below a node whose address is `par`: every
cell has the entry and child links of `t`, and its `parent` field is the
structural parent. -/
def Repr (m : Mem K V) : Ptr → Tree K V → Prop
  | _, .nil => True
  | par, .node l x r =>
    m x.addr = some (cell x l.ptr r.ptr par) ∧ Repr m (some x.addr) l ∧ Repr m (some x.addr) r

/-- The heap holds the tree `t` as far as keys, data, priorities and child
links go; the `parent` fields are not looked at. -/
def Fwd (m : Mem K V) : Tree K V → Prop
  | .nil => True
  | .node l x r =>
    (∃ par, m x.addr = some (cell x l.ptr r.ptr par)) ∧ Fwd m l ∧ Fwd m r

/-- The nodes reachable from the root cell along `left` and `right` form the
tree `t`, each node in a cell of its own. -/
def Shape (s : State K V) (t : Tree K V) : Prop :=
  s.root = t.ptr ∧ Fwd s.mem t ∧ t.addrs.Nodup

/-- Back-link consistency (invariant 3 of the data model) on the nodes of `t`:
the root's parent is absent, and for all nodes `n`, `p` the field `n->parent`
is `p` exactly when `n` is `p->left` or `p->right`, and never both. -/
def BackLinks (s : State K V) (t : Tree K V) : Prop :=
  (∀ a, s.root = some a → ∀ n, s.mem a = some n → n.parent = none) ∧
  ∀ a ∈ t.addrs, ∀ b ∈ t.addrs, ∀ n p, s.mem a = some n → s.mem b = some p →
    ((n.parent = some b ↔ (p.left = some a ∨ p.right = some a)) ∧
      ¬ (p.left = some a ∧ p.right = some a))

/-- The state holds a well-formed treap structure whose tree is `t`: the
shape is that of `t` and the parent links mirror it. -/
def IsTreap (s : State K V) (t : Tree K V) : Prop :=
  Shape s t ∧ BackLinks s t

/-! ## Trees with a hole -/

/-- One step on the way from a node up to the root. -/
inductive Frame (K V : Type) where
  | left (x : Entry K V) (r : Tree K V) : Frame K V
  | right (l : Tree K V) (x : Entry K V) : Frame K V

/-- The way from a hole up to the root, innermost step first. -/
abbrev Path (K V : Type) := List (Frame K V)

/-- The entry of the node of a frame. -/
def Frame.entry : Frame K V → Entry K V
  | .left x _ => x
  | .right _ x => x

/-- The sibling subtree kept in a frame. -/
def Frame.sibling : Frame K V → Tree K V
  | .left _ r => r
  | .right l _ => l

/-- Fill the hole of a path with a tree. -/
def plug : Path K V → Tree K V → Tree K V
  | [], t => t
  | .left x r :: c, t => plug c (.node t x r)
  | .right l x :: c, t => plug c (.node l x t)

/-- The pointer to the node directly above the hole. -/
def Path.par : Path K V → Ptr
  | [] => none
  | f :: _ => some f.entry.addr

/-- The entries that come before the hole in in-order. -/
def Path.before : Path K V → List (Entry K V)
  | [] => []
  | .left _ _ :: c => Path.before c
  | .right l x :: c => Path.before c ++ (l.entries ++ [x])

/-- The entries that come after the hole in in-order. -/
def Path.after : Path K V → List (Entry K V)
  | [] => []
  | .left x r :: c => x :: r.entries ++ Path.after c
  | .right _ _ :: c => Path.after c

/-- All addresses of a path: its nodes and their sibling subtrees. -/
def Path.addrs (c : Path K V) : List Nat :=
  (Path.before c ++ Path.after c).map Entry.addr

/-- The heap holds the path `c` with the pointer `h` in its hole, and the
root cell is `root`. -/
def PRepr (m : Mem K V) (root : Ptr) : Path K V → Ptr → Prop
  | [], h => root = h
  | .left x r :: c, h =>
    m x.addr = some (cell x h r.ptr (Path.par c)) ∧ Repr m (some x.addr) r ∧
      PRepr m root c (some x.addr)
  | .right l x :: c, h =>
    m x.addr = some (cell x l.ptr h (Path.par c)) ∧ Repr m (some x.addr) l ∧
      PRepr m root c (some x.addr)

/-- The state holds the tree `plug c t`, seen as the subtree `t` in the
hole of the path `c`. -/
def Zip (s : State K V) (c : Path K V) (t : Tree K V) : Prop :=
  PRepr s.mem s.root c t.ptr ∧ Repr s.mem (Path.par c) t ∧
    (Path.addrs c ++ t.addrs).Nodup

/-! ## What the operations do to the tree -/

/-- What `sift_upwards` does, seen on the tree: `t` is the subtree of `q` in
the hole of `c`; the result is the path and the subtree of `q` at the end. -/
def siftZ : Path K V → Tree K V → Path K V × Tree K V
  | .left y r :: c, .node a x b =>
    if y.priority < x.priority then siftZ c (.node a x (.node b y r))
    else (.left y r :: c, .node a x b)
  | .right l y :: c, .node a x b =>
    if y.priority < x.priority then siftZ c (.node (.node l y a) x b)
    else (.right l y :: c, .node a x b)
  | c, t => (c, t)

/-- The descent of `Treap_Lookup` and `Treap_Delete`, seen on the tree: the
path walked and the subtree at which the loop stops (`nil` when the key is
not found). -/
def descendZ (cmp : K → K → Int) (k : K) : Path K V → Tree K V → Path K V × Tree K V
  | c, .nil => (c, .nil)
  | c, .node l x r =>
    if cmp k x.key < 0 then descendZ cmp k (.left x r :: c) l
    else if cmp k x.key > 0 then descendZ cmp k (.right l x :: c) r
    else (c, .node l x r)

/-- What `Treap_Lookup` does to the tree when `random ()` returns `rnd`. -/
def lookupTree (cmp : K → K → Int) (k : K) (rnd : Int) (t : Tree K V) : Tree K V :=
  match (descendZ cmp k [] t).2 with
  | .nil => t
  | .node a x b =>
    if rnd ≤ x.priority then t
    else
      plug (siftZ (descendZ cmp k [] t).1 (.node a { x with priority := rnd } b)).1
        (siftZ (descendZ cmp k [] t).1 (.node a { x with priority := rnd } b)).2

/-- What `Treap_Lookup` returns: the data of the node at which the descent
stops, `NULL` when there is none. -/
def lookupData (cmp : K → K → Int) (k : K) (t : Tree K V) : treap_data_element V :=
  match (descendZ cmp k [] t).2 with
  | .nil => none
  | .node _ x _ => x.data

/-- Whether the descent of `Treap_Lookup` stops at a node. -/
def lookupHit (cmp : K → K → Int) (k : K) (t : Tree K V) : Bool :=
  match (descendZ cmp k [] t).2 with
  | .nil => false
  | .node _ _ _ => true

/-- The descent of `Treap_Insert`, seen on the tree: the path to the empty
slot where the new leaf is attached (equal keys go right). -/
def insertZ (cmp : K → K → Int) (k : K) : Path K V → Tree K V → Path K V
  | c, .nil => c
  | c, .node l x r =>
    if cmp k x.key < 0 then insertZ cmp k (.left x r :: c) l
    else insertZ cmp k (.right l x :: c) r

/-- What `Treap_Insert` does to the tree; `e` is the entry of the new node. -/
def insertTree (cmp : K → K → Int) (e : Entry K V) (t : Tree K V) : Tree K V :=
  plug (siftZ (insertZ cmp e.key [] t) (.node .nil e .nil)).1
    (siftZ (insertZ cmp e.key [] t) (.node .nil e .nil)).2

/-- Whether the hole of a path is a left child. -/
def Path.holeIsLeft : Path K V → Bool
  | .left _ _ :: _ => true
  | _ => false

/-- The push-down loop of `Treap_Delete`, seen on the tree: the node `x`
with subtrees `l` and `r` sits in the hole of `c`; the result is the path
to `x` and its two subtrees when the loop stops.  The first argument bounds the
number of rotations. -/
def pushDown : Nat → Path K V → Tree K V → Entry K V → Tree K V →
    Path K V × Tree K V × Tree K V
  | n + 1, c, .node ll lx lr, x, .node rl rx rr =>
    if lx.priority > rx.priority then pushDown n (.right ll lx :: c) lr x (.node rl rx rr)
    else pushDown n (.left rx rr :: c) (.node ll lx lr) x rl
  | _, c, l, _, r => (c, l, r)

/-- The child that replaces a node with at most one child
(`if (p->left == NULL) q = p->right; else q = p->left;`). -/
def soleChild : Tree K V → Tree K V → Tree K V
  | .nil, r => r
  | l, _ => l

/-- The tree after the node `x` (with subtrees `l` and `r`, in the hole of
`c`) has been pushed down and spliced out. -/
def removeAt (c : Path K V) (l : Tree K V) (x : Entry K V) (r : Tree K V) : Tree K V :=
  plug (pushDown (l.size + r.size) c l x r).1
    (soleChild (pushDown (l.size + r.size) c l x r).2.1 (pushDown (l.size + r.size) c l x r).2.2)

/-- What `Treap_Delete` does to the tree. -/
def deleteTree (cmp : K → K → Int) (k : K) (t : Tree K V) : Tree K V :=
  match (descendZ cmp k [] t).2 with
  | .nil => t
  | .node l x r => removeAt (descendZ cmp k [] t).1 l x r

/-- The loop `while (n->left != NULL) n = n->left;`, seen on the tree: the
path to the leftmost node and the subtree of that node. -/
def leftZ : Path K V → Tree K V → Path K V × Tree K V
  | c, .nil => (c, .nil)
  | c, .node .nil x r => (c, .node .nil x r)
  | c, .node l x r => leftZ (.left x r :: c) l

/-- The entry that `Treap_Lookup_First` and `Treap_Delete_First` hand back:
the one of the leftmost node. -/
def firstEntry (t : Tree K V) : Option (Entry K V) :=
  match (leftZ [] t).2 with
  | .nil => none
  | .node _ x _ => some x

/-- What `Treap_Delete_First` does to the tree. -/
def deleteFirstTree (t : Tree K V) : Tree K V :=
  match leftZ [] t with
  | (_, .nil) => t
  | (c, .node _ _ r) => plug c r

/-- The calls of the callback on a list of entries, up to and including the
first call that returns non-zero: the state of the callback at the end. -/
def visit {σ : Type} (it : σ → K → treap_data_element V → σ × Int) :
    List (Entry K V) → σ → σ
  | [], st => st
  | x :: xs, st =>
    if (it st x.key x.data).2 ≠ 0 then (it st x.key x.data).1
    else visit it xs (it st x.key x.data).1

/-- The ascent of `Treap_Iterate`, seen on the tree: leave every node that is
a right child. -/
def climbZ : Path K V → Tree K V → Path K V × Tree K V
  | .right l y :: c, t => climbZ c (.node l y t)
  | c, t => (c, t)

/-! ## The invariants of the data model, on the tree -/

/-- The macro `mcmp` of treap.c (lines 115-116), on integers. -/
def mcmp (x y : Int) : Int := if x < y then -1 else if x = y then 0 else 1

/-- What the comparator contract of section 6 asks of `cmp`: the sign of
`cmp a b` says whether `a` is before, equivalent to, or after `b`, and
"not after" is transitive. -/
structure StrictCmp (cmp : K → K → Int) : Prop where
  antisymm : ∀ a b, cmp a b < 0 ↔ 0 < cmp b a
  trans : ∀ a b c, cmp a b ≤ 0 → cmp b c ≤ 0 → cmp a c ≤ 0

/-- The key entries of a tree, in in-order. -/
def Tree.keys (t : Tree K V) : List K := t.entries.map Entry.key

/-- The BST invariant: every key in the left subtree of a node compares less
than the node's key, every key in its right subtree compares greater. -/
def BST (cmp : K → K → Int) : Tree K V → Prop
  | .nil => True
  | .node l x r =>
    (∀ y ∈ l.entries, cmp y.key x.key < 0) ∧ (∀ y ∈ r.entries, 0 < cmp y.key x.key) ∧
      BST cmp l ∧ BST cmp r

/-- A list of entries is strictly ascending by key. -/
def Ascending (cmp : K → K → Int) (es : List (Entry K V)) : Prop :=
  es.Pairwise fun a b => cmp a.key b.key < 0

/-- The root of `t`, if there is one, has priority at most `p`. -/
def rootLe (p : Int) : Tree K V → Prop
  | .nil => True
  | .node _ x _ => x.priority ≤ p

/-- The heap invariant: the priority of every non-root node is at most the
priority of its parent. -/
def Heap : Tree K V → Prop
  | .nil => True
  | .node l x r => rootLe x.priority l ∧ rootLe x.priority r ∧ Heap l ∧ Heap r

/-- The heap invariant on a path: on every edge of the path, and inside every
sibling subtree. -/
def HeapPath : Path K V → Prop
  | [] => True
  | f :: c =>
    rootLe f.entry.priority f.sibling ∧ Heap f.sibling ∧
      (match c with
        | [] => True
        | g :: _ => f.entry.priority ≤ g.entry.priority) ∧
      HeapPath c

/-- The root of the tree in the hole has priority at most that of the node above. -/
def HoleLe (c : Path K V) (t : Tree K V) : Prop :=
  match c with
  | [] => True
  | f :: _ => rootLe f.entry.priority t

/-- The decisions of the descent of `Treap_Insert` for key `k` along a path. -/
def Decided (cmp : K → K → Int) (k : K) : Path K V → Prop
  | [] => True
  | .left x _ :: c => cmp k x.key < 0 ∧ Decided cmp k c
  | .right _ x :: c => ¬ cmp k x.key < 0 ∧ Decided cmp k c

/-- The tree handle points at the one node of `t` whose parent is absent, and
is `NULL` when `t` has no node. -/
def HandleAtOrphan (s : State K V) (t : Tree K V) : Prop :=
  (t = .nil → s.root = none) ∧
  ∀ a ∈ t.addrs, ∀ n, s.mem a = some n → (n.parent = none ↔ s.root = some a)

/-! ## A caller, and the example of the specification -/

/-- A caller that inserts the pairs of a list one after the other; the third
component of an item is the address `malloc` returns for its node. -/
def insertAll (fuel : Nat) (cmp : K → K → Int) :
    State K V → List (K × treap_data_element V × Nat) → Option (State K V)
  | s, [] => some s
  | s, (k, d, q) :: xs =>
    match Treap_Insert fuel s cmp k d q with
    | none => none
    | some s' => insertAll fuel cmp s' xs

/-- A callback for `Treap_Iterate` that records the pairs it is called on and
never asks to stop. -/
def collect (st : List (K × treap_data_element V)) (k : K) (d : treap_data_element V) :
    List (K × treap_data_element V) × Int :=
  (st ++ [(k, d)], 0)

/-- An empty treap over integer keys, with nothing allocated, whose random
source returns 5, 3, 9, 1, 7 and then 0 for ever. -/
def demoEmpty : State Int String :=
  { mem := fun _ => none, root := none, rand := fun i => [5, 3, 9, 1, 7].getD i 0, draws := 0 }

/-- The example of section 8: the keys 5, 3, 8, 1, 4 in this order, with the
addresses 1 to 5. -/
def demoItems : List (Int × treap_data_element String × Nat) :=
  [(5, some "a", 1), (3, some "b", 2), (8, some "c", 3), (1, some "d", 4), (4, some "e", 5)]

/-- The state after the five insertions of the example. -/
def demoState : State Int String :=
  (insertAll 6 mcmp demoEmpty demoItems).getD demoEmpty

/-- The tree of `demoState`. -/
def demoTree : Tree Int String :=
  .node (.node (.node (.node .nil ⟨4, 1, some "d", 1⟩ .nil) ⟨2, 3, some "b", 3⟩ .nil)
    ⟨5, 4, some "e", 7⟩ (.node .nil ⟨1, 5, some "a", 5⟩ .nil)) ⟨3, 8, some "c", 9⟩ .nil

/-- The state after `Insert(10, "x")` on the empty treap (the node at address 1). -/
def demoOne : State Int String :=
  (Treap_Insert 1 demoEmpty mcmp 10 (some "x") 1).getD demoEmpty

/-! ## Callers that record what the operations hand back -/

/-- A callback for `Treap_Iterate` wrapped so that every call is recorded: the
state carries, next to the state of `it`, the list of the pairs `it` has been
called on so far. -/
def traced {σ : Type} (it : σ → K → treap_data_element V → σ × Int) :
    σ × List (K × treap_data_element V) → K → treap_data_element V →
      (σ × List (K × treap_data_element V)) × Int :=
  fun st k d => (((it st.1 k d).1, st.2 ++ [(k, d)]), (it st.1 k d).2)

/-- The listing `ps` cut off immediately after the first pair on which the
callback, started in state `st`, returns a non-zero value (the whole of `ps`
when there is no such pair). -/
def calls {σ : Type} (it : σ → K → treap_data_element V → σ × Int) :
    List (K × treap_data_element V) → σ → List (K × treap_data_element V)
  | [], _ => []
  | p :: ps, st =>
    if (it st p.1 p.2).2 ≠ 0 then [p] else p :: calls it ps (it st p.1 p.2).1

/-- The recursive in-order listing (left subtree, node, right subtree) of the
(key, value) pairs of a tree. -/
def Tree.listing : Tree K V → List (K × treap_data_element V)
  | .nil => []
  | .node l x r => l.listing ++ (x.key, x.data) :: r.listing

/-- A callback that counts its calls and asks to stop at the key `k0`. -/
def stopAt (k0 : Int) (n : Nat) (k : Int) (_ : treap_data_element String) : Nat × Int :=
  (n + 1, if k = k0 then 1 else 0)

/-- The state after `Insert(10, NULL)` on the empty treap (the node at address
1): a stored value that is the null pointer. -/
def demoNull : State Int String :=
  (Treap_Insert 1 demoEmpty mcmp 10 none 1).getD demoEmpty

/-- The tree of `demoNull`. -/
def demoNullTree : Tree Int String := .node .nil ⟨1, 10, none, 5⟩ .nil

/-- A caller that calls `Treap_Delete_First` `n` times in a row on the same
treap and the same key cell: the state at the end and, for each call in turn,
the content of the key cell after the call and the returned pointer. -/
def drain (fuel : Nat) :
    Nat → State K V → K → Option (State K V × List (K × treap_data_element V))
  | 0, s, _ => some (s, [])
  | n + 1, s, k =>
    match Treap_Delete_First fuel s k with
    | none => none
    | some (s', k', d) =>
      match drain fuel n s' k' with
      | none => none
      | some (s'', out) => some (s'', (k', d) :: out)

/-! ## The bodies of the loops -/

/-- The body of the loop of `sift_upwards` (treap.c lines 23-44): one rotation
that moves `q` above its parent.  The loop runs it only when `q->parent` is not
`NULL`; without a parent the result is `none`. -/
def sift_body (s : State K V) (q : Nat) : Option (State K V) := do
  -- p = q->parent; q->parent = p->parent; p->parent = q;
  let qn ← s.mem q
  let p ← qn.parent
  let pn ← s.mem p
  let m ← setParent s.mem q pn.parent
  let m ← setParent m p (some q)
  -- if (q->parent != NULL) ... else *t = q;
  let qn ← m q
  let (m, root) ← relink m s.root qn.parent p (some q)
  -- if (q == p->left) right rotation else left rotation
  let pn ← m p
  let (m, n) ← (if some q = pn.left then do
      let qn ← m q
      let n := qn.right
      let m ← setRight m q (some p)
      let m ← setLeft m p n
      pure (m, n)
    else do
      let qn ← m q
      let n := qn.left
      let m ← setLeft m q (some p)
      let m ← setRight m p n
      pure (m, n))
  -- if (n != NULL) n->parent = p;
  let m ← setParentIfAny m n (some p)
  pure { s with mem := m, root := root }

/-- The body of the push-down loop of `Treap_Delete` (treap.c lines 195-215):
one rotation that moves the child of `p` with the larger priority above `p`
(the right child on a tie).  The loop runs it only when both children of `p`
are present; otherwise the result is `none`. -/
def delete_body (m : Mem K V) (root : Ptr) (p : Nat) : Option (Mem K V × Ptr) := do
  let pn ← m p
  let l ← pn.left
  let r ← pn.right
  let ln ← m l
  let rn ← m r
  let (m, q, n) ← (if ln.priority > rn.priority then do
      let q := l
      let qn ← m q
      let n := qn.right
      let m ← setRight m q (some p)
      let m ← setLeft m p n
      pure (m, q, n)
    else do
      let q := r
      let qn ← m q
      let n := qn.left
      let m ← setLeft m q (some p)
      let m ← setRight m p n
      pure (m, q, n))
  let pn ← m p
  let (m, root) ← relink m root pn.parent p (some q)
  let pn ← m p
  let m ← setParent m q pn.parent
  let m ← setParent m p (some q)
  let m ← setParentIfAny m n (some p)
  pure (m, root)

/-! ## Rotations and the heap invariant, on the cells -/

/-- The node `q` has taken the place of the node `p`, and `p` has become a
child of `q`: in the state `s1` the parent of `q` is what the parent of `p` was
in `s`, the link that pointed at `p` (the child pointer of that parent, or the
root cell when `p` had no parent) points at `q`, and `p` is a child of `q` with
`q` as its parent. -/
def Swapped (s s1 : State K V) (p q : Nat) : Prop :=
  ∃ pn pn1 qn1, s.mem p = some pn ∧ s1.mem p = some pn1 ∧ s1.mem q = some qn1 ∧
    qn1.parent = pn.parent ∧ pn1.parent = some q ∧
    (qn1.left = some p ∨ qn1.right = some p) ∧
    (match pn.parent with
      | none => s.root = some p ∧ s1.root = some q
      | some g => ∃ gn gn1, s.mem g = some gn ∧ s1.mem g = some gn1 ∧
          ((gn.left = some p ∧ gn1.left = some q ∧ gn1.right = gn.right) ∨
            (gn.right = some p ∧ gn1.right = some q ∧ gn1.left = gn.left)))

/-- A three-node tree in the heap: the root `p` (address 1, key 20, priority
5), its left child `q` (address 2, key 10, priority 10) and the right child `b`
of `q` (address 3, key 15, priority 8).  The edge between `q` and `p` is the
only one on which the child has the larger priority. -/
def demoSift : State Int String :=
  ⟨fun a =>
      if a = 1 then some ⟨20, some "p", some 2, none, none, 5⟩
      else if a = 2 then some ⟨10, some "q", none, some 3, some 1, 10⟩
      else if a = 3 then some ⟨15, some "b", none, none, some 2, 8⟩
      else none,
    some 1, fun _ => 0, 0⟩

/-- The subtree of `q` in `demoSift`. -/
def demoSiftSub : Tree Int String :=
  .node .nil ⟨2, 10, some "q", 10⟩ (.node .nil ⟨3, 15, some "b", 8⟩ .nil)

/-- The path from `q` to the root in `demoSift`. -/
def demoSiftPath : Path Int String := [.left ⟨1, 20, some "p", 5⟩ .nil]

/-- The tree of `demoSift` after `sift_upwards` on `q`. -/
def demoSiftOut : Tree Int String :=
  .node .nil ⟨2, 10, some "q", 10⟩
    (.node (.node .nil ⟨3, 15, some "b", 8⟩ .nil) ⟨1, 20, some "p", 5⟩ .nil)

/-- The heap invariant read off the cells: the priority of every node that
has a parent is at most the priority of that parent. -/
def HeapOrdered (s : State K V) (t : Tree K V) : Prop :=
  ∀ a ∈ t.addrs, ∀ n p pn, s.mem a = some n → n.parent = some p → s.mem p = some pn →
    n.priority ≤ pn.priority

/-- The state after `sift_upwards` on `q` in `demoSift`. -/
def demoSiftAfter : State Int String :=
  (sift_upwards 2 demoSift 2).getD demoSift

/-- The state `demoSift` with the priority of `b` lowered to 4. -/
def demoSiftOk : State Int String :=
  ⟨demoSift.mem.write 3 ⟨15, some "b", none, none, some 2, 4⟩, demoSift.root, demoSift.rand,
    demoSift.draws⟩

/-! ## Measures for the loops -/

/-- The depth of the node at `a`: the number of `parent` links to follow from
`a` up to a node without parent. -/
def depth (m : Mem K V) : Nat → Nat → Option Nat
  | 0, _ => none
  | fuel + 1, a => do
    let n ← m a
    match n.parent with
    | none => pure 0
    | some p => do
      let d ← depth m fuel p
      pure (d + 1)

/-- The number of nodes in the subtree below the pointer `a`, counted along
the `left` and `right` links. -/
def subtree_size (m : Mem K V) : Nat → Ptr → Option Nat
  | 0, _ => none
  | _ + 1, none => some 0
  | fuel + 1, some a => do
    let n ← m a
    let l ← subtree_size m fuel n.left
    let r ← subtree_size m fuel n.right
    pure (l + 1 + r)

/-- The successor step of `Treap_Iterate` (treap.c lines 261-271): the value
of `p` at the end of one round of the `do ... while` loop. -/
def successor (m : Mem K V) (inner : Nat) (p : Nat) : Option Ptr := do
  let pn ← m p
  match pn.right with
  | some r => do
    let p ← leftmost m inner r
    pure (some p)
  | none => do
    let p ← climb m inner p
    let pn ← m p
    pure pn.parent

/-- The nodes that the successor step goes through from `p` on, until it
yields `NULL`. -/
def walk (m : Mem K V) (inner : Nat) : Nat → Ptr → Option (List Nat)
  | 0, _ => none
  | _ + 1, none => some []
  | fuel + 1, some p => do
    let next ← successor m inner p
    let rest ← walk m inner fuel next
    pure (p :: rest)

/-- The nodes that `Treap_Iterate` visits when the callback never asks to
stop, in the order of the visits. -/
def visited (fuel : Nat) (s : State K V) : Option (List Nat) :=
  match s.root with
  | none => some []
  | some p => do
    let p ← leftmost s.mem fuel p
    walk s.mem fuel fuel (some p)

/-! ## Trees up to the addresses of their cells -/

/-- The (key, value, priority) triple of an entry. -/
def Entry.triple (e : Entry K V) : K × treap_data_element V × Int :=
  (e.key, e.data, e.priority)

/-- A tree with the addresses of the cells forgotten: what is left is the
shape and the (key, value, priority) triple at every node. -/
def Tree.strip : Tree K V → Tree K V
  | .nil => .nil
  | .node l x r => .node l.strip { x with addr := 0 } r.strip

/-- The items of the example of section 8 as entries: the keys 5, 3, 8, 1, 4
in this order, each with its cell and the priority assigned to it. -/
def demoEntries : List (Entry Int String) :=
  [⟨1, 5, some "a", 5⟩, ⟨2, 3, some "b", 3⟩, ⟨3, 8, some "c", 9⟩, ⟨4, 1, some "d", 1⟩,
    ⟨5, 4, some "e", 7⟩]

/-- The same triples in the reverse order, in other cells. -/
def demoEntriesRev : List (Entry Int String) :=
  [⟨11, 4, some "e", 7⟩, ⟨12, 1, some "d", 1⟩, ⟨13, 8, some "c", 9⟩, ⟨14, 3, some "b", 3⟩,
    ⟨15, 5, some "a", 5⟩]

/-- An empty treap whose random source returns 7, 1, 9, 3, 5. -/
def demoEmptyRev : State Int String :=
  ⟨fun _ => none, none, fun i => [7, 1, 9, 3, 5].getD i 0, 0⟩

/-- The triples of the example without the one of key 3, in yet another order. -/
def demoEntriesRest : List (Entry Int String) :=
  [⟨21, 8, some "c", 9⟩, ⟨22, 1, some "d", 1⟩, ⟨23, 5, some "a", 5⟩, ⟨24, 4, some "e", 7⟩]

/-- An empty treap whose random source returns 9, 1, 5, 7. -/
def demoEmptyRest : State Int String :=
  ⟨fun _ => none, none, fun i => [9, 1, 5, 7].getD i 0, 0⟩

/-! # Proofs -/

/-! ### Basic facts -/

@[simp] theorem write_same (m : Mem K V) (a : Nat) (n : Treap_node K V) :
    m.write a n a = some n := by simp [Mem.write]

@[simp] theorem write_other (m : Mem K V) {a b : Nat} (n : Treap_node K V) (h : b ≠ a) :
    m.write a n b = m b := by simp [Mem.write, h]

@[simp] theorem release_same (m : Mem K V) (a : Nat) : m.release a a = none := by
  simp [Mem.release]

@[simp] theorem release_other (m : Mem K V) {a b : Nat} (h : b ≠ a) :
    m.release a b = m b := by simp [Mem.release, h]

@[simp] theorem entries_nil : (Tree.nil : Tree K V).entries = [] := rfl

@[simp] theorem entries_node (l r : Tree K V) (x : Entry K V) :
    (Tree.node l x r).entries = l.entries ++ x :: r.entries := rfl

@[simp] theorem addrs_nil : (Tree.nil : Tree K V).addrs = [] := rfl

@[simp] theorem addrs_node (l r : Tree K V) (x : Entry K V) :
    (Tree.node l x r).addrs = l.addrs ++ x.addr :: r.addrs := by
  simp [Tree.addrs]

@[simp] theorem ptr_nil : (Tree.nil : Tree K V).ptr = none := rfl

@[simp] theorem ptr_node (l r : Tree K V) (x : Entry K V) :
    (Tree.node l x r).ptr = some x.addr := rfl

theorem entries_length (t : Tree K V) : t.entries.length = t.size := by
  induction t with
  | nil => rfl
  | node l x r ihl ihr => simp [Tree.size, ihl, ihr]; omega

theorem addrs_length (t : Tree K V) : t.addrs.length = t.size := by
  simp [Tree.addrs, entries_length]

theorem ptr_mem_addrs {t : Tree K V} {a : Nat} (h : t.ptr = some a) : a ∈ t.addrs := by
  cases t with
  | nil => simp at h
  | node l x r => simp at h; simp [h]

theorem perm_of_count {l1 l2 : List Nat} (h : ∀ a, l1.count a = l2.count a) : l1.Perm l2 :=
  List.perm_iff_count.mpr h

theorem entries_plug (c : Path K V) (t : Tree K V) :
    (plug c t).entries = Path.before c ++ t.entries ++ Path.after c := by
  induction c generalizing t with
  | nil => simp [plug, Path.before, Path.after]
  | cons f c ih =>
    cases f with
    | left x r => simp [plug, ih, Path.before, Path.after]
    | right l x => simp [plug, ih, Path.before, Path.after]

theorem addrs_plug_perm (c : Path K V) (t : Tree K V) :
    (plug c t).addrs.Perm (Path.addrs c ++ t.addrs) := by
  simp only [Tree.addrs, Path.addrs, entries_plug, List.map_append]
  refine perm_of_count fun a => ?_
  simp only [List.count_append]
  ring

theorem nodup_plug (c : Path K V) (t : Tree K V) :
    (plug c t).addrs.Nodup ↔ (Path.addrs c ++ t.addrs).Nodup :=
  (addrs_plug_perm c t).nodup_iff

theorem Repr.frame {m m' : Mem K V} {par : Ptr} {t : Tree K V}
    (h : Repr m par t) (hm : ∀ a ∈ t.addrs, m' a = m a) : Repr m' par t := by
  induction t generalizing par with
  | nil => trivial
  | node l x r ihl ihr =>
    obtain ⟨h1, h2, h3⟩ := h
    refine ⟨?_, ihl h2 fun a ha => hm a (by simp [ha]), ihr h3 fun a ha => hm a (by simp [ha])⟩
    rw [hm _ (by simp), h1]

theorem Repr.toFwd {m : Mem K V} {par : Ptr} {t : Tree K V} (h : Repr m par t) : Fwd m t := by
  induction t generalizing par with
  | nil => trivial
  | node l x r ihl ihr => exact ⟨⟨_, h.1⟩, ihl h.2.1, ihr h.2.2⟩

@[simp] theorem Repr_write {m : Mem K V} {par : Ptr} {t : Tree K V} {a : Nat}
    {n : Treap_node K V} (ha : a ∉ t.addrs) : Repr (m.write a n) par t ↔ Repr m par t := by
  constructor
  · intro h
    exact h.frame fun b hb => by
      rw [write_other]; rintro rfl; exact ha hb
  · intro h
    exact h.frame fun b hb => by
      rw [write_other]; rintro rfl; exact ha hb

theorem PRepr.pframe {m m' : Mem K V} {root h : Ptr} {c : Path K V}
    (hp : PRepr m root c h) (hm : ∀ a ∈ Path.addrs c, m' a = m a) : PRepr m' root c h := by
  induction c generalizing h with
  | nil => exact hp
  | cons f c ih =>
    cases f with
    | left x r =>
      obtain ⟨h1, h2, h3⟩ := hp
      refine ⟨?_, h2.frame fun a ha => hm a ?_, ih h3 fun a ha => hm a ?_⟩
      · rw [hm _ (by simp [Path.addrs, Path.after]), h1]
      · simp only [Path.addrs, Path.after, Path.before, Tree.addrs] at ha ⊢
        simp only [List.map_append, List.mem_append, List.map_cons, List.mem_cons] at ha ⊢
        tauto
      · simp only [Path.addrs, Path.after, Path.before, Tree.addrs] at ha ⊢
        simp only [List.map_append, List.mem_append, List.map_cons, List.mem_cons] at ha ⊢
        tauto
    | right l x =>
      obtain ⟨h1, h2, h3⟩ := hp
      refine ⟨?_, h2.frame fun a ha => hm a ?_, ih h3 fun a ha => hm a ?_⟩
      · rw [hm _ (by simp [Path.addrs, Path.before]), h1]
      · simp only [Path.addrs, Path.after, Path.before, Tree.addrs] at ha ⊢
        simp only [List.map_append, List.mem_append, List.map_cons, List.mem_cons] at ha ⊢
        tauto
      · simp only [Path.addrs, Path.after, Path.before, Tree.addrs] at ha ⊢
        simp only [List.map_append, List.mem_append, List.map_cons, List.mem_cons] at ha ⊢
        tauto

@[simp] theorem PRepr_write {m : Mem K V} {root h : Ptr} {c : Path K V} {a : Nat}
    {n : Treap_node K V} (ha : a ∉ Path.addrs c) :
    PRepr (m.write a n) root c h ↔ PRepr m root c h := by
  constructor
  · intro hp
    exact hp.pframe fun b hb => by
      rw [write_other]; rintro rfl; exact ha hb
  · intro hp
    exact hp.pframe fun b hb => by
      rw [write_other]; rintro rfl; exact ha hb

/-- Membership in the addresses of a path, frame by frame. -/
theorem mem_addrs_cons_left {x : Entry K V} {r : Tree K V} {c : Path K V} {a : Nat} :
    a ∈ Path.addrs (Frame.left x r :: c) ↔ a = x.addr ∨ a ∈ r.addrs ∨ a ∈ Path.addrs c := by
  simp only [Path.addrs, Path.after, Path.before, Tree.addrs,
    List.map_append, List.mem_append, List.map_cons, List.mem_cons]
  tauto

theorem mem_addrs_cons_right {x : Entry K V} {l : Tree K V} {c : Path K V} {a : Nat} :
    a ∈ Path.addrs (Frame.right l x :: c) ↔ a = x.addr ∨ a ∈ l.addrs ∨ a ∈ Path.addrs c := by
  simp only [Path.addrs, Path.after, Path.before, Tree.addrs,
    List.map_append, List.mem_append, List.map_cons, List.mem_cons, List.map_nil, List.mem_nil_iff]
  tauto

@[simp] theorem addrs_path_nil : Path.addrs ([] : Path K V) = [] := rfl

theorem Repr_plug {m : Mem K V} {root : Ptr} (c : Path K V) (t : Tree K V)
    (hr : root = (plug c t).ptr) :
    Repr m none (plug c t) ↔ PRepr m root c t.ptr ∧ Repr m (Path.par c) t := by
  induction c generalizing t with
  | nil => simp [plug, PRepr, Path.par] at hr ⊢; exact fun _ => hr
  | cons f c ih =>
    cases f with
    | left x r =>
      simp only [plug] at hr ⊢
      rw [ih _ hr]
      simp only [PRepr, Repr, Path.par, Frame.entry, ptr_node]
      tauto
    | right l x =>
      simp only [plug] at hr ⊢
      rw [ih _ hr]
      simp only [PRepr, Repr, Path.par, Frame.entry, ptr_node]
      tauto

theorem PRepr.root_eq {m : Mem K V} {root : Ptr} {c : Path K V} {t : Tree K V}
    (h : PRepr m root c t.ptr) : root = (plug c t).ptr := by
  induction c generalizing t with
  | nil => exact h
  | cons f c ih =>
    cases f with
    | left x r => exact ih (t := .node t x r) h.2.2
    | right l x => exact ih (t := .node l x t) h.2.2

/-! ### Redirecting the link above a node -/

theorem nodup_cons_left {x : Entry K V} {r : Tree K V} {c : Path K V} {l : List Nat} :
    (Path.addrs (Frame.left x r :: c) ++ l).Nodup ↔
      (x.addr :: (r.addrs ++ (Path.addrs c ++ l))).Nodup := by
  apply List.Perm.nodup_iff
  rw [List.perm_iff_count]
  intro a
  simp only [Path.addrs, Path.after, Path.before, Tree.addrs, List.map_append, List.map_cons,
    List.count_append, List.count_cons]
  ring

theorem nodup_cons_right {x : Entry K V} {l' : Tree K V} {c : Path K V} {l : List Nat} :
    (Path.addrs (Frame.right l' x :: c) ++ l).Nodup ↔
      (x.addr :: (l'.addrs ++ (Path.addrs c ++ l))).Nodup := by
  apply List.Perm.nodup_iff
  rw [List.perm_iff_count]
  intro a
  simp only [Path.addrs, Path.after, Path.before, Tree.addrs, List.map_append, List.map_cons,
    List.count_append, List.count_cons, List.map_nil, List.count_nil]
  ring

theorem par_mem_addrs {c : Path K V} {g : Nat} (h : Path.par c = some g) :
    g ∈ Path.addrs c := by
  cases c with
  | nil => simp [Path.par] at h
  | cons f c =>
    cases f with
    | left x r => simp [Path.par, Frame.entry] at h; simp [mem_addrs_cons_left, h]
    | right l x => simp [Path.par, Frame.entry] at h; simp [mem_addrs_cons_right, h]

theorem relink_path {m : Mem K V} {root : Ptr} {c : Path K V} {p : Nat} (q : Ptr)
    (hp : PRepr m root c (some p)) (hnd : (Path.addrs c ++ [p]).Nodup) :
    ∃ m' root', relink m root (Path.par c) p q = some (m', root') ∧ PRepr m' root' c q ∧
      (∀ a, some a ≠ Path.par c → m' a = m a) := by
  cases c with
  | nil => exact ⟨m, q, rfl, rfl, fun _ _ => rfl⟩
  | cons f c =>
    cases f with
    | left x r =>
      obtain ⟨h1, h2, h3⟩ := hp
      rw [nodup_cons_left] at hnd
      simp only [List.nodup_cons, List.mem_append, List.nodup_append, not_or] at hnd
      refine ⟨m.write x.addr (cell x q r.ptr (Path.par c)), root, ?_, ?_, ?_⟩
      · simp [relink, Path.par, Frame.entry, h1, setLeft]
      · refine ⟨by simp, ?_, ?_⟩
        · rw [Repr_write hnd.1.1]; exact h2
        · rw [PRepr_write hnd.1.2.1]; exact h3
      · intro a ha
        simp only [Path.par, Frame.entry, ne_eq, Option.some.injEq] at ha
        exact write_other _ _ ha
    | right l x =>
      obtain ⟨h1, h2, h3⟩ := hp
      rw [nodup_cons_right] at hnd
      simp only [List.nodup_cons, List.mem_append, List.nodup_append, not_or] at hnd
      have hl : l.ptr ≠ some p := fun h => by
        have := ptr_mem_addrs h
        exact hnd.2.2.2 this (List.mem_append_right _ (List.mem_singleton_self p))
      refine ⟨m.write x.addr (cell x l.ptr q (Path.par c)), root, ?_, ?_, ?_⟩
      · simp [relink, Path.par, Frame.entry, h1, setRight, hl]
      · refine ⟨by simp, ?_, ?_⟩
        · rw [Repr_write hnd.1.1]; exact h2
        · rw [PRepr_write hnd.1.2.1]; exact h3
      · intro a ha
        simp only [Path.par, Frame.entry, ne_eq, Option.some.injEq] at ha
        exact write_other _ _ ha

/-! ### `sift_upwards` -/

theorem setParent_eq {m : Mem K V} {a : Nat} {n : Treap_node K V} (v : Ptr)
    (h : m a = some n) : setParent m a v = some (m.write a { n with parent := v }) := by
  simp [setParent, h]

theorem setLeft_eq {m : Mem K V} {a : Nat} {n : Treap_node K V} (v : Ptr)
    (h : m a = some n) : setLeft m a v = some (m.write a { n with left := v }) := by
  simp [setLeft, h]

theorem setRight_eq {m : Mem K V} {a : Nat} {n : Treap_node K V} (v : Ptr)
    (h : m a = some n) : setRight m a v = some (m.write a { n with right := v }) := by
  simp [setRight, h]

/-- The statement `if (n != NULL) n->parent = v;` applied to the root of a
subtree moves the subtree below `v`. -/
theorem reparent_root {m : Mem K V} {par : Ptr} {t : Tree K V} (v : Ptr)
    (h : Repr m par t) (hnd : t.addrs.Nodup) :
    ∃ m', setParentIfAny m t.ptr v = some m' ∧ Repr m' v t ∧
      (∀ e, some e ≠ t.ptr → m' e = m e) := by
  cases t with
  | nil => exact ⟨m, rfl, trivial, fun _ _ => rfl⟩
  | node l x r =>
    obtain ⟨h1, h2, h3⟩ := h
    simp only [addrs_node, List.nodup_append, List.nodup_cons, List.disjoint_cons_right] at hnd
    refine ⟨m.write x.addr (cell x l.ptr r.ptr v), ?_, ⟨by simp, ?_, ?_⟩, ?_⟩
    · simp [setParentIfAny, setParent, h1]
    · rw [Repr_write hnd.2.2.1]; exact h2
    · rw [Repr_write hnd.2.1.1]; exact h3
    · intro e he
      simp only [ptr_node, ne_eq, Option.some.injEq] at he
      exact write_other _ _ he

theorem sift_upwards_step {s : State K V} {q p fuel : Nat} {qn pn pn3 qn3 : Treap_node K V}
    {m3 : Mem K V} {root' : Ptr}
    (hq : s.mem q = some qn) (hqp : qn.parent = some p) (hp : s.mem p = some pn)
    (hlt : pn.priority < qn.priority) (hne : p ≠ q)
    (h3 : relink ((s.mem.write q { qn with parent := pn.parent }).write p
      { pn with parent := some q }) s.root pn.parent p (some q) = some (m3, root'))
    (h3p : m3 p = some pn3) (h3q : m3 q = some qn3) :
    sift_upwards (fuel + 1) s q =
      if some q = pn3.left then
        (setParentIfAny ((m3.write q { qn3 with right := some p }).write p
          { pn3 with left := qn3.right }) qn3.right (some p)).bind
          fun m => sift_upwards fuel { s with mem := m, root := root' } q
      else
        (setParentIfAny ((m3.write q { qn3 with left := some p }).write p
          { pn3 with right := qn3.left }) qn3.left (some p)).bind
          fun m => sift_upwards fuel { s with mem := m, root := root' } q := by
  rw [sift_upwards]
  simp only [hq, hqp, hp, hlt, Option.bind_eq_bind, Option.some_bind, if_true, setParent,
    write_same, write_other _ _ hne, write_other _ _ hne.symm, Option.pure_def, h3, h3p, h3q,
    setRight, setLeft]
  split <;> rfl
/-- The loop of `sift_upwards` is its condition followed by its body. -/
theorem sift_upwards_unfold (fuel : Nat) (s : State K V) (q : Nat) :
    sift_upwards (fuel + 1) s q =
      match s.mem q with
      | none => none
      | some qn =>
        match qn.parent with
        | none => some s
        | some p =>
          match s.mem p with
          | none => none
          | some pn =>
            if pn.priority < qn.priority then
              (sift_body s q).bind fun s1 => sift_upwards fuel s1 q
            else some s := by
  rw [sift_upwards]
  cases h1 : s.mem q with
  | none => rfl
  | some qn =>
    cases h2 : qn.parent with
    | none => simp [h2]
    | some p =>
      cases h3 : s.mem p with
      | none => simp [h2, h3]
      | some pn =>
        by_cases hlt : pn.priority < qn.priority
        · simp only [h2, h3, hlt, if_true, sift_body, h1, Option.bind_eq_bind, Option.some_bind,
            Option.pure_def]
          simp only [Option.bind_assoc, Option.some_bind]
        · simp [h2, h3, hlt]

theorem sift_body_step {s : State K V} {q p : Nat} {qn pn pn3 qn3 : Treap_node K V}
    {m3 : Mem K V} {root' : Ptr}
    (hq : s.mem q = some qn) (hqp : qn.parent = some p) (hp : s.mem p = some pn)
    (hne : p ≠ q)
    (h3 : relink ((s.mem.write q { qn with parent := pn.parent }).write p
      { pn with parent := some q }) s.root pn.parent p (some q) = some (m3, root'))
    (h3p : m3 p = some pn3) (h3q : m3 q = some qn3) :
    sift_body s q =
      if some q = pn3.left then
        (setParentIfAny ((m3.write q { qn3 with right := some p }).write p
          { pn3 with left := qn3.right }) qn3.right (some p)).bind
          fun m => some { s with mem := m, root := root' }
      else
        (setParentIfAny ((m3.write q { qn3 with left := some p }).write p
          { pn3 with right := qn3.left }) qn3.left (some p)).bind
          fun m => some { s with mem := m, root := root' } := by
  unfold sift_body
  simp only [hq, hqp, hp, Option.bind_eq_bind, Option.some_bind, setParent,
    write_same, write_other _ _ hne, write_other _ _ hne.symm, Option.pure_def, h3, h3p, h3q,
    setRight, setLeft]
  split <;> rfl

theorem siftZ_left (y x : Entry K V) (r a b : Tree K V) (c : Path K V) :
    siftZ (.left y r :: c) (.node a x b) =
      if y.priority < x.priority then siftZ c (.node a x (.node b y r))
      else (.left y r :: c, .node a x b) := by
  rw [siftZ]

theorem siftZ_right (y x : Entry K V) (l a b : Tree K V) (c : Path K V) :
    siftZ (.right l y :: c) (.node a x b) =
      if y.priority < x.priority then siftZ c (.node (.node l y a) x b)
      else (.right l y :: c, .node a x b) := by
  rw [siftZ]

/-- The body of the loop of `sift_upwards` when `q` is the left child of its
parent: a right rotation, whatever the priorities are. -/
theorem sift_body_right {s : State K V} {y x : Entry K V} {r a b : Tree K V} {c : Path K V}
    (hz : Zip s (.left y r :: c) (.node a x b)) :
    ∃ s1, sift_body s x.addr = some s1 ∧
      Zip s1 c (.node a x (.node b y r)) ∧ s1.rand = s.rand ∧ s1.draws = s.draws ∧
      ∀ e, e ∉ Path.addrs (.left y r :: c) ++ (Tree.node a x b).addrs → s1.mem e = s.mem e := by
  obtain ⟨⟨hy, hr, hc⟩, ⟨hx, ha, hb⟩, hnd0⟩ := hz
  simp only [Path.par, Frame.entry, ptr_node] at hx ha hb hr hc
  change s.mem y.addr = some (cell y (some x.addr) r.ptr (Path.par c)) at hy
  have hnd := hnd0
  rw [nodup_cons_left] at hnd
  simp only [addrs_node, List.nodup_cons, List.mem_append, List.nodup_append, not_or,
    List.mem_cons, List.disjoint_append_right, List.disjoint_cons_right] at hnd
  obtain ⟨⟨hyr, hyc, hya, hyx, hyb⟩, hrn, ⟨hcn, ⟨han, ⟨hxb, hbn⟩, hxa, hab⟩, hca, hxc, hcb⟩,
    hrc, hra, hxr, hrb⟩ := hnd
  have hxy : x.addr ≠ y.addr := fun h => hyx h.symm
  -- the heap after `q->parent = p->parent; p->parent = q;`
  have hc2 : PRepr ((s.mem.write x.addr (cell x a.ptr b.ptr (Path.par c))).write y.addr
      (cell y (some x.addr) r.ptr (some x.addr))) s.root c (some y.addr) := by
    rw [PRepr_write hyc, PRepr_write hxc]; exact hc
  have hnd2 : (Path.addrs c ++ [y.addr]).Nodup := by
    simp [List.nodup_append, hcn, hyc]
  obtain ⟨m3, root', h3, hP, hfr⟩ := relink_path (some x.addr) hc2 hnd2
  have hg : ∀ e, e ∉ Path.addrs c → m3 e = ((s.mem.write x.addr
      (cell x a.ptr b.ptr (Path.par c))).write y.addr
      (cell y (some x.addr) r.ptr (some x.addr))) e :=
    fun e he => hfr e (fun h => he (par_mem_addrs h.symm))
  have h3y : m3 y.addr = some (cell y (some x.addr) r.ptr (some x.addr)) := by
    rw [hg _ hyc]; simp
  have h3x : m3 x.addr = some (cell x a.ptr b.ptr (Path.par c)) := by
    rw [hg _ hxc]; simp [hxy]
  have h3e : ∀ e, e ∉ Path.addrs c → e ≠ x.addr → e ≠ y.addr → m3 e = s.mem e := by
    intro e h1 h2 h3
    rw [hg _ h1]; simp [h2, h3]
  have hb5 : Repr ((m3.write x.addr (cell x a.ptr (some y.addr) (Path.par c))).write y.addr
      (cell y b.ptr r.ptr (some x.addr))) (some x.addr) b := by
    rw [Repr_write hyb, Repr_write hxb]
    exact hb.frame fun e he => h3e e (fun h => hcb h he) (ne_of_mem_of_not_mem he hxb)
      (ne_of_mem_of_not_mem he hyb)
  obtain ⟨m6, h6, hb6, h6fr⟩ := reparent_root (some y.addr) hb5 hbn
  have h6e : ∀ e, e ∉ b.addrs → m6 e = ((m3.write x.addr
      (cell x a.ptr (some y.addr) (Path.par c))).write y.addr
      (cell y b.ptr r.ptr (some x.addr))) e :=
    fun e he => h6fr e (fun h => he (ptr_mem_addrs h.symm))
  have hz' : Zip { s with mem := m6, root := root' } c (.node a x (.node b y r)) := by
    refine ⟨?_, ⟨?_, ?_, ?_, hb6, ?_⟩, ?_⟩
    · refine hP.pframe fun e he => ?_
      show m6 e = _
      rw [h6e e (fun h => hcb he h), write_other _ _ (ne_of_mem_of_not_mem he hyc),
        write_other _ _ (ne_of_mem_of_not_mem he hxc)]
    · show m6 x.addr = _
      rw [h6e _ hxb, write_other _ _ hxy, write_same]; rfl
    · refine ha.frame fun e he => ?_
      show m6 e = _
      rw [h6e e (fun h => hab he h), write_other _ _ (ne_of_mem_of_not_mem he hya),
        write_other _ _ (ne_of_mem_of_not_mem he hxa)]
      exact h3e e (fun h => hca h he) (ne_of_mem_of_not_mem he hxa) (ne_of_mem_of_not_mem he hya)
    · show m6 y.addr = _
      rw [h6e _ hyb, write_same]
    · refine hr.frame fun e he => ?_
      show m6 e = _
      rw [h6e e (fun h => hrb he h), write_other _ _ (ne_of_mem_of_not_mem he hyr),
        write_other _ _ (ne_of_mem_of_not_mem he hxr)]
      exact h3e e (fun h => hrc he h) (ne_of_mem_of_not_mem he hxr) (ne_of_mem_of_not_mem he hyr)
    · refine (List.Perm.nodup_iff (perm_of_count fun e => ?_)).mp hnd0
      simp only [Path.addrs, Path.after, Path.before, Tree.addrs, List.map_append,
        List.map_cons, List.count_append, List.count_cons, entries_node]
      ring
  refine ⟨_, ?_, hz', rfl, rfl, ?_⟩
  · rw [sift_body_step hx rfl hy hyx h3 h3y h3x, if_pos rfl]
    show Option.bind (setParentIfAny _ b.ptr _) _ = _
    rw [h6]; rfl
  · intro e he
    simp only [mem_addrs_cons_left, addrs_node, List.mem_append, List.mem_cons,
      not_or] at he
    show m6 e = _
    rw [h6e e (by tauto), write_other _ _ (by tauto), write_other _ _ (by tauto)]
    exact h3e e (by tauto) (by tauto) (by tauto)

/-- One iteration of the loop of `sift_upwards` when `q` is the left child of
its parent: a right rotation. -/
theorem sift_rotate_right {s : State K V} {y x : Entry K V} {r a b : Tree K V} {c : Path K V}
    (hz : Zip s (.left y r :: c) (.node a x b)) (hlt : y.priority < x.priority) :
    ∃ s1, (∀ fuel, sift_upwards (fuel + 1) s x.addr = sift_upwards fuel s1 x.addr) ∧
      Zip s1 c (.node a x (.node b y r)) ∧ s1.rand = s.rand ∧ s1.draws = s.draws ∧
      ∀ e, e ∉ Path.addrs (.left y r :: c) ++ (Tree.node a x b).addrs → s1.mem e = s.mem e := by
  obtain ⟨s1, hb, hz1, hr, hd, hfr⟩ := sift_body_right hz
  refine ⟨s1, fun fuel => ?_, hz1, hr, hd, hfr⟩
  have hx : s.mem x.addr = some (cell x a.ptr b.ptr (some y.addr)) := hz.2.1.1
  have hy : s.mem y.addr = some (cell y (some x.addr) r.ptr (Path.par c)) := hz.1.1
  rw [sift_upwards_unfold, hx]
  simp only [hy, hlt, if_true, hb, Option.some_bind]

/-- The body of the loop of `sift_upwards` when `q` is the right child of its
parent: a left rotation, whatever the priorities are. -/
theorem sift_body_left {s : State K V} {y x : Entry K V} {l a b : Tree K V} {c : Path K V}
    (hz : Zip s (.right l y :: c) (.node a x b)) :
    ∃ s1, sift_body s x.addr = some s1 ∧
      Zip s1 c (.node (.node l y a) x b) ∧ s1.rand = s.rand ∧ s1.draws = s.draws ∧
      ∀ e, e ∉ Path.addrs (.right l y :: c) ++ (Tree.node a x b).addrs → s1.mem e = s.mem e := by
  obtain ⟨⟨hy, hl, hc⟩, ⟨hx, ha, hb⟩, hnd0⟩ := hz
  simp only [Path.par, Frame.entry, ptr_node] at hx ha hb hl hc
  change s.mem y.addr = some (cell y l.ptr (some x.addr) (Path.par c)) at hy
  have hnd := hnd0
  rw [nodup_cons_right] at hnd
  simp only [addrs_node, List.nodup_cons, List.mem_append, List.nodup_append, not_or,
    List.mem_cons, List.disjoint_append_right, List.disjoint_cons_right] at hnd
  obtain ⟨⟨hyl, hyc, hya, hyx, hyb⟩, hln, ⟨hcn, ⟨han, ⟨hxb, hbn⟩, hxa, hab⟩, hca, hxc, hcb⟩,
    hlc, hla, hxl, hlb⟩ := hnd
  have hxy : x.addr ≠ y.addr := fun h => hyx h.symm
  have hc2 : PRepr ((s.mem.write x.addr (cell x a.ptr b.ptr (Path.par c))).write y.addr
      (cell y l.ptr (some x.addr) (some x.addr))) s.root c (some y.addr) := by
    rw [PRepr_write hyc, PRepr_write hxc]; exact hc
  have hnd2 : (Path.addrs c ++ [y.addr]).Nodup := by
    simp [List.nodup_append, hcn, hyc]
  obtain ⟨m3, root', h3, hP, hfr⟩ := relink_path (some x.addr) hc2 hnd2
  have hg : ∀ e, e ∉ Path.addrs c → m3 e = ((s.mem.write x.addr
      (cell x a.ptr b.ptr (Path.par c))).write y.addr
      (cell y l.ptr (some x.addr) (some x.addr))) e :=
    fun e he => hfr e (fun h => he (par_mem_addrs h.symm))
  have h3y : m3 y.addr = some (cell y l.ptr (some x.addr) (some x.addr)) := by
    rw [hg _ hyc]; simp
  have h3x : m3 x.addr = some (cell x a.ptr b.ptr (Path.par c)) := by
    rw [hg _ hxc]; simp [hxy]
  have h3e : ∀ e, e ∉ Path.addrs c → e ≠ x.addr → e ≠ y.addr → m3 e = s.mem e := by
    intro e h1 h2 h3
    rw [hg _ h1]; simp [h2, h3]
  have ha5 : Repr ((m3.write x.addr (cell x (some y.addr) b.ptr (Path.par c))).write y.addr
      (cell y l.ptr a.ptr (some x.addr))) (some x.addr) a := by
    rw [Repr_write hya, Repr_write hxa]
    exact ha.frame fun e he => h3e e (fun h => hca h he) (ne_of_mem_of_not_mem he hxa)
      (ne_of_mem_of_not_mem he hya)
  obtain ⟨m6, h6, ha6, h6fr⟩ := reparent_root (some y.addr) ha5 han
  have h6e : ∀ e, e ∉ a.addrs → m6 e = ((m3.write x.addr
      (cell x (some y.addr) b.ptr (Path.par c))).write y.addr
      (cell y l.ptr a.ptr (some x.addr))) e :=
    fun e he => h6fr e (fun h => he (ptr_mem_addrs h.symm))
  have hz' : Zip { s with mem := m6, root := root' } c (.node (.node l y a) x b) := by
    refine ⟨?_, ⟨?_, ⟨?_, ?_, ha6⟩, ?_⟩, ?_⟩
    · refine hP.pframe fun e he => ?_
      show m6 e = _
      rw [h6e e (fun h => hca he h), write_other _ _ (ne_of_mem_of_not_mem he hyc),
        write_other _ _ (ne_of_mem_of_not_mem he hxc)]
    · show m6 x.addr = _
      rw [h6e _ hxa, write_other _ _ hxy, write_same]; rfl
    · show m6 y.addr = _
      rw [h6e _ hya, write_same]
    · refine hl.frame fun e he => ?_
      show m6 e = _
      rw [h6e e (fun h => hla he h), write_other _ _ (ne_of_mem_of_not_mem he hyl),
        write_other _ _ (ne_of_mem_of_not_mem he hxl)]
      exact h3e e (fun h => hlc he h) (ne_of_mem_of_not_mem he hxl)
        (ne_of_mem_of_not_mem he hyl)
    · refine hb.frame fun e he => ?_
      show m6 e = _
      rw [h6e e (fun h => hab h he), write_other _ _ (ne_of_mem_of_not_mem he hyb),
        write_other _ _ (ne_of_mem_of_not_mem he hxb)]
      exact h3e e (fun h => hcb h he) (ne_of_mem_of_not_mem he hxb)
        (ne_of_mem_of_not_mem he hyb)
    · refine (List.Perm.nodup_iff (perm_of_count fun e => ?_)).mp hnd0
      simp only [Path.addrs, Path.after, Path.before, Tree.addrs, List.map_append,
        List.map_cons, List.count_append, List.count_cons, entries_node, List.map_nil,
        List.count_nil]
      ring
  refine ⟨_, ?_, hz', rfl, rfl, ?_⟩
  · have hlx : ¬ (some x.addr = l.ptr) := fun h => hxl (ptr_mem_addrs h.symm)
    rw [sift_body_step hx rfl hy hyx h3 h3y h3x, if_neg hlx]
    show Option.bind (setParentIfAny _ a.ptr _) _ = _
    rw [h6]; rfl
  · intro e he
    simp only [mem_addrs_cons_right, addrs_node, List.mem_append, List.mem_cons,
      not_or] at he
    show m6 e = _
    rw [h6e e (by tauto), write_other _ _ (by tauto), write_other _ _ (by tauto)]
    exact h3e e (by tauto) (by tauto) (by tauto)

/-- One iteration of the loop of `sift_upwards` when `q` is the right child of
its parent: a left rotation. -/
theorem sift_rotate_left {s : State K V} {y x : Entry K V} {l a b : Tree K V} {c : Path K V}
    (hz : Zip s (.right l y :: c) (.node a x b)) (hlt : y.priority < x.priority) :
    ∃ s1, (∀ fuel, sift_upwards (fuel + 1) s x.addr = sift_upwards fuel s1 x.addr) ∧
      Zip s1 c (.node (.node l y a) x b) ∧ s1.rand = s.rand ∧ s1.draws = s.draws ∧
      ∀ e, e ∉ Path.addrs (.right l y :: c) ++ (Tree.node a x b).addrs → s1.mem e = s.mem e := by
  obtain ⟨s1, hb, hz1, hr, hd, hfr⟩ := sift_body_left hz
  refine ⟨s1, fun fuel => ?_, hz1, hr, hd, hfr⟩
  have hx : s.mem x.addr = some (cell x a.ptr b.ptr (some y.addr)) := hz.2.1.1
  have hy : s.mem y.addr = some (cell y l.ptr (some x.addr) (Path.par c)) := hz.1.1
  rw [sift_upwards_unfold, hx]
  simp only [hy, hlt, if_true, hb, Option.some_bind]

theorem sift_upwards_spec (c : Path K V) :
    ∀ (fuel : Nat) (s : State K V) (a b : Tree K V) (x : Entry K V),
      Zip s c (.node a x b) → c.length < fuel →
      ∃ s', sift_upwards fuel s x.addr = some s' ∧
        Zip s' (siftZ c (.node a x b)).1 (siftZ c (.node a x b)).2 ∧
        s'.rand = s.rand ∧ s'.draws = s.draws ∧
        ∀ e, e ∉ Path.addrs c ++ (Tree.node a x b).addrs → s'.mem e = s.mem e := by
  induction c with
  | nil =>
    intro fuel s a b x hz hf
    obtain ⟨fuel, rfl⟩ : ∃ n, fuel = n + 1 := ⟨fuel - 1, by simp at hf; omega⟩
    obtain ⟨h1, ⟨h2, h3, h4⟩, h5⟩ := hz
    refine ⟨s, ?_, ⟨h1, ⟨h2, h3, h4⟩, h5⟩, rfl, rfl, fun _ _ => rfl⟩
    simp [sift_upwards, h2, Path.par]
  | cons f c ih =>
    intro fuel s a b x hz hf
    obtain ⟨fuel, rfl⟩ : ∃ n, fuel = n + 1 := ⟨fuel - 1, by simp at hf; omega⟩
    simp only [List.length_cons, Nat.add_lt_add_iff_right] at hf
    cases f with
    | left y r =>
      by_cases hlt : y.priority < x.priority
      · obtain ⟨s1, h1, h2, h3, h4, h5⟩ := sift_rotate_right hz hlt
        obtain ⟨s', hs1, hs2, hs3, hs4, hs5⟩ := ih fuel s1 a (.node b y r) x h2 hf
        refine ⟨s', by rw [h1, hs1], ?_, hs3.trans h3, hs4.trans h4, ?_⟩
        · rw [siftZ_left, if_pos hlt]; exact hs2
        · intro e he
          rw [hs5 e ?_, h5 e he]
          simp only [mem_addrs_cons_left, addrs_node, List.mem_append, List.mem_cons,
            not_or] at he ⊢
          tauto
      · obtain ⟨⟨hy, hr, hc⟩, ⟨hx, ha, hb⟩, hnd0⟩ := hz
        refine ⟨s, ?_, ?_, rfl, rfl, fun _ _ => rfl⟩
        · simp [sift_upwards, hx, hy, hlt, Path.par, Frame.entry]
        · rw [siftZ_left, if_neg hlt]
          exact ⟨⟨hy, hr, hc⟩, ⟨hx, ha, hb⟩, hnd0⟩
    | right l y =>
      by_cases hlt : y.priority < x.priority
      · obtain ⟨s1, h1, h2, h3, h4, h5⟩ := sift_rotate_left hz hlt
        obtain ⟨s', hs1, hs2, hs3, hs4, hs5⟩ := ih fuel s1 (.node l y a) b x h2 hf
        refine ⟨s', by rw [h1, hs1], ?_, hs3.trans h3, hs4.trans h4, ?_⟩
        · rw [siftZ_right, if_pos hlt]; exact hs2
        · intro e he
          rw [hs5 e ?_, h5 e he]
          simp only [mem_addrs_cons_right, addrs_node, List.mem_append, List.mem_cons,
            not_or] at he ⊢
          tauto
      · obtain ⟨⟨hy, hl, hc⟩, ⟨hx, ha, hb⟩, hnd0⟩ := hz
        refine ⟨s, ?_, ?_, rfl, rfl, fun _ _ => rfl⟩
        · simp [sift_upwards, hx, hy, hlt, Path.par, Frame.entry]
        · rw [siftZ_right, if_neg hlt]
          exact ⟨⟨hy, hl, hc⟩, ⟨hx, ha, hb⟩, hnd0⟩

/-! ### The descent of `Treap_Lookup` and `Treap_Delete` -/

theorem plug_descendZ (cmp : K → K → Int) (k : K) (t : Tree K V) (c : Path K V) :
    plug (descendZ cmp k c t).1 (descendZ cmp k c t).2 = plug c t := by
  induction t generalizing c with
  | nil => rfl
  | node l x r ihl ihr =>
    rw [descendZ]
    split
    · rw [ihl]; rfl
    · split
      · rw [ihr]; rfl
      · rfl

theorem descend_spec (cmp : K → K → Int) (k : K) {m : Mem K V} (t : Tree K V) :
    ∀ (c : Path K V) (fuel : Nat), Fwd m t → t.size < fuel →
      descend cmp k m fuel t.ptr = some (descendZ cmp k c t).2.ptr := by
  induction t with
  | nil =>
    intro c fuel _ hf
    obtain ⟨fuel, rfl⟩ : ∃ n, fuel = n + 1 := ⟨fuel - 1, by omega⟩
    rfl
  | node l x r ihl ihr =>
    intro c fuel hfw hf
    obtain ⟨fuel, rfl⟩ : ∃ n, fuel = n + 1 := ⟨fuel - 1, by omega⟩
    obtain ⟨⟨par, hx⟩, hl, hr⟩ := hfw
    simp only [Tree.size] at hf
    rw [descendZ]
    simp only [ptr_node, descend, hx, Option.bind_eq_bind, Option.some_bind]
    split
    · exact ihl _ fuel hl (by omega)
    · split
      · exact ihr _ fuel hr (by omega)
      · rfl

theorem size_plug (c : Path K V) (t : Tree K V) :
    (plug c t).size = (Path.before c).length + t.size + (Path.after c).length := by
  rw [← entries_length, entries_plug]
  simp [entries_length]; omega

theorem length_le_before_after (c : Path K V) :
    c.length ≤ (Path.before c).length + (Path.after c).length := by
  induction c with
  | nil => simp
  | cons f c ih =>
    cases f with
    | left x r => simp [Path.before, Path.after]; omega
    | right l x => simp [Path.before, Path.after]; omega

theorem length_lt_size_plug (c : Path K V) {t : Tree K V} (h : 0 < t.size) :
    c.length < (plug c t).size := by
  have := length_le_before_after c
  rw [size_plug]; omega

theorem Zip_plug {s : State K V} (c : Path K V) (t : Tree K V) :
    Zip s c t ↔ Zip s [] (plug c t) := by
  unfold Zip
  simp only [PRepr, Path.par, addrs_path_nil, List.nil_append]
  constructor
  · rintro ⟨h1, h2, h3⟩
    have hr := h1.root_eq
    exact ⟨hr, (Repr_plug c t hr).mpr ⟨h1, h2⟩, (nodup_plug c t).mpr h3⟩
  · rintro ⟨h1, h2, h3⟩
    have := (Repr_plug c t h1).mp h2
    exact ⟨this.1, this.2, (nodup_plug c t).mp h3⟩

theorem siftZ_root (c : Path K V) (a b : Tree K V) (x : Entry K V) :
    ∃ a' b', (siftZ c (.node a x b)).2 = .node a' x b' := by
  induction c generalizing a b with
  | nil => exact ⟨a, b, by simp [siftZ]⟩
  | cons f c ih =>
    cases f with
    | left y r =>
      rw [siftZ_left]; split
      · exact ih _ _
      · exact ⟨a, b, rfl⟩
    | right l y =>
      rw [siftZ_right]; split
      · exact ih _ _
      · exact ⟨a, b, rfl⟩

/-! ### `Treap_Lookup` -/

theorem Zip.fwd {s : State K V} {t : Tree K V} (hz : Zip s [] t) : Fwd s.mem t :=
  hz.2.1.toFwd

theorem Zip.root {s : State K V} {t : Tree K V} (hz : Zip s [] t) : s.root = t.ptr :=
  hz.1

theorem Zip.descend {s : State K V} {t : Tree K V} (hz : Zip s [] t) (cmp : K → K → Int) (k : K) :
    Zip s (descendZ cmp k [] t).1 (descendZ cmp k [] t).2 := by
  rw [Zip_plug, plug_descendZ]; exact hz

theorem Treap_Lookup_miss {s : State K V} {t : Tree K V} {cmp : K → K → Int} {k : K}
    {fuel : Nat} (hz : Zip s [] t) (hf : t.size < fuel)
    (hd : (descendZ cmp k [] t).2 = .nil) :
    Treap_Lookup fuel s cmp k = some (s, none) := by
  unfold Treap_Lookup
  rw [hz.root, descend_spec cmp k t [] fuel hz.fwd hf, hd]
  rfl

theorem Treap_Lookup_keep {s : State K V} {t a b : Tree K V} {x : Entry K V}
    {cmp : K → K → Int} {k : K}
    {fuel : Nat} (hz : Zip s [] t) (hf : t.size < fuel)
    (hd : (descendZ cmp k [] t).2 = .node a x b) (hr : s.rand s.draws ≤ x.priority) :
    Treap_Lookup fuel s cmp k = some ({ s with draws := s.draws + 1 }, x.data) := by
  have hz2 := hz.descend cmp k
  rw [hd] at hz2
  unfold Treap_Lookup
  rw [hz.root, descend_spec cmp k t [] fuel hz.fwd hf, hd]
  simp [hz2.2.1.1, hr]

theorem Treap_Lookup_boost {s : State K V} {t a b : Tree K V} {x : Entry K V}
    {cmp : K → K → Int} {k : K}
    {fuel : Nat} (hz : Zip s [] t) (hf : t.size < fuel)
    (hd : (descendZ cmp k [] t).2 = .node a x b) (hr : ¬ s.rand s.draws ≤ x.priority) :
    ∃ s', Treap_Lookup fuel s cmp k = some (s', x.data) ∧
      Zip s' [] (plug (siftZ (descendZ cmp k [] t).1
        (.node a { x with priority := s.rand s.draws } b)).1
        (siftZ (descendZ cmp k [] t).1 (.node a { x with priority := s.rand s.draws } b)).2) ∧
      s'.rand = s.rand ∧ s'.draws = s.draws + 1 ∧
      ∀ e, e ∉ t.addrs → s'.mem e = s.mem e := by
  have hz2 := hz.descend cmp k
  have hpl := plug_descendZ cmp k t []
  rw [hd] at hz2 hpl
  generalize (descendZ cmp k [] t).1 = c at hz2 hpl ⊢
  obtain ⟨hp, ⟨hx, ha, hb⟩, hnd⟩ := hz2
  have hnd' := hnd
  simp only [addrs_node, List.nodup_append, List.nodup_cons, List.disjoint_append_right,
    List.disjoint_cons_right, List.mem_append, not_or] at hnd'
  obtain ⟨hcn, ⟨han, ⟨hxb, hbn⟩, hxa, hab⟩, hca, hxc, hcb⟩ := hnd'
  have hz3 : Zip { s with
      mem := (s.mem.write x.addr
        (cell { x with priority := s.rand s.draws } a.ptr b.ptr (Path.par c))),
      draws := s.draws + 1 } c (.node a { x with priority := s.rand s.draws } b) := by
    refine ⟨?_, ⟨?_, ?_, ?_⟩, by simpa using hnd⟩
    · show PRepr (Mem.write _ _ _) _ _ _
      rw [PRepr_write hxc]; exact hp
    · show Mem.write _ _ _ _ = _
      rw [write_same]
    · show Repr (Mem.write _ _ _) _ _
      rw [Repr_write hxa]; exact ha
    · show Repr (Mem.write _ _ _) _ _
      rw [Repr_write hxb]; exact hb
  have hlen : c.length < fuel := by
    have := length_lt_size_plug c (t := .node a x b) (by simp [Tree.size])
    rw [hpl] at this; simp only [plug] at this; omega
  obtain ⟨s', h1, h2, h3, h4, h5⟩ := sift_upwards_spec c fuel _ a b _ hz3 hlen
  obtain ⟨a', b', hab'⟩ := siftZ_root c a b { x with priority := s.rand s.draws }
  have hx' : s'.mem x.addr = some (cell { x with priority := s.rand s.draws } a'.ptr b'.ptr
      (Path.par (siftZ c (.node a { x with priority := s.rand s.draws } b)).1)) := by
    have := h2.2.1
    rw [hab'] at this
    exact this.1
  refine ⟨s', ?_, (Zip_plug _ _).mp h2, h3, h4, ?_⟩
  · have hdsc := descend_spec cmp k t [] fuel hz.fwd hf
    rw [← hz.root, hd] at hdsc
    unfold Treap_Lookup
    rw [hdsc]
    simp only [ptr_node, Option.bind_eq_bind, Option.some_bind, hx, hr, if_false, setPriority]
    change (sift_upwards fuel _ x.addr).bind _ = _
    rw [h1]
    simp [hx']
  · intro e he
    have hperm := addrs_plug_perm c (.node a x b)
    rw [hpl] at hperm
    have he' : e ∉ Path.addrs c ++ (Tree.node a x b).addrs := fun h => he (hperm.mem_iff.mpr h)
    rw [h5 e (by simpa using he')]
    show Mem.write _ _ _ _ = _
    rw [write_other]
    rintro rfl
    exact he' (by simp)

/-! ### `Treap_Insert` -/

theorem plug_insertZ (cmp : K → K → Int) (k : K) (t : Tree K V) (c : Path K V) :
    plug (insertZ cmp k c t) .nil = plug c t := by
  induction t generalizing c with
  | nil => rfl
  | node l x r ihl ihr =>
    rw [insertZ]
    split
    · rw [ihl]; rfl
    · rw [ihr]; rfl

theorem write_write (m : Mem K V) (a : Nat) (n n' : Treap_node K V) :
    (m.write a n).write a n' = m.write a n' := by
  funext b
  by_cases h : b = a
  · subst h; simp
  · simp [h]

theorem write_self {m : Mem K V} {a : Nat} {n : Treap_node K V} (h : m a = some n) :
    m.write a n = m := by
  funext b
  by_cases hb : b = a
  · subst hb; simp [h]
  · simp [hb]

theorem Fwd.fframe {m m' : Mem K V} {t : Tree K V}
    (h : Fwd m t) (hm : ∀ a ∈ t.addrs, m' a = m a) : Fwd m' t := by
  induction t with
  | nil => trivial
  | node l x r ihl ihr =>
    obtain ⟨⟨par, h1⟩, h2, h3⟩ := h
    refine ⟨⟨par, ?_⟩, ihl h2 fun a ha => hm a (by simp [ha]), ihr h3 fun a ha => hm a (by simp [ha])⟩
    rw [hm _ (by simp), h1]

theorem Fwd.allocated {m : Mem K V} {t : Tree K V} (h : Fwd m t) {a : Nat} (ha : a ∈ t.addrs) :
    m a ≠ none := by
  induction t with
  | nil => simp at ha
  | node l x r ihl ihr =>
    obtain ⟨⟨par, h1⟩, h2, h3⟩ := h
    simp only [addrs_node, List.mem_append, List.mem_cons] at ha
    rcases ha with ha | rfl | ha
    · exact ihl h2 ha
    · simp [h1]
    · exact ihr h3 ha

theorem insert_loop_spec (cmp : K → K → Int) (k : K) (q : Nat) (t : Tree K V) :
    ∀ (c : Path K V) (fuel : Nat) (m : Mem K V) (cv : Int) (qn : Treap_node K V),
      Fwd m t → q ∉ t.addrs → m q = some qn → qn.parent = Path.par c → t.size < fuel →
      (cv < 0 ↔ Path.holeIsLeft c = true) →
      ∃ cv', insert_loop cmp k q fuel m t.ptr cv =
          some (m.write q { qn with parent := Path.par (insertZ cmp k c t) }, cv') ∧
        (cv' < 0 ↔ Path.holeIsLeft (insertZ cmp k c t) = true) := by
  induction t with
  | nil =>
    intro c fuel m cv qn _ _ hq hpar hf hcv
    obtain ⟨fuel, rfl⟩ : ∃ n, fuel = n + 1 := ⟨fuel - 1, by omega⟩
    refine ⟨cv, ?_, hcv⟩
    simp only [insertZ, ptr_nil, insert_loop]
    rw [← hpar, write_self hq]
  | node l x r ihl ihr =>
    intro c fuel m cv qn hfw hqt hq hpar hf hcv
    obtain ⟨fuel, rfl⟩ : ∃ n, fuel = n + 1 := ⟨fuel - 1, by omega⟩
    obtain ⟨⟨par, hx⟩, hl, hr⟩ := hfw
    simp only [Tree.size] at hf
    simp only [addrs_node, List.mem_append, List.mem_cons, not_or] at hqt
    have hxq : x.addr ≠ q := fun h => hqt.2.1 h.symm
    simp only [ptr_node, insert_loop, setParent, hq, Option.bind_eq_bind, Option.some_bind,
      write_other _ _ hxq, hx]
    rw [insertZ]
    by_cases hlt : cmp k x.key < 0
    · simp only [hlt, if_true]
      obtain ⟨cv', h1, h2⟩ := ihl (.left x r :: c) fuel
        (m.write q { qn with parent := some x.addr }) (cmp k x.key) { qn with parent := some x.addr }
        (hl.fframe fun a ha => write_other _ _ (ne_of_mem_of_not_mem ha hqt.1))
        hqt.1 (write_same _ _ _) rfl (by omega) (by simp [Path.holeIsLeft, hlt])
      refine ⟨cv', ?_, h2⟩
      rw [h1, write_write]
    · simp only [hlt, if_false]
      obtain ⟨cv', h1, h2⟩ := ihr (.right l x :: c) fuel
        (m.write q { qn with parent := some x.addr }) (cmp k x.key) { qn with parent := some x.addr }
        (hr.fframe fun a ha => write_other _ _ (ne_of_mem_of_not_mem ha hqt.2.2))
        hqt.2.2 (write_same _ _ _) rfl (by omega) (by simp [Path.holeIsLeft, hlt])
      refine ⟨cv', ?_, h2⟩
      rw [h1, write_write]

theorem insertZ_ne_nil (cmp : K → K → Int) (k : K) (t : Tree K V) (c : Path K V)
    (h : c ≠ [] ∨ t ≠ .nil) : insertZ cmp k c t ≠ [] := by
  induction t generalizing c with
  | nil => simpa [insertZ] using h
  | node l x r ihl ihr =>
    rw [insertZ]
    split
    · exact ihl _ (Or.inl (by simp))
    · exact ihr _ (Or.inl (by simp))

/-- Attaching the new leaf: the assignment `q->parent->left = q` or
`q->parent->right = q` fills the hole of the path. -/
theorem attach_leaf {m : Mem K V} {root : Ptr} {c : Path K V} {g : Nat} {cv : Int} (q : Nat)
    (hp : PRepr m root c none) (hnd : (Path.addrs c).Nodup) (hg : Path.par c = some g)
    (hcv : cv < 0 ↔ Path.holeIsLeft c = true) :
    ∃ m', (if cv < 0 then setLeft m g (some q) else setRight m g (some q)) = some m' ∧
      PRepr m' root c (some q) ∧ ∀ e, e ∉ Path.addrs c → m' e = m e := by
  cases c with
  | nil => simp [Path.par] at hg
  | cons f c =>
    have hnd' : (Path.addrs (f :: c) ++ []).Nodup := by simpa using hnd
    cases f with
    | left x r =>
      obtain ⟨h1, h2, h3⟩ := hp
      rw [nodup_cons_left] at hnd'
      simp only [List.nodup_cons, List.mem_append, List.nodup_append, not_or,
        List.append_nil] at hnd'
      simp only [Path.par, Frame.entry, Option.some.injEq] at hg
      subst hg
      have hlt : cv < 0 := hcv.mpr rfl
      refine ⟨m.write x.addr (cell x (some q) r.ptr (Path.par c)), ?_, ⟨by simp, ?_, ?_⟩, ?_⟩
      · simp [hlt, setLeft, h1]
      · rw [Repr_write hnd'.1.1]; exact h2
      · rw [PRepr_write hnd'.1.2]; exact h3
      · intro e he
        exact write_other _ _ fun h => he (by simp [mem_addrs_cons_left, h])
    | right l x =>
      obtain ⟨h1, h2, h3⟩ := hp
      rw [nodup_cons_right] at hnd'
      simp only [List.nodup_cons, List.mem_append, List.nodup_append, not_or,
        List.append_nil] at hnd'
      simp only [Path.par, Frame.entry, Option.some.injEq] at hg
      subst hg
      have hlt : ¬ cv < 0 := fun h => by simpa [Path.holeIsLeft] using hcv.mp h
      refine ⟨m.write x.addr (cell x l.ptr (some q) (Path.par c)), ?_, ⟨by simp, ?_, ?_⟩, ?_⟩
      · simp [hlt, setRight, h1]
      · rw [Repr_write hnd'.1.1]; exact h2
      · rw [PRepr_write hnd'.1.2]; exact h3
      · intro e he
        exact write_other _ _ fun h => he (by simp [mem_addrs_cons_right, h])

theorem Treap_Insert_spec {s : State K V} {t : Tree K V} (cmp : K → K → Int) (k : K)
    (d : treap_data_element V) {q fuel : Nat}
    (hz : Zip s [] t) (hq : s.mem q = none) (hf : t.size < fuel) :
    ∃ s', Treap_Insert fuel s cmp k d q = some s' ∧
      Zip s' [] (insertTree cmp ⟨q, k, d, s.rand s.draws⟩ t) ∧
      s'.rand = s.rand ∧ s'.draws = s.draws + 1 ∧
      ∀ e, e ∉ t.addrs → e ≠ q → s'.mem e = s.mem e := by
  have hqt : q ∉ t.addrs := fun h => hz.fwd.allocated h hq
  obtain ⟨hroot, hrep, hnd⟩ := hz
  simp only [PRepr] at hroot
  simp only [Path.par] at hrep
  simp only [addrs_path_nil, List.nil_append] at hnd
  cases t with
  | nil =>
    refine ⟨⟨s.mem.write q (cell ⟨q, k, d, s.rand s.draws⟩ none none none), some q, s.rand,
      s.draws + 1⟩, ?_, ?_, rfl, rfl, ?_⟩
    · simp only [ptr_nil] at hroot
      simp [Treap_Insert, hroot]
    · refine ⟨rfl, ⟨?_, trivial, trivial⟩, ?_⟩
      · show Mem.write _ _ _ _ = _
        rw [write_same]; rfl
      · simp [insertTree, insertZ, siftZ, plug]
    · intro e _ he
      exact write_other _ _ he
  | node l x r =>
    generalize ht : Tree.node l x r = t at *
    have hsz : 0 < t.size := by subst ht; simp [Tree.size]
    have hc' := insertZ_ne_nil cmp k t [] (Or.inr (by subst ht; simp))
    have hpl := plug_insertZ cmp k t []
    obtain ⟨cv, hloop, hcv⟩ := insert_loop_spec cmp k q t [] fuel
      (s.mem.write q (cell ⟨q, k, d, s.rand s.draws⟩ none none none)) 0
      (cell ⟨q, k, d, s.rand s.draws⟩ none none none)
      (hrep.toFwd.fframe fun a ha => write_other _ _ (ne_of_mem_of_not_mem ha hqt))
      hqt (write_same _ _ _) rfl hf (by simp [Path.holeIsLeft])
    rw [write_write] at hloop
    generalize hc : insertZ cmp k [] t = c at hc' hpl hloop hcv
    obtain ⟨g, hg⟩ : ∃ g, Path.par c = some g := by
      cases c with
      | nil => exact absurd rfl hc'
      | cons f c => exact ⟨_, rfl⟩
    have hzc : Zip s c .nil := by
      rw [Zip_plug, hpl]; exact ⟨hroot, hrep, by simpa using hnd⟩
    obtain ⟨hp, -, hcn⟩ := hzc
    simp only [addrs_nil, List.append_nil] at hcn
    have hperm := addrs_plug_perm c (.nil : Tree K V)
    rw [hpl] at hperm
    simp only [addrs_nil, List.append_nil, plug] at hperm
    have hqc : q ∉ Path.addrs c := fun h => hqt (hperm.mem_iff.mpr h)
    have hp1 : PRepr (s.mem.write q (cell ⟨q, k, d, s.rand s.draws⟩ none none (Path.par c)))
        s.root c none := by
      rw [PRepr_write hqc]; exact hp
    obtain ⟨m2, h2, hp2, hfr2⟩ := attach_leaf q hp1 hcn hg hcv
    have hz2 : Zip { s with mem := m2, draws := s.draws + 1 } c
        (.node .nil ⟨q, k, d, s.rand s.draws⟩ .nil) := by
      refine ⟨hp2, ⟨?_, trivial, trivial⟩, ?_⟩
      · show m2 q = _
        rw [hfr2 q hqc, write_same]; rfl
      · simp [List.nodup_append, hcn, hqc]
    have hlen : c.length < fuel := by
      have := length_lt_size_plug c (t := .node .nil ⟨q, k, d, s.rand s.draws⟩ .nil)
        (by simp [Tree.size])
      have h2 := size_plug c (.node .nil ⟨q, k, d, s.rand s.draws⟩ .nil)
      have h3 := size_plug c (.nil : Tree K V)
      rw [hpl] at h3
      simp only [plug, Tree.size] at h2 h3
      omega
    obtain ⟨s', h1, hzs, h3, h4, h5⟩ := sift_upwards_spec c fuel _ .nil .nil _ hz2 hlen
    refine ⟨s', ?_, ?_, h3, h4, ?_⟩
    · obtain ⟨r0, hr0⟩ : ∃ r0, s.root = some r0 := by
        rw [hroot, ← ht]; exact ⟨_, rfl⟩
      simp only [Treap_Insert, hr0, Option.bind_eq_bind, Option.pure_def]
      rw [← hr0, hroot, hloop]
      simp only [Option.some_bind, write_same, hg]
      simp only [hg, cell] at h2
      rw [h2, ← hroot]
      exact h1
    · unfold insertTree
      rw [← Zip_plug]; exact hc ▸ hzs
    · intro e he heq
      have hec : e ∉ Path.addrs c := fun h => he (hperm.mem_iff.mpr h)
      rw [h5 e (by simp [hec, heq])]
      show m2 e = _
      rw [hfr2 e hec, write_other _ _ heq]

/-! ### `Treap_Delete` -/

theorem delete_loop_step_right {m m3 : Mem K V} {root root' : Ptr} {p l r fuel : Nat}
    {pn ln rn pn3 ln3 : Treap_node K V}
    (hp : m p = some pn) (hl : pn.left = some l) (hr : pn.right = some r)
    (hln : m l = some ln) (hrn : m r = some rn) (hgt : ln.priority > rn.priority)
    (hne : p ≠ l)
    (h3 : relink ((m.write l { ln with right := some p }).write p { pn with left := ln.right })
      root pn.parent p (some l) = some (m3, root'))
    (h3p : m3 p = some pn3) (h3l : m3 l = some ln3) :
    delete_loop (fuel + 1) m root p =
      (setParentIfAny ((m3.write l { ln3 with parent := pn3.parent }).write p
        { pn3 with parent := some l }) ln.right (some p)).bind
        fun m => delete_loop fuel m root' p := by
  rw [delete_loop]
  simp only [hr] at h3
  simp only [hp, hl, hr, hln, hrn, hgt, Option.bind_eq_bind, Option.some_bind, if_true, setParent,
    write_same, write_other _ _ hne, write_other _ _ hne.symm, Option.pure_def, h3, h3p, h3l,
    setRight, setLeft]

theorem delete_loop_step_left {m m3 : Mem K V} {root root' : Ptr} {p l r fuel : Nat}
    {pn ln rn pn3 rn3 : Treap_node K V}
    (hp : m p = some pn) (hl : pn.left = some l) (hr : pn.right = some r)
    (hln : m l = some ln) (hrn : m r = some rn) (hgt : ¬ ln.priority > rn.priority)
    (hne : p ≠ r)
    (h3 : relink ((m.write r { rn with left := some p }).write p { pn with right := rn.left })
      root pn.parent p (some r) = some (m3, root'))
    (h3p : m3 p = some pn3) (h3r : m3 r = some rn3) :
    delete_loop (fuel + 1) m root p =
      (setParentIfAny ((m3.write r { rn3 with parent := pn3.parent }).write p
        { pn3 with parent := some r }) rn.left (some p)).bind
        fun m => delete_loop fuel m root' p := by
  rw [delete_loop]
  simp only [hl] at h3
  simp only [hp, hl, hr, hln, hrn, hgt, Option.bind_eq_bind, Option.some_bind, if_false, setParent,
    write_same, write_other _ _ hne, write_other _ _ hne.symm, Option.pure_def, h3, h3p, h3r,
    setRight, setLeft]

/-- The push-down loop of `Treap_Delete` is its condition followed by its body. -/
theorem delete_loop_unfold (fuel : Nat) (m : Mem K V) (root : Ptr) (p : Nat) :
    delete_loop (fuel + 1) m root p =
      match m p with
      | none => none
      | some pn =>
        match pn.left, pn.right with
        | some _, some _ =>
          (delete_body m root p).bind fun r => delete_loop fuel r.1 r.2 p
        | _, _ => some (m, root) := by
  rw [delete_loop]
  cases h1 : m p with
  | none => rfl
  | some pn =>
    cases h2 : pn.left with
    | none => simp [h2]
    | some l =>
      cases h3 : pn.right with
      | none => simp [h2, h3]
      | some r =>
        simp only [h2, h3, delete_body, h1, Option.bind_eq_bind, Option.some_bind,
          Option.pure_def, Option.bind_assoc]

theorem delete_body_step_right {m m3 : Mem K V} {root root' : Ptr} {p l r : Nat}
    {pn ln rn pn3 ln3 : Treap_node K V}
    (hp : m p = some pn) (hl : pn.left = some l) (hr : pn.right = some r)
    (hln : m l = some ln) (hrn : m r = some rn) (hgt : ln.priority > rn.priority)
    (hne : p ≠ l)
    (h3 : relink ((m.write l { ln with right := some p }).write p { pn with left := ln.right })
      root pn.parent p (some l) = some (m3, root'))
    (h3p : m3 p = some pn3) (h3l : m3 l = some ln3) :
    delete_body m root p =
      (setParentIfAny ((m3.write l { ln3 with parent := pn3.parent }).write p
        { pn3 with parent := some l }) ln.right (some p)).bind
        fun m => some (m, root') := by
  unfold delete_body
  simp only [hr] at h3
  simp only [hp, hl, hr, hln, hrn, hgt, Option.bind_eq_bind, Option.some_bind, if_true, setParent,
    write_same, write_other _ _ hne, write_other _ _ hne.symm, Option.pure_def, h3, h3p, h3l,
    setRight, setLeft]

theorem delete_body_step_left {m m3 : Mem K V} {root root' : Ptr} {p l r : Nat}
    {pn ln rn pn3 rn3 : Treap_node K V}
    (hp : m p = some pn) (hl : pn.left = some l) (hr : pn.right = some r)
    (hln : m l = some ln) (hrn : m r = some rn) (hgt : ¬ ln.priority > rn.priority)
    (hne : p ≠ r)
    (h3 : relink ((m.write r { rn with left := some p }).write p { pn with right := rn.left })
      root pn.parent p (some r) = some (m3, root'))
    (h3p : m3 p = some pn3) (h3r : m3 r = some rn3) :
    delete_body m root p =
      (setParentIfAny ((m3.write r { rn3 with parent := pn3.parent }).write p
        { pn3 with parent := some r }) rn.left (some p)).bind
        fun m => some (m, root') := by
  unfold delete_body
  simp only [hl] at h3
  simp only [hp, hl, hr, hln, hrn, hgt, Option.bind_eq_bind, Option.some_bind, if_false, setParent,
    write_same, write_other _ _ hne, write_other _ _ hne.symm, Option.pure_def, h3, h3p, h3r,
    setRight, setLeft]

/-- The body of the push-down loop of `Treap_Delete` when the left child has
the larger priority: a right rotation. -/
theorem delete_body_right {s : State K V} {c : Path K V} {ll lr r : Tree K V}
    {lx x : Entry K V} {rn : Treap_node K V} {ra : Nat}
    (hz : Zip s c (.node (.node ll lx lr) x r)) (hra : r.ptr = some ra)
    (hrn : s.mem ra = some rn) (hgt : lx.priority > rn.priority) :
    ∃ s1, delete_body s.mem s.root x.addr = some (s1.mem, s1.root) ∧
      Zip s1 (.right ll lx :: c) (.node lr x r) ∧ s1.rand = s.rand ∧ s1.draws = s.draws ∧
      ∀ e, e ∉ Path.addrs c ++ (Tree.node (.node ll lx lr) x r).addrs → s1.mem e = s.mem e := by
  obtain ⟨hc, ⟨hx, ⟨hl, hll, hlr⟩, hr⟩, hnd0⟩ := hz
  simp only [ptr_node] at hx hl hll hlr hr hc
  have hnd := hnd0
  simp only [addrs_node, List.nodup_cons, List.mem_append, List.nodup_append, not_or,
    List.mem_cons, List.disjoint_append_right, List.disjoint_cons_right,
    List.disjoint_append_left, List.disjoint_cons_left, List.append_assoc,
    List.cons_append] at hnd
  obtain ⟨hcn, ⟨hlln, ⟨⟨hlxlr, hlxx, hlxr⟩, hlrn, ⟨hxr, hrnd⟩, hxlr, hlrr⟩, hlxll, hlllr, hxll,
    hllr⟩, hcll, hlxc, hclr, hxc, hcr⟩ := hnd
  have hxlx : x.addr ≠ lx.addr := fun h => hlxx h.symm
  have hc2 : PRepr ((s.mem.write lx.addr (cell lx ll.ptr (some x.addr) (some x.addr))).write
      x.addr (cell x lr.ptr r.ptr (Path.par c))) s.root c (some x.addr) := by
    rw [PRepr_write hxc, PRepr_write hlxc]; exact hc
  have hnd2 : (Path.addrs c ++ [x.addr]).Nodup := by
    simp [List.nodup_append, hcn, hxc]
  obtain ⟨m3, root', h3, hP, hfr⟩ := relink_path (some lx.addr) hc2 hnd2
  have hg : ∀ e, e ∉ Path.addrs c → m3 e = ((s.mem.write lx.addr
      (cell lx ll.ptr (some x.addr) (some x.addr))).write
      x.addr (cell x lr.ptr r.ptr (Path.par c))) e :=
    fun e he => hfr e (fun h => he (par_mem_addrs h.symm))
  have h3x : m3 x.addr = some (cell x lr.ptr r.ptr (Path.par c)) := by
    rw [hg _ hxc]; simp
  have h3l : m3 lx.addr = some (cell lx ll.ptr (some x.addr) (some x.addr)) := by
    rw [hg _ hlxc]; simp [hlxx]
  have h3e : ∀ e, e ∉ Path.addrs c → e ≠ x.addr → e ≠ lx.addr → m3 e = s.mem e := by
    intro e h1 h2 h3
    rw [hg _ h1]; simp [h2, h3]
  have hlr5 : Repr ((m3.write lx.addr (cell lx ll.ptr (some x.addr) (Path.par c))).write x.addr
      (cell x lr.ptr r.ptr (some lx.addr))) (some lx.addr) lr := by
    rw [Repr_write hxlr, Repr_write hlxlr]
    exact hlr.frame fun e he => h3e e (fun h => hclr h he) (ne_of_mem_of_not_mem he hxlr)
      (ne_of_mem_of_not_mem he hlxlr)
  obtain ⟨m6, h6, hlr6, h6fr⟩ := reparent_root (some x.addr) hlr5 hlrn
  have h6e : ∀ e, e ∉ lr.addrs → m6 e = ((m3.write lx.addr
      (cell lx ll.ptr (some x.addr) (Path.par c))).write x.addr
      (cell x lr.ptr r.ptr (some lx.addr))) e :=
    fun e he => h6fr e (fun h => he (ptr_mem_addrs h.symm))
  have hz' : Zip { s with mem := m6, root := root' } (.right ll lx :: c) (.node lr x r) := by
    refine ⟨⟨?_, ?_, ?_⟩, ⟨?_, hlr6, ?_⟩, ?_⟩
    · show m6 lx.addr = _
      rw [h6e _ hlxlr, write_other _ _ hlxx, write_same]; rfl
    · refine hll.frame fun e he => ?_
      show m6 e = _
      rw [h6e e (fun h => hlllr he h), write_other _ _ (ne_of_mem_of_not_mem he hxll),
        write_other _ _ (ne_of_mem_of_not_mem he hlxll)]
      exact h3e e (fun h => hcll h he) (ne_of_mem_of_not_mem he hxll)
        (ne_of_mem_of_not_mem he hlxll)
    · refine hP.pframe fun e he => ?_
      show m6 e = _
      rw [h6e e (fun h => hclr he h), write_other _ _ (ne_of_mem_of_not_mem he hxc),
        write_other _ _ (ne_of_mem_of_not_mem he hlxc)]
    · show m6 x.addr = _
      rw [h6e _ hxlr, write_same]; rfl
    · refine hr.frame fun e he => ?_
      show m6 e = _
      rw [h6e e (fun h => hlrr h he), write_other _ _ (ne_of_mem_of_not_mem he hxr),
        write_other _ _ (ne_of_mem_of_not_mem he hlxr)]
      exact h3e e (fun h => hcr h he) (ne_of_mem_of_not_mem he hxr)
        (ne_of_mem_of_not_mem he hlxr)
    · refine (List.Perm.nodup_iff (perm_of_count fun e => ?_)).mp hnd0
      simp only [Path.addrs, Path.after, Path.before, Tree.addrs, List.map_append,
        List.map_cons, List.count_append, List.count_cons, entries_node, List.map_nil,
        List.count_nil]
      ring
  refine ⟨_, ?_, hz', rfl, rfl, ?_⟩
  · rw [delete_body_step_right hx rfl hra hl hrn hgt hxlx h3 h3x h3l]
    show Option.bind (setParentIfAny _ lr.ptr _) _ = _
    rw [h6]; rfl
  · intro e he
    simp only [addrs_node, List.mem_append, List.mem_cons, not_or] at he
    show m6 e = _
    rw [h6e e (by tauto), write_other _ _ (by tauto), write_other _ _ (by tauto)]
    exact h3e e (by tauto) (by tauto) (by tauto)

/-- One iteration of the push-down loop of `Treap_Delete` when the left child
has the larger priority: a right rotation. -/
theorem delete_rotate_right {s : State K V} {c : Path K V} {ll lr r : Tree K V}
    {lx x : Entry K V} {rn : Treap_node K V} {ra : Nat}
    (hz : Zip s c (.node (.node ll lx lr) x r)) (hra : r.ptr = some ra)
    (hrn : s.mem ra = some rn) (hgt : lx.priority > rn.priority) :
    ∃ s1, (∀ fuel, delete_loop (fuel + 1) s.mem s.root x.addr =
        delete_loop fuel s1.mem s1.root x.addr) ∧
      Zip s1 (.right ll lx :: c) (.node lr x r) ∧ s1.rand = s.rand ∧ s1.draws = s.draws ∧
      ∀ e, e ∉ Path.addrs c ++ (Tree.node (.node ll lx lr) x r).addrs → s1.mem e = s.mem e := by
  obtain ⟨s1, hb, hz1, hr, hd, hfr⟩ := delete_body_right hz hra hrn hgt
  refine ⟨s1, fun fuel => ?_, hz1, hr, hd, hfr⟩
  have hx : s.mem x.addr = some (cell x (some lx.addr) r.ptr (Path.par c)) := hz.2.1.1
  rw [delete_loop_unfold, hx]
  simp only [hra, hb, Option.some_bind]

/-- The body of the push-down loop of `Treap_Delete` when the left child does
not have the larger priority: a left rotation. -/
theorem delete_body_left {s : State K V} {c : Path K V} {l rl rr : Tree K V}
    {rx x : Entry K V} {ln : Treap_node K V} {la : Nat}
    (hz : Zip s c (.node l x (.node rl rx rr))) (hla : l.ptr = some la)
    (hln : s.mem la = some ln) (hgt : ¬ ln.priority > rx.priority) :
    ∃ s1, delete_body s.mem s.root x.addr = some (s1.mem, s1.root) ∧
      Zip s1 (.left rx rr :: c) (.node l x rl) ∧ s1.rand = s.rand ∧ s1.draws = s.draws ∧
      ∀ e, e ∉ Path.addrs c ++ (Tree.node l x (.node rl rx rr)).addrs → s1.mem e = s.mem e := by
  obtain ⟨hc, ⟨hx, hl, ⟨hr, hrl, hrr⟩⟩, hnd0⟩ := hz
  simp only [ptr_node] at hx hl hrl hrr hr hc
  have hnd := hnd0
  simp only [addrs_node, List.nodup_cons, List.mem_append, List.nodup_append, not_or,
    List.mem_cons, List.disjoint_append_right, List.disjoint_cons_right,
    List.disjoint_append_left, List.disjoint_cons_left, List.append_assoc,
    List.cons_append] at hnd
  obtain ⟨hcn, ⟨hln', ⟨⟨hxrl, hxrx, hxrr⟩, hrln, ⟨hrxrr, hrrn⟩, hrxrl, hrlrr⟩, hxl, hlrl, hrxl,
    hlrr⟩, hcl, hxc, hcrl, hrxc, hcrr⟩ := hnd
  have hrxx : rx.addr ≠ x.addr := fun h => hxrx h.symm
  have hc2 : PRepr ((s.mem.write rx.addr (cell rx (some x.addr) rr.ptr (some x.addr))).write
      x.addr (cell x l.ptr rl.ptr (Path.par c))) s.root c (some x.addr) := by
    rw [PRepr_write hxc, PRepr_write hrxc]; exact hc
  have hnd2 : (Path.addrs c ++ [x.addr]).Nodup := by
    simp [List.nodup_append, hcn, hxc]
  obtain ⟨m3, root', h3, hP, hfr⟩ := relink_path (some rx.addr) hc2 hnd2
  have hg : ∀ e, e ∉ Path.addrs c → m3 e = ((s.mem.write rx.addr
      (cell rx (some x.addr) rr.ptr (some x.addr))).write
      x.addr (cell x l.ptr rl.ptr (Path.par c))) e :=
    fun e he => hfr e (fun h => he (par_mem_addrs h.symm))
  have h3x : m3 x.addr = some (cell x l.ptr rl.ptr (Path.par c)) := by
    rw [hg _ hxc]; simp
  have h3r : m3 rx.addr = some (cell rx (some x.addr) rr.ptr (some x.addr)) := by
    rw [hg _ hrxc]; simp [hrxx]
  have h3e : ∀ e, e ∉ Path.addrs c → e ≠ x.addr → e ≠ rx.addr → m3 e = s.mem e := by
    intro e h1 h2 h3
    rw [hg _ h1]; simp [h2, h3]
  have hrl5 : Repr ((m3.write rx.addr (cell rx (some x.addr) rr.ptr (Path.par c))).write x.addr
      (cell x l.ptr rl.ptr (some rx.addr))) (some rx.addr) rl := by
    rw [Repr_write hxrl, Repr_write hrxrl]
    exact hrl.frame fun e he => h3e e (fun h => hcrl h he) (ne_of_mem_of_not_mem he hxrl)
      (ne_of_mem_of_not_mem he hrxrl)
  obtain ⟨m6, h6, hrl6, h6fr⟩ := reparent_root (some x.addr) hrl5 hrln
  have h6e : ∀ e, e ∉ rl.addrs → m6 e = ((m3.write rx.addr
      (cell rx (some x.addr) rr.ptr (Path.par c))).write x.addr
      (cell x l.ptr rl.ptr (some rx.addr))) e :=
    fun e he => h6fr e (fun h => he (ptr_mem_addrs h.symm))
  have hz' : Zip { s with mem := m6, root := root' } (.left rx rr :: c) (.node l x rl) := by
    refine ⟨⟨?_, ?_, ?_⟩, ⟨?_, ?_, hrl6⟩, ?_⟩
    · show m6 rx.addr = _
      rw [h6e _ hrxrl, write_other _ _ hrxx, write_same]; rfl
    · refine hrr.frame fun e he => ?_
      show m6 e = _
      rw [h6e e (fun h => hrlrr h he), write_other _ _ (ne_of_mem_of_not_mem he hxrr),
        write_other _ _ (ne_of_mem_of_not_mem he hrxrr)]
      exact h3e e (fun h => hcrr h he) (ne_of_mem_of_not_mem he hxrr)
        (ne_of_mem_of_not_mem he hrxrr)
    · refine hP.pframe fun e he => ?_
      show m6 e = _
      rw [h6e e (fun h => hcrl he h), write_other _ _ (ne_of_mem_of_not_mem he hxc),
        write_other _ _ (ne_of_mem_of_not_mem he hrxc)]
    · show m6 x.addr = _
      rw [h6e _ hxrl, write_same]; rfl
    · refine hl.frame fun e he => ?_
      show m6 e = _
      rw [h6e e (fun h => hlrl he h), write_other _ _ (ne_of_mem_of_not_mem he hxl),
        write_other _ _ (ne_of_mem_of_not_mem he hrxl)]
      exact h3e e (fun h => hcl h he) (ne_of_mem_of_not_mem he hxl)
        (ne_of_mem_of_not_mem he hrxl)
    · refine (List.Perm.nodup_iff (perm_of_count fun e => ?_)).mp hnd0
      simp only [Path.addrs, Path.after, Path.before, Tree.addrs, List.map_append,
        List.map_cons, List.count_append, List.count_cons, entries_node, List.map_nil,
        List.count_nil]
      ring
  refine ⟨_, ?_, hz', rfl, rfl, ?_⟩
  · rw [delete_body_step_left hx hla rfl hln hr hgt hxrx h3 h3x h3r]
    show Option.bind (setParentIfAny _ rl.ptr _) _ = _
    rw [h6]; rfl
  · intro e he
    simp only [addrs_node, List.mem_append, List.mem_cons, not_or] at he
    show m6 e = _
    rw [h6e e (by tauto), write_other _ _ (by tauto), write_other _ _ (by tauto)]
    exact h3e e (by tauto) (by tauto) (by tauto)

/-- One iteration of the push-down loop of `Treap_Delete` when the left child
does not have the larger priority: a left rotation. -/
theorem delete_rotate_left {s : State K V} {c : Path K V} {l rl rr : Tree K V}
    {rx x : Entry K V} {ln : Treap_node K V} {la : Nat}
    (hz : Zip s c (.node l x (.node rl rx rr))) (hla : l.ptr = some la)
    (hln : s.mem la = some ln) (hgt : ¬ ln.priority > rx.priority) :
    ∃ s1, (∀ fuel, delete_loop (fuel + 1) s.mem s.root x.addr =
        delete_loop fuel s1.mem s1.root x.addr) ∧
      Zip s1 (.left rx rr :: c) (.node l x rl) ∧ s1.rand = s.rand ∧ s1.draws = s.draws ∧
      ∀ e, e ∉ Path.addrs c ++ (Tree.node l x (.node rl rx rr)).addrs → s1.mem e = s.mem e := by
  obtain ⟨s1, hb, hz1, hr, hd, hfr⟩ := delete_body_left hz hla hln hgt
  refine ⟨s1, fun fuel => ?_, hz1, hr, hd, hfr⟩
  have hx : s.mem x.addr = some (cell x l.ptr (some rx.addr) (Path.par c)) := hz.2.1.1
  rw [delete_loop_unfold, hx]
  simp only [hla, hb, Option.some_bind]

theorem pushDown_nil_left (n : Nat) (c : Path K V) (x : Entry K V) (r : Tree K V) :
    pushDown n c .nil x r = (c, .nil, r) := by
  cases n <;> rfl

theorem pushDown_nil_right (n : Nat) (c : Path K V) (x : Entry K V) (l : Tree K V) :
    pushDown n c l x .nil = (c, l, .nil) := by
  cases n <;> cases l <;> rfl

theorem pushDown_succ (n : Nat) (c : Path K V) (x lx rx : Entry K V) (ll lr rl rr : Tree K V) :
    pushDown (n + 1) c (.node ll lx lr) x (.node rl rx rr) =
      if lx.priority > rx.priority then pushDown n (.right ll lx :: c) lr x (.node rl rx rr)
      else pushDown n (.left rx rr :: c) (.node ll lx lr) x rl := by
  rw [pushDown]

theorem delete_loop_spec (x : Entry K V) (n : Nat) :
    ∀ (c : Path K V) (l r : Tree K V) (s : State K V) (fuel : Nat),
      Zip s c (.node l x r) → l.size + r.size ≤ n → n < fuel →
      ∃ s', delete_loop fuel s.mem s.root x.addr = some (s'.mem, s'.root) ∧
        Zip s' (pushDown n c l x r).1 (.node (pushDown n c l x r).2.1 x (pushDown n c l x r).2.2) ∧
        ((pushDown n c l x r).2.1 = .nil ∨ (pushDown n c l x r).2.2 = .nil) ∧
        s'.rand = s.rand ∧ s'.draws = s.draws ∧
        ∀ e, e ∉ Path.addrs c ++ (Tree.node l x r).addrs → s'.mem e = s.mem e := by
  induction n with
  | zero =>
    intro c l r s fuel hz hn hf
    obtain ⟨fuel, rfl⟩ : ∃ n, fuel = n + 1 := ⟨fuel - 1, by omega⟩
    have hl : l = .nil := by
      cases l with
      | nil => rfl
      | node _ _ _ => simp [Tree.size] at hn
    subst hl
    rw [pushDown_nil_left]
    refine ⟨s, ?_, hz, Or.inl rfl, rfl, rfl, fun _ _ => rfl⟩
    simp [delete_loop, hz.2.1.1]
  | succ n ih =>
    intro c l r s fuel hz hn hf
    obtain ⟨fuel, rfl⟩ : ∃ n, fuel = n + 1 := ⟨fuel - 1, by omega⟩
    cases l with
    | nil =>
      rw [pushDown_nil_left]
      refine ⟨s, ?_, hz, Or.inl rfl, rfl, rfl, fun _ _ => rfl⟩
      simp [delete_loop, hz.2.1.1]
    | node ll lx lr =>
      cases r with
      | nil =>
        rw [pushDown_nil_right]
        refine ⟨s, ?_, hz, Or.inr rfl, rfl, rfl, fun _ _ => rfl⟩
        simp [delete_loop, hz.2.1.1]
      | node rl rx rr =>
        rw [pushDown_succ]
        simp only [Tree.size] at hn
        by_cases hgt : lx.priority > rx.priority
        · simp only [hgt, if_true]
          obtain ⟨s1, h1, h2, h3, h4, h5⟩ :=
            delete_rotate_right hz (rfl : (Tree.node rl rx rr).ptr = some rx.addr) hz.2.1.2.2.1 hgt
          obtain ⟨s', hs1, hs2, hs3, hs4, hs5, hs6⟩ := ih (.right ll lx :: c) lr (.node rl rx rr)
            s1 fuel h2 (by simp only [Tree.size]; omega) (by omega)
          refine ⟨s', by rw [h1, hs1], hs2, hs3, hs4.trans h3, hs5.trans h4, ?_⟩
          intro e he
          rw [hs6 e ?_, h5 e he]
          simp only [mem_addrs_cons_right, addrs_node, List.mem_append, List.mem_cons,
            not_or] at he ⊢
          tauto
        · simp only [hgt, if_false]
          obtain ⟨s1, h1, h2, h3, h4, h5⟩ :=
            delete_rotate_left hz (rfl : (Tree.node ll lx lr).ptr = some lx.addr) hz.2.1.2.1.1 hgt
          obtain ⟨s', hs1, hs2, hs3, hs4, hs5, hs6⟩ := ih (.left rx rr :: c) (.node ll lx lr) rl
            s1 fuel h2 (by simp only [Tree.size]; omega) (by omega)
          refine ⟨s', by rw [h1, hs1], hs2, hs3, hs4.trans h3, hs5.trans h4, ?_⟩
          intro e he
          rw [hs6 e ?_, h5 e he]
          simp only [mem_addrs_cons_left, addrs_node, List.mem_append, List.mem_cons,
            not_or] at he ⊢
          tauto

theorem Repr.release {m : Mem K V} {par : Ptr} {t : Tree K V} {a : Nat}
    (h : Repr m par t) (ha : a ∉ t.addrs) : Repr (m.release a) par t :=
  h.frame fun _ hb => release_other _ (ne_of_mem_of_not_mem hb ha)

theorem PRepr.prelease {m : Mem K V} {root h : Ptr} {c : Path K V} {a : Nat}
    (hp : PRepr m root c h) (ha : a ∉ Path.addrs c) : PRepr (m.release a) root c h :=
  hp.pframe fun _ hb => release_other _ (ne_of_mem_of_not_mem hb ha)

/-- Splicing out a node with at most one child (treap.c lines 220-240). -/
theorem splice_spec {s : State K V} {c : Path K V} {l r : Tree K V} {x : Entry K V}
    (hz : Zip s c (.node l x r)) (hlr : l = .nil ∨ r = .nil) :
    ∃ m1 m2 root', setParentIfAny s.mem (soleChild l r).ptr (Path.par c) = some m1 ∧
      m1 x.addr = s.mem x.addr ∧
      relink m1 s.root (Path.par c) x.addr (soleChild l r).ptr = some (m2, root') ∧
      m2 x.addr = s.mem x.addr ∧
      Zip { s with mem := m2.release x.addr, root := root' } c (soleChild l r) ∧
      ∀ e, e ∉ Path.addrs c ++ (Tree.node l x r).addrs → m2.release x.addr e = s.mem e := by
  obtain ⟨hc, ⟨hx, hl, hr⟩, hnd⟩ := hz
  simp only [ptr_node] at hc
  have hu : Repr s.mem (some x.addr) (soleChild l r) := by
    cases l with
    | nil => exact hr
    | node _ _ _ => exact hl
  have hsub : ∀ e, e ∈ (soleChild l r).addrs → e ∈ l.addrs ∨ e ∈ r.addrs := by
    intro e he
    cases l with
    | nil => exact Or.inr he
    | node _ _ _ => exact Or.inl he
  have hund : (Path.addrs c ++ x.addr :: (soleChild l r).addrs).Nodup := by
    refine (List.Perm.nodup_iff (perm_of_count fun e => ?_)).mp hnd
    rcases hlr with rfl | rfl
    · simp only [soleChild, addrs_node, addrs_nil, List.count_append, List.count_cons,
        List.count_nil]
      ring
    · cases l with
      | nil =>
        simp only [soleChild, addrs_node, addrs_nil, List.count_append, List.count_cons,
          List.count_nil]
        ring
      | node _ _ _ =>
        simp only [soleChild, addrs_node, addrs_nil, List.count_append, List.count_cons,
          List.count_nil]
        ring
  simp only [List.nodup_append, List.nodup_cons, List.disjoint_cons_right] at hund
  obtain ⟨hcn, ⟨hxu, hun⟩, hxc, hcu⟩ := hund
  obtain ⟨m1, h1, hu1, hfr1⟩ := reparent_root (Path.par c) hu hun
  have h1e : ∀ e, e ∉ (soleChild l r).addrs → m1 e = s.mem e :=
    fun e he => hfr1 e (fun h => he (ptr_mem_addrs h.symm))
  have hc1 : PRepr m1 s.root c (some x.addr) :=
    hc.pframe fun e he => h1e e (fun h => hcu he h)
  obtain ⟨m2, root', h2, hp2, hfr2⟩ := relink_path (soleChild l r).ptr hc1
    (by simp [List.nodup_append, hcn, hxc])
  have h2e : ∀ e, e ∉ Path.addrs c → m2 e = m1 e :=
    fun e he => hfr2 e (fun h => he (par_mem_addrs h.symm))
  refine ⟨m1, m2, root', h1, h1e _ hxu, h2, (h2e _ hxc).trans (h1e _ hxu), ⟨?_, ?_, ?_⟩, ?_⟩
  · exact hp2.prelease hxc
  · exact (hu1.frame fun e he => h2e e (fun h => hcu h he)).release hxu
  · simp [List.nodup_append, hcn, hun, hcu]
  · intro e he
    simp only [addrs_node, List.mem_append, List.mem_cons, not_or] at he
    rw [release_other _ he.2.2.1, h2e e he.1, h1e e]
    intro h
    rcases hsub e h with h | h
    · exact he.2.1 h
    · exact he.2.2.2 h

theorem soleChild_ptr (l r : Tree K V) :
    (if l.ptr = none then r.ptr else l.ptr) = (soleChild l r).ptr := by
  cases l <;> simp [soleChild]

theorem pushDown_entries (x : Entry K V) (n : Nat) :
    ∀ (c : Path K V) (l r : Tree K V),
      (plug (pushDown n c l x r).1
        (.node (pushDown n c l x r).2.1 x (pushDown n c l x r).2.2)).entries =
      (plug c (.node l x r)).entries := by
  induction n with
  | zero => intro c l r; rw [pushDown]; simp
  | succ n ih =>
    intro c l r
    cases l with
    | nil => rw [pushDown_nil_left]
    | node ll lx lr =>
      cases r with
      | nil => rw [pushDown_nil_right]
      | node rl rx rr =>
        rw [pushDown_succ]
        split
        · rw [ih]
          simp [entries_plug, Path.before, Path.after]
        · rw [ih]
          simp [entries_plug, Path.before, Path.after]

theorem Treap_Delete_miss {s : State K V} {t : Tree K V} {cmp : K → K → Int} {k : K}
    {fuel : Nat} (hz : Zip s [] t) (hf : t.size < fuel)
    (hd : (descendZ cmp k [] t).2 = .nil) :
    Treap_Delete fuel s cmp k = some (s, k, none) := by
  unfold Treap_Delete
  rw [hz.root, descend_spec cmp k t [] fuel hz.fwd hf, hd]
  rfl

theorem Treap_Delete_hit {s : State K V} {t l r : Tree K V} {x : Entry K V}
    {cmp : K → K → Int} {k : K} {fuel : Nat} (hz : Zip s [] t) (hf : t.size < fuel)
    (hd : (descendZ cmp k [] t).2 = .node l x r) :
    ∃ s', Treap_Delete fuel s cmp k = some (s', x.key, x.data) ∧
      Zip s' [] (removeAt (descendZ cmp k [] t).1 l x r) ∧
      s'.rand = s.rand ∧ s'.draws = s.draws ∧
      (∀ e, e ∉ t.addrs → s'.mem e = s.mem e) ∧ s'.mem x.addr = none := by
  have hz2 := hz.descend cmp k
  have hpl := plug_descendZ cmp k t []
  rw [hd] at hz2 hpl
  have hdsc := descend_spec cmp k t [] fuel hz.fwd hf
  rw [← hz.root, hd] at hdsc
  generalize (descendZ cmp k [] t).1 = c at hz2 hpl ⊢
  have hsz := size_plug c (.node l x r)
  rw [hpl] at hsz
  simp only [plug, Tree.size] at hsz
  obtain ⟨s1, h1, hz1, hor, hr1, hd1, hfr1⟩ := delete_loop_spec x (l.size + r.size) c l r s fuel
    hz2 (le_refl _) (by omega)
  obtain ⟨m1, m2, root', hs1, hs2, hs3, hs4, hs5, hs6⟩ := splice_spec hz1 hor
  have hx1 := hz1.2.1.1
  have hperm := addrs_plug_perm c (.node l x r)
  rw [hpl] at hperm
  simp only [plug] at hperm
  have hpush : (Path.addrs (pushDown (l.size + r.size) c l x r).1 ++
      (Tree.node (pushDown (l.size + r.size) c l x r).2.1 x
        (pushDown (l.size + r.size) c l x r).2.2).addrs).Perm
      (Path.addrs c ++ (Tree.node l x r).addrs) := by
    refine (addrs_plug_perm _ _).symm.trans (List.Perm.trans ?_ (addrs_plug_perm _ _))
    unfold Tree.addrs
    rw [pushDown_entries]
  refine ⟨{ s with mem := m2.release x.addr, root := root' }, ?_, ?_, rfl, rfl, ?_, ?_⟩
  · unfold Treap_Delete
    rw [hdsc]
    simp only [ptr_node, Option.bind_eq_bind, Option.some_bind, h1, hx1, soleChild_ptr, hs1,
      hs2, hs3, hs4, Option.pure_def]
  · unfold removeAt
    rw [← Zip_plug]
    exact hs5
  · intro e he
    show (m2.release x.addr) e = _
    have he' : e ∉ Path.addrs c ++ (Tree.node l x r).addrs := fun h => he (hperm.mem_iff.mpr h)
    rw [hs6 e (fun h => he' (hpush.mem_iff.mp h)), hfr1 e he']
  · show (m2.release x.addr) x.addr = none
    simp

/-! ### `Treap_Lookup_First` and `Treap_Delete_First` -/

theorem leftZ_node_nil (c : Path K V) (x : Entry K V) (r : Tree K V) :
    leftZ c (.node .nil x r) = (c, .node .nil x r) := by
  rw [leftZ]

theorem leftZ_node_node (c : Path K V) (x y : Entry K V) (a b r : Tree K V) :
    leftZ c (.node (.node a y b) x r) = leftZ (.left x r :: c) (.node a y b) := by
  rw [leftZ]; simp

theorem leftZ_spec (t : Tree K V) (ht : t ≠ .nil) :
    ∀ c : Path K V, ∃ c' x r, leftZ c t = (c', .node .nil x r) ∧
      plug c' (.node .nil x r) = plug c t ∧
      Path.before c' = Path.before c ∧
      x :: r.entries ++ Path.after c' = t.entries ++ Path.after c ∧
      c'.length ≤ c.length + t.size ∧
      (c' = [] ∨ Path.holeIsLeft c' = true ∨ c' = c) := by
  induction t with
  | nil => exact absurd rfl ht
  | node l x r ihl _ =>
    intro c
    cases l with
    | nil =>
      refine ⟨c, x, r, leftZ_node_nil c x r, rfl, rfl, by simp, by simp [Tree.size], ?_⟩
      exact Or.inr (Or.inr rfl)
    | node a y b =>
      obtain ⟨c', x', r', h1, h2, h3, h4, h5, h6⟩ := ihl (by simp) (.left x r :: c)
      refine ⟨c', x', r', by rw [leftZ_node_node, h1], by rw [h2]; rfl, by rw [h3]; rfl, ?_, ?_, ?_⟩
      · rw [h4]; simp [Path.after]
      · simp only [Tree.size, List.length_cons] at h5 ⊢; omega
      · rcases h6 with h | h | h
        · exact Or.inl h
        · exact Or.inr (Or.inl h)
        · exact Or.inr (Or.inl (by rw [h]; rfl))

theorem leftmost_spec {m : Mem K V} (t : Tree K V) :
    ∀ (c : Path K V) (fuel : Nat) (a : Nat), Fwd m t → t.ptr = some a → t.size ≤ fuel →
      leftmost m fuel a = (leftZ c t).2.ptr := by
  induction t with
  | nil => intro c fuel a _ h; simp at h
  | node l x r ihl _ =>
    intro c fuel a hfw ha hf
    simp only [ptr_node, Option.some.injEq] at ha
    subst ha
    obtain ⟨fuel, rfl⟩ : ∃ n, fuel = n + 1 := ⟨fuel - 1, by simp [Tree.size] at hf; omega⟩
    obtain ⟨⟨par, hx⟩, hl, hr⟩ := hfw
    cases l with
    | nil =>
      rw [leftZ_node_nil]
      simp [leftmost, hx]
    | node a y b =>
      rw [leftZ_node_node]
      simp only [leftmost, hx, Option.bind_eq_bind, Option.some_bind, ptr_node]
      exact ihl _ fuel y.addr hl rfl (by simp only [Tree.size] at hf ⊢; omega)

theorem Fwd_plug {m : Mem K V} (c : Path K V) {t : Tree K V} (h : Fwd m (plug c t)) :
    Fwd m t := by
  induction c generalizing t with
  | nil => exact h
  | cons f c ih =>
    cases f with
    | left x r => exact (ih (t := .node t x r) h).2.1
    | right l x => exact (ih (t := .node l x t) h).2.2

theorem Treap_Lookup_First_empty {s : State K V} (fuel : Nat) (k : K) (h : s.root = none) :
    Treap_Lookup_First fuel s k = some (s, k, none) := by
  simp [Treap_Lookup_First, h]

theorem Treap_Lookup_First_spec {s : State K V} {t : Tree K V} {fuel : Nat} (k : K)
    (hs : Shape s t) (ht : t ≠ .nil) (hf : t.size ≤ fuel) :
    ∃ x, firstEntry t = some x ∧ Treap_Lookup_First fuel s k = some (s, x.key, x.data) := by
  obtain ⟨hroot, hfw, hnd⟩ := hs
  obtain ⟨c', x, r, h1, h2, -⟩ := leftZ_spec t ht []
  obtain ⟨a, ha⟩ : ∃ a, t.ptr = some a := by
    cases t with
    | nil => exact absurd rfl ht
    | node _ _ _ => exact ⟨_, rfl⟩
  have hlm := leftmost_spec t [] fuel a hfw ha hf
  rw [h1] at hlm
  refine ⟨x, by simp [firstEntry, h1], ?_⟩
  have hfx : Fwd s.mem (.node .nil x r) := Fwd_plug c' (by rw [h2]; exact hfw)
  obtain ⟨⟨par, hx⟩, -, -⟩ := hfx
  simp only [Treap_Lookup_First, hroot, ha, hlm, ptr_node, Option.bind_eq_bind,
    Option.some_bind, hx, Option.pure_def]

theorem Treap_Delete_First_empty {s : State K V} (fuel : Nat) (k : K) (h : s.root = none) :
    Treap_Delete_First fuel s k = some (s, k, none) := by
  simp [Treap_Delete_First, h]

theorem Treap_Delete_First_spec {s : State K V} {t : Tree K V} {fuel : Nat} (k : K)
    (hz : Zip s [] t) (ht : t ≠ .nil) (hf : t.size ≤ fuel) :
    ∃ x s', firstEntry t = some x ∧ Treap_Delete_First fuel s k = some (s', x.key, x.data) ∧
      Zip s' [] (deleteFirstTree t) ∧ s'.rand = s.rand ∧ s'.draws = s.draws ∧
      (∀ e, e ∉ t.addrs → s'.mem e = s.mem e) ∧ s'.mem x.addr = none := by
  obtain ⟨c', x, r, h1, h2, -, -, -, h6⟩ := leftZ_spec t ht []
  obtain ⟨a, ha⟩ : ∃ a, t.ptr = some a := by
    cases t with
    | nil => exact absurd rfl ht
    | node _ _ _ => exact ⟨_, rfl⟩
  have hlm := leftmost_spec t [] fuel a hz.fwd ha hf
  rw [h1] at hlm
  have hroot := hz.root
  have hzc : Zip s c' (.node .nil x r) := by rw [Zip_plug, h2]; exact hz
  have hperm := addrs_plug_perm c' (.node .nil x r)
  rw [h2] at hperm
  simp only [plug] at hperm
  have hdt : deleteFirstTree t = plug c' r := by simp [deleteFirstTree, h1]
  refine ⟨x, ?_⟩
  rw [hdt]
  simp only [← Zip_plug, firstEntry, h1, true_and]
  obtain ⟨hc, ⟨hx, -, hr⟩, hnd⟩ := hzc
  simp only [ptr_node, ptr_nil] at hc hx hr
  cases c' with
  | nil =>
    simp only [addrs_path_nil, List.nil_append, addrs_node, addrs_nil, List.nodup_cons] at hnd
    obtain ⟨m1, hm1, hr1, hfr1⟩ := reparent_root none hr hnd.2
    have h1e : ∀ e, e ∉ r.addrs → m1 e = s.mem e :=
      fun e he => hfr1 e (fun h => he (ptr_mem_addrs h.symm))
    refine ⟨{ s with mem := m1.release x.addr, root := r.ptr }, ?_, ⟨rfl, ?_, ?_⟩, rfl, rfl, ?_, ?_⟩
    · simp only [Treap_Delete_First, hroot, ha, hlm, ptr_node, Option.bind_eq_bind,
        Option.some_bind, hx, Option.pure_def, Path.par, hm1, h1e _ hnd.1]
    · exact hr1.release hnd.1
    · simpa using hnd.2
    · intro e he
      have he' : e ∉ Path.addrs ([] : Path K V) ++ (Tree.node .nil x r).addrs :=
        fun h => he (hperm.mem_iff.mpr h)
      simp only [addrs_path_nil, List.nil_append, addrs_node, addrs_nil, List.mem_cons,
        not_or] at he'
      show m1.release x.addr e = _
      rw [release_other _ he'.1, h1e e he'.2]
    · show m1.release x.addr x.addr = none
      simp
  | cons f c =>
    cases f with
    | right l y =>
      rcases h6 with h | h | h
      · simp at h
      · simp [Path.holeIsLeft] at h
      · simp at h
    | left y w =>
      obtain ⟨hy, hw, hc⟩ := hc
      rw [nodup_cons_left] at hnd
      simp only [addrs_node, addrs_nil, List.nodup_cons, List.mem_append, List.nodup_append,
        not_or, List.mem_cons, List.disjoint_append_right, List.disjoint_cons_right,
        List.nil_append] at hnd
      obtain ⟨⟨hyw, hyc, hyx, hyr⟩, hwn, ⟨hcn, ⟨hxr, hrn⟩, hxc, hcr⟩, hwc, hxw, hwr⟩ := hnd
      have hxy : x.addr ≠ y.addr := fun h => hyx h.symm
      have hr1 : Repr (s.mem.write y.addr (cell y r.ptr w.ptr (Path.par c))) (some x.addr) r := by
        rw [Repr_write hyr]; exact hr
      obtain ⟨m2, hm2, hr2, hfr2⟩ := reparent_root (some y.addr) hr1 hrn
      have h2e : ∀ e, e ∉ r.addrs → m2 e = (s.mem.write y.addr
          (cell y r.ptr w.ptr (Path.par c))) e :=
        fun e he => hfr2 e (fun h => he (ptr_mem_addrs h.symm))
      refine ⟨{ s with mem := m2.release x.addr }, ?_, ⟨⟨?_, ?_, ?_⟩, ?_, ?_⟩, rfl, rfl, ?_, ?_⟩
      · have hx' : s.mem x.addr = some (cell x none r.ptr (some y.addr)) := hx
        have h2x : m2 x.addr = some (cell x none r.ptr (some y.addr)) := by
          rw [h2e _ hxr, write_other _ _ hxy, hx']
        simp only [Treap_Delete_First, hroot, ha, hlm, ptr_node, Option.bind_eq_bind,
          Option.some_bind, hx', Option.pure_def, setLeft, hy, write_other _ _ hxy]
        show Option.bind (setParentIfAny _ r.ptr _) _ = _
        rw [hm2]
        simp only [Option.some_bind, h2x]
      · show m2.release x.addr y.addr = _
        rw [release_other _ hyx, h2e _ hyr, write_same]
      · refine hw.frame fun e he => ?_
        show m2.release x.addr e = _
        rw [release_other _ (ne_of_mem_of_not_mem he hxw), h2e e (fun h => hwr he h),
          write_other _ _ (ne_of_mem_of_not_mem he hyw)]
      · refine hc.pframe fun e he => ?_
        show m2.release x.addr e = _
        rw [release_other _ (ne_of_mem_of_not_mem he hxc), h2e e (fun h => hcr he h),
          write_other _ _ (ne_of_mem_of_not_mem he hyc)]
      · exact hr2.release hxr
      · rw [nodup_cons_left]
        simp only [List.nodup_cons, List.mem_append, List.nodup_append, not_or]
        exact ⟨⟨hyw, hyc, hyr⟩, hwn, ⟨hcn, hrn, hcr⟩, by
          simp only [List.disjoint_append_right]; exact ⟨hwc, hwr⟩⟩
      · intro e he
        have he' : e ∉ Path.addrs (Frame.left y w :: c) ++ (Tree.node .nil x r).addrs :=
          fun h => he (hperm.mem_iff.mpr h)
        simp only [mem_addrs_cons_left, List.mem_append, addrs_node, addrs_nil, List.mem_cons,
          not_or, List.nil_append] at he'
        show m2.release x.addr e = _
        rw [release_other _ he'.2.1, h2e e he'.2.2, write_other _ _ he'.1.1]
      · show m2.release x.addr x.addr = none
        simp

/-! ### `Treap_Iterate` -/

theorem climbZ_right (l t : Tree K V) (y : Entry K V) (c : Path K V) :
    climbZ (.right l y :: c) t = climbZ c (.node l y t) := by
  rw [climbZ]

theorem climbZ_left (r t : Tree K V) (y : Entry K V) (c : Path K V) :
    climbZ (.left y r :: c) t = (.left y r :: c, t) := by
  rw [climbZ]; simp

theorem climbZ_nil (t : Tree K V) : climbZ ([] : Path K V) t = ([], t) := by
  rw [climbZ]; simp

theorem climbZ_spec (c : Path K V) :
    ∀ t : Tree K V, plug (climbZ c t).1 (climbZ c t).2 = plug c t ∧
      Path.after (climbZ c t).1 = Path.after c ∧
      ((climbZ c t).1 = [] ∨ Path.holeIsLeft (climbZ c t).1 = true) ∧
      (t ≠ .nil → (climbZ c t).2 ≠ .nil) := by
  induction c with
  | nil => intro t; rw [climbZ_nil]; exact ⟨rfl, rfl, Or.inl rfl, id⟩
  | cons f c ih =>
    intro t
    cases f with
    | left y r => rw [climbZ_left]; exact ⟨rfl, rfl, Or.inr rfl, id⟩
    | right l y =>
      rw [climbZ_right]
      obtain ⟨h1, h2, h3, h4⟩ := ih (.node l y t)
      exact ⟨h1, h2, h3, fun _ => h4 (by simp)⟩

theorem Zip_right {s : State K V} {c : Path K V} {l t : Tree K V} {y : Entry K V} :
    Zip s (.right l y :: c) t ↔ Zip s c (.node l y t) := by
  rw [Zip_plug, Zip_plug (c := c)]; rfl

theorem Zip_left {s : State K V} {c : Path K V} {r t : Tree K V} {y : Entry K V} :
    Zip s (.left y r :: c) t ↔ Zip s c (.node t y r) := by
  rw [Zip_plug, Zip_plug (c := c)]; rfl

theorem climb_spec {s : State K V} (c : Path K V) :
    ∀ (t : Tree K V) (a fuel : Nat), Zip s c t → t.ptr = some a → c.length < fuel →
      climb s.mem fuel a = (climbZ c t).2.ptr := by
  induction c with
  | nil =>
    intro t a fuel hz ha hf
    obtain ⟨fuel, rfl⟩ : ∃ n, fuel = n + 1 := ⟨fuel - 1, by omega⟩
    cases t with
    | nil => simp at ha
    | node l x r =>
      simp only [ptr_node, Option.some.injEq] at ha
      subst ha
      rw [climbZ_nil]
      simp [climb, hz.2.1.1, Path.par]
  | cons f c ih =>
    intro t a fuel hz ha hf
    obtain ⟨fuel, rfl⟩ : ∃ n, fuel = n + 1 := ⟨fuel - 1, by omega⟩
    simp only [List.length_cons, Nat.add_lt_add_iff_right] at hf
    cases t with
    | nil => simp at ha
    | node l x r =>
      simp only [ptr_node, Option.some.injEq] at ha
      subst ha
      cases f with
      | left y w =>
        rw [climbZ_left]
        obtain ⟨⟨hy, -, -⟩, ⟨hx, -, -⟩, hnd⟩ := hz
        rw [nodup_cons_left] at hnd
        simp only [addrs_node, List.nodup_cons, List.mem_append, not_or, List.mem_cons] at hnd
        have hxw : ¬ (some x.addr = w.ptr) := fun h => by
          exact (List.nodup_append.mp hnd.2).2.2 (ptr_mem_addrs h.symm) (by simp)
        simp only [climb, hx, Path.par, Frame.entry, hy, Option.bind_eq_bind, Option.some_bind,
          hxw, if_false, Option.pure_def, ptr_node]
      | right w y =>
        rw [climbZ_right]
        have hz' := Zip_right.mp hz
        obtain ⟨⟨hy, -, -⟩, ⟨hx, -, -⟩, hnd⟩ := hz
        simp only [climb, hx, Path.par, Frame.entry, hy, Option.bind_eq_bind, Option.some_bind,
          ptr_node, if_true]
        exact ih _ _ fuel hz' rfl hf

theorem visit_cons {σ : Type} (it : σ → K → treap_data_element V → σ × Int)
    (x : Entry K V) (xs : List (Entry K V)) (st : σ) :
    visit it (x :: xs) st =
      if (it st x.key x.data).2 ≠ 0 then (it st x.key x.data).1
      else visit it xs (it st x.key x.data).1 := rfl

theorem iterate_loop_spec {σ : Type} {s : State K V}
    (it : σ → K → treap_data_element V → σ × Int) (inner : Nat) (fuel : Nat) :
    ∀ (c : Path K V) (l r : Tree K V) (x : Entry K V) (st : σ),
      Zip s c (.node l x r) → (plug c (.node l x r)).size ≤ inner →
      (r.entries ++ Path.after c).length < fuel →
      iterate_loop s.mem it inner fuel x.addr st =
        some (visit it (x :: r.entries ++ Path.after c) st) := by
  induction fuel with
  | zero => intro c l r x st _ _ hf; simp at hf
  | succ fuel ih =>
    intro c l r x st hz hin hf
    have hx := hz.2.1.1
    rw [iterate_loop]
    simp only [hx, Option.bind_eq_bind, Option.some_bind, List.cons_append, visit_cons]
    by_cases hstop : (it st x.key x.data).2 ≠ 0
    · simp [hstop]
    · simp only [hstop, if_false]
      cases r with
      | node rl rx rr =>
        obtain ⟨c2, x2, r2, h1, h2, -, h4, -, -⟩ :=
          leftZ_spec (.node rl rx rr) (by simp) (.right l x :: c)
        have hsz := size_plug c (.node l x (.node rl rx rr))
        have hlm := leftmost_spec (m := s.mem) (.node rl rx rr) (.right l x :: c) inner rx.addr
          hz.2.1.2.2.toFwd rfl (by simp only [Tree.size] at hsz ⊢; omega)
        rw [h1] at hlm
        have hz2 : Zip s c2 (.node .nil x2 r2) := by
          rw [Zip_plug, h2, ← Zip_plug]; exact Zip_right.mpr hz
        simp only [ptr_node, hlm, Option.some_bind, Option.pure_def]
        have h4' : x2 :: r2.entries ++ Path.after c2 =
            (Tree.node rl rx rr).entries ++ Path.after c := by
          rw [h4]; rfl
        rw [ih c2 .nil r2 x2 _ hz2 (by rw [h2]; exact hin)
          (by rw [← h4'] at hf; simpa using hf), h4']
      | nil =>
        obtain ⟨h1, h2, h3, h4⟩ := climbZ_spec c (.node l x .nil)
        have hcl := climb_spec (s := s) c (.node l x .nil) x.addr inner hz rfl (by
          have := length_lt_size_plug c (t := .node l x .nil) (by simp [Tree.size])
          omega)
        have hz2 : Zip s (climbZ c (.node l x .nil)).1 (climbZ c (.node l x .nil)).2 := by
          rw [Zip_plug, h1, ← Zip_plug]; exact hz
        generalize (climbZ c (.node l x .nil)).1 = c2 at *
        generalize (climbZ c (.node l x .nil)).2 = t2 at *
        cases t2 with
        | nil => exact absurd rfl (h4 (by simp))
        | node l2 x2 r2 =>
          have hx2 := hz2.2.1.1
          simp only [ptr_nil, hcl, ptr_node, Option.some_bind, hx2, Option.pure_def,
            entries_nil, List.nil_append]
          cases c2 with
          | nil =>
            simp only [Path.after] at h2
            simp [Path.par, ← h2, visit]
          | cons f c3 =>
            cases f with
            | right w y => rcases h3 with h | h <;> simp [Path.holeIsLeft] at h
            | left y w =>
              simp only [Path.after] at h2
              simp only [Path.par, Frame.entry, ← h2]
              have hz3 := Zip_left.mp hz2
              have hpl : plug c3 (.node (.node l2 x2 r2) y w) = plug c (.node l x .nil) := h1
              rw [ih c3 _ w y _ hz3 (by rw [hpl]; exact hin)
                (by rw [← h2] at hf; simpa using hf)]

theorem Treap_Iterate_spec {σ : Type} {s : State K V} {t : Tree K V} {fuel : Nat}
    (it : σ → K → treap_data_element V → σ × Int) (st : σ)
    (hz : Zip s [] t) (hf : t.size < fuel) :
    Treap_Iterate fuel s it st = some (visit it t.entries st) := by
  cases t with
  | nil => simp [Treap_Iterate, hz.root, visit]
  | node l x r =>
    obtain ⟨c2, x2, r2, h1, h2, -, h4, -, -⟩ := leftZ_spec (.node l x r) (by simp) []
    have hlm := leftmost_spec (m := s.mem) (.node l x r) [] fuel x.addr hz.fwd rfl (by omega)
    rw [h1] at hlm
    have hz2 : Zip s c2 (.node .nil x2 r2) := by
      rw [Zip_plug, h2]; exact hz
    simp only [Path.after, List.append_nil] at h4
    have hlen : (Tree.node l x r).entries.length = (Tree.node l x r).size := entries_length _
    simp only [Treap_Iterate, hz.root, ptr_node, hlm, Option.bind_eq_bind, Option.some_bind]
    rw [iterate_loop_spec it fuel fuel c2 .nil r2 x2 st hz2 (by rw [h2]; show (Tree.node l x r).size ≤ fuel; omega)
      (by rw [← h4] at hlen; simp only [List.length_cons, List.cons_append] at hlen; omega), h4]

/-! ### Shape and back links, against the representation with parents -/

theorem Repr_of_Fwd {m : Mem K V} (u : Tree K V) :
    ∀ par : Ptr, Fwd m u →
      (∀ a n, u.ptr = some a → m a = some n → n.parent = par) →
      (∀ a ∈ u.addrs, ∀ b ∈ u.addrs, ∀ n p, m a = some n → m b = some p →
        (p.left = some a ∨ p.right = some a) → n.parent = some b) →
      Repr m par u := by
  induction u with
  | nil => intro _ _ _ _; trivial
  | node l x r ihl ihr =>
    intro par hfw hroot hbl
    obtain ⟨⟨par0, hx⟩, hl, hr⟩ := hfw
    have hp : par0 = par := hroot x.addr _ rfl hx
    subst hp
    refine ⟨hx, ihl _ hl ?_ ?_, ihr _ hr ?_ ?_⟩
    · intro a n ha hn
      exact hbl a (by simp [ptr_mem_addrs ha]) x.addr (by simp) n _ hn hx (Or.inl ha)
    · intro a ha b hb n p hn hp hc
      exact hbl a (by simp [ha]) b (by simp [hb]) n p hn hp hc
    · intro a n ha hn
      exact hbl a (by simp [ptr_mem_addrs ha]) x.addr (by simp) n _ hn hx (Or.inr ha)
    · intro a ha b hb n p hn hp hc
      exact hbl a (by simp [ha]) b (by simp [hb]) n p hn hp hc

theorem Repr.children {m : Mem K V} (t : Tree K V) :
    ∀ par : Ptr, Repr m par t → t.addrs.Nodup →
      ∀ b ∈ t.addrs, ∀ p, m b = some p → ∀ a, (p.left = some a ∨ p.right = some a) →
        (a ∈ t.addrs ∧ (∀ n, m a = some n → n.parent = some b) ∧
          ¬ (p.left = some a ∧ p.right = some a)) := by
  induction t with
  | nil => intro _ _ _ b hb; simp at hb
  | node l x r ihl ihr =>
    intro par hrep hnd b hb p hp a hc
    obtain ⟨hx, hl, hr⟩ := hrep
    simp only [addrs_node, List.nodup_append, List.nodup_cons, List.disjoint_cons_right] at hnd
    obtain ⟨hln, ⟨hxr, hrn⟩, hxl, hlr⟩ := hnd
    simp only [addrs_node, List.mem_append, List.mem_cons] at hb
    rcases hb with hb | rfl | hb
    · obtain ⟨h1, h2, h3⟩ := ihl _ hl hln b hb p hp a hc
      exact ⟨by simp [h1], h2, h3⟩
    · rw [hx] at hp
      simp only [Option.some.injEq] at hp
      subst hp
      simp only at hc ⊢
      refine ⟨?_, ?_, ?_⟩
      · rcases hc with hc | hc
        · simp [ptr_mem_addrs hc]
        · simp [ptr_mem_addrs hc]
      · intro n hn
        rcases hc with hc | hc
        · cases l with
          | nil => simp at hc
          | node _ y _ =>
            simp only [ptr_node, Option.some.injEq] at hc
            subst hc
            rw [hl.1] at hn
            simp only [Option.some.injEq] at hn
            subst hn
            rfl
        · cases r with
          | nil => simp at hc
          | node _ y _ =>
            simp only [ptr_node, Option.some.injEq] at hc
            subst hc
            rw [hr.1] at hn
            simp only [Option.some.injEq] at hn
            subst hn
            rfl
      · rintro ⟨h1, h2⟩
        exact hlr (ptr_mem_addrs h1) (ptr_mem_addrs h2)
    · obtain ⟨h1, h2, h3⟩ := ihr _ hr hrn b hb p hp a hc
      exact ⟨by simp [h1], h2, h3⟩

theorem Repr.parents {m : Mem K V} (t : Tree K V) :
    ∀ par : Ptr, Repr m par t →
      ∀ a ∈ t.addrs, ∀ n, m a = some n → ∀ b, n.parent = some b →
        (some b = par ∧ t.ptr = some a) ∨
          (b ∈ t.addrs ∧ ∃ p, m b = some p ∧ (p.left = some a ∨ p.right = some a)) := by
  induction t with
  | nil => intro _ _ a ha; simp at ha
  | node l x r ihl ihr =>
    intro par hrep a ha n hn b hb
    obtain ⟨hx, hl, hr⟩ := hrep
    simp only [addrs_node, List.mem_append, List.mem_cons] at ha
    rcases ha with ha | rfl | ha
    · rcases ihl _ hl a ha n hn b hb with ⟨h1, h2⟩ | ⟨h1, p, h2, h3⟩
      · simp only [Option.some.injEq] at h1
        subst h1
        exact Or.inr ⟨by simp, _, hx, Or.inl h2⟩
      · exact Or.inr ⟨by simp [h1], p, h2, h3⟩
    · rw [hx] at hn
      simp only [Option.some.injEq] at hn
      subst hn
      exact Or.inl ⟨hb.symm, rfl⟩
    · rcases ihr _ hr a ha n hn b hb with ⟨h1, h2⟩ | ⟨h1, p, h2, h3⟩
      · simp only [Option.some.injEq] at h1
        subst h1
        exact Or.inr ⟨by simp, _, hx, Or.inr h2⟩
      · exact Or.inr ⟨by simp [h1], p, h2, h3⟩

/-- A state holds a well-formed treap structure exactly when its heap
represents the tree with the structural parents. -/
theorem IsTreap_iff_Zip {s : State K V} {t : Tree K V} : IsTreap s t ↔ Zip s [] t := by
  constructor
  · rintro ⟨⟨hroot, hfw, hnd⟩, hb1, hb2⟩
    refine ⟨hroot, ?_, by simpa using hnd⟩
    refine Repr_of_Fwd t none hfw ?_ ?_
    · intro a n ha hn
      exact hb1 a (hroot.trans ha) n hn
    · intro a ha b hb n p hn hp hc
      exact ((hb2 a ha b hb n p hn hp).1).mpr hc
  · rintro ⟨hroot, hrep, hnd⟩
    simp only [PRepr] at hroot
    simp only [Path.par] at hrep
    simp only [addrs_path_nil, List.nil_append] at hnd
    refine ⟨⟨hroot, hrep.toFwd, hnd⟩, ?_, ?_⟩
    · intro a ha n hn
      cases t with
      | nil => rw [hroot] at ha; simp at ha
      | node l x r =>
        rw [hroot] at ha
        simp only [ptr_node, Option.some.injEq] at ha
        subst ha
        rw [hrep.1] at hn
        simp only [Option.some.injEq] at hn
        subst hn
        rfl
    · intro a ha b hb n p hn hp
      refine ⟨⟨fun h => ?_, fun h => ?_⟩, fun h => ?_⟩
      · rcases Repr.parents t none hrep a ha n hn b h with ⟨h1, -⟩ | ⟨-, p', h2, h3⟩
        · simp at h1
        · rw [hp] at h2
          simp only [Option.some.injEq] at h2
          subst h2
          exact h3
      · exact (Repr.children t none hrep hnd b hb p hp a h).2.1 n hn
      · exact (Repr.children t none hrep hnd b hb p hp a (Or.inl h.1)).2.2 h

/-! ### The comparator and the BST invariant -/

theorem mcmp_strict : StrictCmp mcmp := by
  constructor
  · intro a b
    unfold mcmp
    split_ifs <;> omega
  · intro a b c
    unfold mcmp
    split_ifs <;> omega

theorem StrictCmp.lt_trans {cmp : K → K → Int} (h : StrictCmp cmp) {a b c : K}
    (h1 : cmp a b < 0) (h2 : cmp b c < 0) : cmp a c < 0 := by
  have h3 := h.trans a b c (le_of_lt h1) (le_of_lt h2)
  by_contra hn
  have h4 : cmp a c = 0 := by omega
  have h5 : cmp c a ≤ 0 := by
    by_contra h6
    have := (h.antisymm a c).mpr (by omega)
    omega
  have h6 := h.trans c a b h5 (le_of_lt h1)
  have h7 := (h.antisymm b c).mp h2
  omega

theorem StrictCmp.lt_of_le_of_lt {cmp : K → K → Int} (h : StrictCmp cmp) {a b c : K}
    (h1 : cmp a b ≤ 0) (h2 : cmp b c < 0) : cmp a c < 0 := by
  have h3 := h.trans a b c h1 (le_of_lt h2)
  by_contra hn
  have h5 : cmp c a ≤ 0 := by
    by_contra h6
    have := (h.antisymm a c).mpr (by omega)
    omega
  have h6 := h.trans c a b h5 h1
  have h7 := (h.antisymm b c).mp h2
  omega

theorem StrictCmp.lt_of_lt_of_le {cmp : K → K → Int} (h : StrictCmp cmp) {a b c : K}
    (h1 : cmp a b < 0) (h2 : cmp b c ≤ 0) : cmp a c < 0 := by
  have h3 := h.trans a b c (le_of_lt h1) h2
  by_contra hn
  have h5 : cmp c a ≤ 0 := by
    by_contra h6
    have := (h.antisymm a c).mpr (by omega)
    omega
  have h6 := h.trans b c a h2 h5
  have h7 := (h.antisymm a b).mp h1
  omega

theorem StrictCmp.le_of_not_lt {cmp : K → K → Int} (h : StrictCmp cmp) {a b : K}
    (h1 : ¬ cmp a b < 0) : cmp b a ≤ 0 := by
  by_contra h2
  exact h1 ((h.antisymm a b).mpr (by omega))

theorem StrictCmp.symm_eq {cmp : K → K → Int} (h : StrictCmp cmp) {a b : K}
    (h1 : cmp a b = 0) : cmp b a = 0 := by
  have h2 := h.antisymm a b
  have h3 := h.antisymm b a
  omega

theorem BST_iff_Ascending {cmp : K → K → Int} (h : StrictCmp cmp) (t : Tree K V) :
    BST cmp t ↔ Ascending cmp t.entries := by
  induction t with
  | nil => simp [BST, Ascending]
  | node l x r ihl ihr =>
    simp only [BST, ihl, ihr, Ascending, entries_node, List.pairwise_append, List.pairwise_cons,
      List.mem_cons]
    constructor
    · rintro ⟨h1, h2, h3, h4⟩
      refine ⟨h3, ⟨fun y hy => (h.antisymm _ _).mpr (h2 y hy), h4⟩, ?_⟩
      rintro a ha b (rfl | hb)
      · exact h1 a ha
      · exact h.lt_trans (h1 a ha) ((h.antisymm _ _).mpr (h2 b hb))
    · rintro ⟨h1, ⟨h2, h3⟩, h4⟩
      exact ⟨fun y hy => h4 y hy x (Or.inl rfl), fun y hy => (h.antisymm _ _).mp (h2 y hy),
        h1, h3⟩

/-! ### The in-order sequence after each operation -/

theorem siftZ_entries (c : Path K V) :
    ∀ t : Tree K V, (plug (siftZ c t).1 (siftZ c t).2).entries = (plug c t).entries := by
  induction c with
  | nil => intro t; simp [siftZ]
  | cons f c ih =>
    intro t
    cases t with
    | nil => cases f <;> simp [siftZ]
    | node a x b =>
      cases f with
      | left y r =>
        rw [siftZ_left]
        split
        · rw [ih]; simp [entries_plug, Path.before, Path.after]
        · rfl
      | right l y =>
        rw [siftZ_right]
        split
        · rw [ih]; simp [entries_plug, Path.before, Path.after]
        · rfl

theorem insertTree_entries (cmp : K → K → Int) (e : Entry K V) (t : Tree K V) :
    t.entries = Path.before (insertZ cmp e.key [] t) ++ Path.after (insertZ cmp e.key [] t) ∧
    (insertTree cmp e t).entries =
      Path.before (insertZ cmp e.key [] t) ++ e :: Path.after (insertZ cmp e.key [] t) := by
  have h := plug_insertZ cmp e.key t []
  have h2 := congrArg Tree.entries h
  rw [entries_plug] at h2
  simp only [entries_nil, List.append_nil, plug] at h2
  refine ⟨h2.symm, ?_⟩
  unfold insertTree
  rw [siftZ_entries, entries_plug]
  simp

theorem pushDown_zero (c : Path K V) (l r : Tree K V) (x : Entry K V) :
    pushDown 0 c l x r = (c, l, r) := by
  rw [pushDown]; simp

theorem pushDown_split (x : Entry K V) (n : Nat) :
    ∀ (c : Path K V) (l r : Tree K V),
      Path.before (pushDown n c l x r).1 ++ (pushDown n c l x r).2.1.entries =
        Path.before c ++ l.entries ∧
      (pushDown n c l x r).2.2.entries ++ Path.after (pushDown n c l x r).1 =
        r.entries ++ Path.after c := by
  induction n with
  | zero => intro c l r; rw [pushDown_zero]; simp
  | succ n ih =>
    intro c l r
    cases l with
    | nil => rw [pushDown_nil_left]; simp
    | node ll lx lr =>
      cases r with
      | nil => rw [pushDown_nil_right]; simp
      | node rl rx rr =>
        rw [pushDown_succ]
        split
        · obtain ⟨h1, h2⟩ := ih (.right ll lx :: c) lr (.node rl rx rr)
          rw [h1, h2]
          simp [Path.before, Path.after]
        · obtain ⟨h1, h2⟩ := ih (.left rx rr :: c) (.node ll lx lr) rl
          rw [h1, h2]
          simp [Path.before, Path.after]

theorem soleChild_entries {l r : Tree K V} (h : l = .nil ∨ r = .nil) :
    (soleChild l r).entries = l.entries ++ r.entries := by
  rcases h with rfl | rfl
  · simp [soleChild]
  · cases l <;> simp [soleChild]

theorem pushDown_done (x : Entry K V) (n : Nat) :
    ∀ (c : Path K V) (l r : Tree K V), l.size + r.size ≤ n →
      (pushDown n c l x r).2.1 = .nil ∨ (pushDown n c l x r).2.2 = .nil := by
  induction n with
  | zero =>
    intro c l r h
    cases l with
    | nil => rw [pushDown_nil_left]; exact Or.inl rfl
    | node _ _ _ => simp [Tree.size] at h
  | succ n ih =>
    intro c l r h
    cases l with
    | nil => rw [pushDown_nil_left]; exact Or.inl rfl
    | node ll lx lr =>
      cases r with
      | nil => rw [pushDown_nil_right]; exact Or.inr rfl
      | node rl rx rr =>
        rw [pushDown_succ]
        simp only [Tree.size] at h
        split
        · exact ih _ _ _ (by simp only [Tree.size]; omega)
        · exact ih _ _ _ (by simp only [Tree.size]; omega)

theorem removeAt_entries (c : Path K V) (l r : Tree K V) (x : Entry K V) :
    (removeAt c l x r).entries = Path.before c ++ (l.entries ++ r.entries) ++ Path.after c := by
  unfold removeAt
  obtain ⟨h1, h2⟩ := pushDown_split x (l.size + r.size) c l r
  rw [entries_plug, soleChild_entries (pushDown_done x _ c l r (le_refl _))]
  rw [← List.append_assoc, h1, List.append_assoc, List.append_assoc, h2]
  simp

theorem firstEntry_eq_head (t : Tree K V) : firstEntry t = t.entries.head? := by
  cases t with
  | nil => rfl
  | node l x r =>
    obtain ⟨c', x', r', h1, -, h3, h4, -, -⟩ := leftZ_spec (.node l x r) (by simp) []
    simp only [Path.after, List.append_nil] at h4
    rw [← h4]
    simp [firstEntry, h1]

theorem deleteFirstTree_entries (t : Tree K V) : (deleteFirstTree t).entries = t.entries.tail := by
  cases t with
  | nil => rfl
  | node l x r =>
    obtain ⟨c', x', r', h1, -, h3, h4, -, -⟩ := leftZ_spec (.node l x r) (by simp) []
    simp only [Path.after, List.append_nil, Path.before] at h4 h3
    rw [← h4]
    simp [deleteFirstTree, h1, entries_plug, h3]

/-! ### The descent and the keys -/

theorem descendZ_found (cmp : K → K → Int) (k : K) (t : Tree K V) :
    ∀ (c : Path K V) (a b : Tree K V) (x : Entry K V),
      (descendZ cmp k c t).2 = .node a x b → cmp k x.key = 0 := by
  induction t with
  | nil => intro c a b x h; simp [descendZ] at h
  | node l y r ihl ihr =>
    intro c a b x h
    rw [descendZ] at h
    split at h
    · exact ihl _ _ _ _ h
    · split at h
      · exact ihr _ _ _ _ h
      · simp only [Tree.node.injEq] at h
        obtain ⟨-, rfl, -⟩ := h
        omega

theorem descendZ_absent (cmp : K → K → Int) (k : K) (t : Tree K V) :
    ∀ c : Path K V, (∀ y ∈ t.entries, cmp k y.key ≠ 0) → (descendZ cmp k c t).2 = .nil := by
  induction t with
  | nil => intro c _; rfl
  | node l x r ihl ihr =>
    intro c h
    rw [descendZ]
    split
    · exact ihl _ fun y hy => h y (by simp [hy])
    · split
      · exact ihr _ fun y hy => h y (by simp [hy])
      · have := h x (by simp)
        omega

theorem descendZ_present {cmp : K → K → Int} (hc : StrictCmp cmp) (k : K) (t : Tree K V) :
    ∀ (c : Path K V) (y : Entry K V), BST cmp t → y ∈ t.entries → cmp k y.key = 0 →
      ∃ a b, (descendZ cmp k c t).2 = .node a y b := by
  induction t with
  | nil => intro c y _ hy; simp at hy
  | node l x r ihl ihr =>
    intro c y hb hy hk
    obtain ⟨h1, h2, h3, h4⟩ := hb
    simp only [entries_node, List.mem_append, List.mem_cons] at hy
    have hyk : cmp y.key k = 0 := hc.symm_eq hk
    rw [descendZ]
    split
    · rename_i hlt
      rcases hy with hy | rfl | hy
      · exact ihl _ y h3 hy hk
      · omega
      · have := (hc.antisymm _ _).mpr (h2 y hy)
        have := hc.lt_trans hlt this
        omega
    · rename_i hlt
      split
      · rename_i hgt
        rcases hy with hy | rfl | hy
        · have h5 := h1 y hy
          have h6 := hc.lt_of_lt_of_le h5 (hc.le_of_not_lt hlt)
          omega
        · omega
        · exact ihr _ y h4 hy hk
      · rename_i hgt
        have hkx : cmp k x.key = 0 := by omega
        rcases hy with hy | rfl | hy
        · have h5 := h1 y hy
          have h6 := hc.lt_of_lt_of_le h5 (le_of_eq (hc.symm_eq hkx))
          omega
        · exact ⟨l, r, rfl⟩
        · have h5 := (hc.antisymm _ _).mpr (h2 y hy)
          have h6 := hc.lt_of_le_of_lt (le_of_eq hkx) h5
          omega

theorem descendZ_split (cmp : K → K → Int) (k : K) (t : Tree K V) :
    t.entries = Path.before (descendZ cmp k [] t).1 ++ (descendZ cmp k [] t).2.entries ++
      Path.after (descendZ cmp k [] t).1 := by
  have h := congrArg Tree.entries (plug_descendZ cmp k t [])
  rw [entries_plug] at h
  exact h.symm

theorem insertZ_decided (cmp : K → K → Int) (k : K) (t : Tree K V) :
    ∀ c : Path K V, Decided cmp k c → Decided cmp k (insertZ cmp k c t) := by
  induction t with
  | nil => intro c h; exact h
  | node l x r ihl ihr =>
    intro c h
    rw [insertZ]
    split
    · rename_i hlt; exact ihl _ ⟨hlt, h⟩
    · rename_i hlt; exact ihr _ ⟨hlt, h⟩

theorem Decided.bounds {cmp : K → K → Int} (hc : StrictCmp cmp) {k : K} (c : Path K V) :
    Decided cmp k c → Ascending cmp (Path.before c ++ Path.after c) →
      (∀ y ∈ Path.before c, cmp y.key k ≤ 0) ∧ (∀ y ∈ Path.after c, cmp k y.key < 0) := by
  induction c with
  | nil => intro _ _; simp [Path.before, Path.after]
  | cons f c ih =>
    cases f with
    | left x r =>
      rintro ⟨hd, hdc⟩ hasc
      simp only [Path.before, Path.after, Ascending] at hasc ⊢
      have hsub : Ascending cmp (Path.before c ++ Path.after c) := by
        refine List.Pairwise.sublist ?_ hasc
        exact List.Sublist.append_left ((List.sublist_append_right _ _).trans
          (List.sublist_cons_self _ _)) _
      obtain ⟨h1, h2⟩ := ih hdc hsub
      refine ⟨h1, ?_⟩
      intro y hy
      simp only [List.cons_append, List.mem_cons, List.mem_append] at hy
      rcases hy with rfl | hy | hy
      · exact hd
      · have : cmp x.key y.key < 0 := by
          rw [List.pairwise_append] at hasc
          have := hasc.2.1
          simp only [List.cons_append, List.pairwise_cons, List.mem_append] at this
          exact this.1 y (Or.inl hy)
        exact hc.lt_trans hd this
      · exact h2 y hy
    | right l x =>
      rintro ⟨hd, hdc⟩ hasc
      simp only [Path.before, Path.after, Ascending] at hasc ⊢
      have hsub : Ascending cmp (Path.before c ++ Path.after c) := by
        refine List.Pairwise.sublist ?_ hasc
        exact List.Sublist.append_right (List.sublist_append_left _ _) _
      obtain ⟨h1, h2⟩ := ih hdc hsub
      refine ⟨?_, h2⟩
      intro y hy
      simp only [List.mem_append, List.mem_singleton] at hy
      have hxk : cmp x.key k ≤ 0 := hc.le_of_not_lt hd
      rcases hy with hy | hy | rfl
      · exact h1 y hy
      · have : cmp y.key x.key < 0 := by
          rw [List.pairwise_append] at hasc
          have := hasc.1
          rw [List.pairwise_append] at this
          have := this.2.1
          rw [List.pairwise_append] at this
          exact this.2.2 y hy x (by simp)
        exact le_of_lt (hc.lt_of_lt_of_le this hxk)
      · exact hxk

/-! ### The heap invariant -/

theorem rootLe.mono {p p' : Int} {t : Tree K V} (h : rootLe p t) (hp : p ≤ p') : rootLe p' t := by
  cases t with
  | nil => trivial
  | node _ x _ => exact le_trans h hp

theorem Heap_plug (c : Path K V) :
    ∀ t : Tree K V, Heap (plug c t) ↔ HeapPath c ∧ Heap t ∧ HoleLe c t := by
  induction c with
  | nil => intro t; simp [plug, HeapPath, HoleLe]
  | cons f c ih =>
    intro t
    cases f with
    | left x r =>
      simp only [plug, ih, Heap, HeapPath, HoleLe, Frame.entry, Frame.sibling]
      cases c with
      | nil => simp only [HeapPath]; tauto
      | cons g c => simp only [rootLe]; tauto
    | right l x =>
      simp only [plug, ih, Heap, HeapPath, HoleLe, Frame.entry, Frame.sibling]
      cases c with
      | nil => simp only [HeapPath]; tauto
      | cons g c => simp only [rootLe]; tauto

theorem HoleLe.of_le {c : Path K V} {t u : Tree K V} (h : HoleLe c t)
    (hu : ∀ p, rootLe p t → rootLe p u) : HoleLe c u := by
  cases c with
  | nil => trivial
  | cons f c => exact hu _ h

theorem siftZ_heap (c : Path K V) :
    ∀ (a b : Tree K V) (x : Entry K V), HeapPath c → Heap a → Heap b →
      rootLe x.priority a → rootLe x.priority b → HoleLe c a → HoleLe c b →
      Heap (plug (siftZ c (.node a x b)).1 (siftZ c (.node a x b)).2) := by
  induction c with
  | nil =>
    intro a b x _ ha hb hxa hxb _ _
    simp only [siftZ, plug]
    exact ⟨hxa, hxb, ha, hb⟩
  | cons f c ih =>
    intro a b x hp ha hb hxa hxb hca hcb
    cases f with
    | left y r =>
      obtain ⟨hyr, hr, hyc, hpc⟩ := hp
      simp only [Frame.entry, Frame.sibling] at hyr hr hyc
      simp only [HoleLe, Frame.entry] at hca hcb
      rw [siftZ_left]
      split
      · rename_i hlt
        refine ih a (.node b y r) x hpc ha ⟨hcb, hyr, hb, hr⟩ hxa (le_of_lt hlt) ?_ ?_
        · cases c with
          | nil => trivial
          | cons g c => exact hca.mono hyc
        · cases c with
          | nil => trivial
          | cons g c => exact hyc
      · rename_i hlt
        rw [Heap_plug]
        exact ⟨⟨hyr, hr, hyc, hpc⟩, ⟨hxa, hxb, ha, hb⟩, not_lt.mp hlt⟩
    | right l y =>
      obtain ⟨hyl, hl, hyc, hpc⟩ := hp
      simp only [Frame.entry, Frame.sibling] at hyl hl hyc
      simp only [HoleLe, Frame.entry] at hca hcb
      rw [siftZ_right]
      split
      · rename_i hlt
        refine ih (.node l y a) b x hpc ⟨hyl, hca, hl, ha⟩ hb (le_of_lt hlt) hxb ?_ ?_
        · cases c with
          | nil => trivial
          | cons g c => exact hyc
        · cases c with
          | nil => trivial
          | cons g c => exact hcb.mono hyc
      · rename_i hlt
        rw [Heap_plug]
        exact ⟨⟨hyl, hl, hyc, hpc⟩, ⟨hxa, hxb, ha, hb⟩, not_lt.mp hlt⟩

theorem insertTree_heap (cmp : K → K → Int) (e : Entry K V) {t : Tree K V} (h : Heap t) :
    Heap (insertTree cmp e t) := by
  unfold insertTree
  have h2 := plug_insertZ cmp e.key t []
  have h3 : Heap (plug (insertZ cmp e.key [] t) .nil) := by rw [h2]; exact h
  rw [Heap_plug] at h3
  refine siftZ_heap _ .nil .nil e h3.1 trivial trivial trivial trivial ?_ ?_
  · exact h3.2.2
  · exact h3.2.2

theorem lookupTree_heap (cmp : K → K → Int) (k : K) (rnd : Int) {t : Tree K V} (h : Heap t) :
    Heap (lookupTree cmp k rnd t) := by
  unfold lookupTree
  have h2 := plug_descendZ cmp k t []
  generalize descendZ cmp k [] t = z at h2
  obtain ⟨c, u⟩ := z
  cases u with
  | nil => exact h
  | node a x b =>
    simp only
    split
    · exact h
    · rename_i hlt
      simp only at h2
      have h3 : Heap (plug c (.node a x b)) := by rw [h2]; exact h
      rw [Heap_plug] at h3
      obtain ⟨hp, ⟨hxa, hxb, ha, hb⟩, hcx⟩ := h3
      have hx : x.priority ≤ rnd := by omega
      refine siftZ_heap c a b _ hp ha hb (hxa.mono hx) (hxb.mono hx) ?_ ?_
      · cases c with
        | nil => trivial
        | cons f c => exact hxa.mono hcx
      · cases c with
        | nil => trivial
        | cons f c => exact hxb.mono hcx

theorem pushDown_heap (x : Entry K V) (n : Nat) :
    ∀ (c : Path K V) (l r : Tree K V), HeapPath c → Heap l → Heap r → HoleLe c l → HoleLe c r →
      HeapPath (pushDown n c l x r).1 ∧ Heap (pushDown n c l x r).2.1 ∧
        Heap (pushDown n c l x r).2.2 ∧
        HoleLe (pushDown n c l x r).1 (pushDown n c l x r).2.1 ∧
        HoleLe (pushDown n c l x r).1 (pushDown n c l x r).2.2 := by
  induction n with
  | zero => intro c l r h1 h2 h3 h4 h5; rw [pushDown_zero]; exact ⟨h1, h2, h3, h4, h5⟩
  | succ n ih =>
    intro c l r h1 h2 h3 h4 h5
    cases l with
    | nil => rw [pushDown_nil_left]; exact ⟨h1, h2, h3, h4, h5⟩
    | node ll lx lr =>
      cases r with
      | nil => rw [pushDown_nil_right]; exact ⟨h1, h2, h3, h4, h5⟩
      | node rl rx rr =>
        rw [pushDown_succ]
        obtain ⟨hll, hlr, hhll, hhlr⟩ := h2
        obtain ⟨hrl, hrr, hhrl, hhrr⟩ := h3
        split
        · rename_i hgt
          refine ih (.right ll lx :: c) lr (.node rl rx rr) ⟨hll, hhll, ?_, h1⟩ hhlr
            ⟨hrl, hrr, hhrl, hhrr⟩ hlr (le_of_lt hgt)
          cases c with
          | nil => trivial
          | cons g c => exact h4
        · rename_i hgt
          refine ih (.left rx rr :: c) (.node ll lx lr) rl ⟨hrr, hhrr, ?_, h1⟩
            ⟨hll, hlr, hhll, hhlr⟩ hhrl (not_lt.mp hgt) hrl
          cases c with
          | nil => trivial
          | cons g c => exact h5

theorem removeAt_heap (c : Path K V) (l r : Tree K V) (x : Entry K V)
    (h : Heap (plug c (.node l x r))) : Heap (removeAt c l x r) := by
  rw [Heap_plug] at h
  obtain ⟨hp, ⟨hxl, hxr, hl, hr⟩, hcx⟩ := h
  have hcl : HoleLe c l := by
    cases c with
    | nil => trivial
    | cons f c => exact hxl.mono hcx
  have hcr : HoleLe c r := by
    cases c with
    | nil => trivial
    | cons f c => exact hxr.mono hcx
  obtain ⟨h1, h2, h3, h4, h5⟩ := pushDown_heap x (l.size + r.size) c l r hp hl hr hcl hcr
  unfold removeAt
  rw [Heap_plug]
  generalize (pushDown (l.size + r.size) c l x r).2.1 = l' at *
  generalize (pushDown (l.size + r.size) c l x r).2.2 = r' at *
  cases l' with
  | nil => exact ⟨h1, h3, h5⟩
  | node _ _ _ => exact ⟨h1, h2, h4⟩

theorem deleteTree_heap (cmp : K → K → Int) (k : K) {t : Tree K V} (h : Heap t) :
    Heap (deleteTree cmp k t) := by
  unfold deleteTree
  have h2 := plug_descendZ cmp k t []
  generalize descendZ cmp k [] t = z at h2
  obtain ⟨c, u⟩ := z
  cases u with
  | nil => exact h
  | node a x b => exact removeAt_heap c a b x (by rw [h2]; exact h)

theorem deleteFirstTree_heap {t : Tree K V} (h : Heap t) : Heap (deleteFirstTree t) := by
  cases t with
  | nil => exact h
  | node l x r =>
    obtain ⟨c', x', r', h1, h2, -⟩ := leftZ_spec (.node l x r) (by simp) []
    have h3 : Heap (plug c' (.node .nil x' r')) := by rw [h2]; exact h
    rw [Heap_plug] at h3
    obtain ⟨hp, ⟨-, hxr, -, hr⟩, hcx⟩ := h3
    simp only [deleteFirstTree, h1]
    rw [Heap_plug]
    refine ⟨hp, hr, ?_⟩
    cases c' with
    | nil => trivial
    | cons f c => exact hxr.mono hcx

/-! ### The BST invariant after each operation -/

theorem Ascending_of_keys {cmp : K → K → Int} {es es' : List (Entry K V)}
    (h : es'.map Entry.key = es.map Entry.key) (ha : Ascending cmp es) : Ascending cmp es' := by
  have h1 : (es.map Entry.key).Pairwise (fun a b => cmp a b < 0) := by
    rw [List.pairwise_map]; exact ha
  rw [← h, List.pairwise_map] at h1
  exact h1

theorem StrictCmp.refl {cmp : K → K → Int} (h : StrictCmp cmp) (a : K) : cmp a a = 0 := by
  have := h.antisymm a a
  omega

/-- Where `Treap_Insert` puts a key that is not in the tree: after all smaller
and before all larger entries. -/
theorem insertTree_sorted {cmp : K → K → Int} (hc : StrictCmp cmp) (e : Entry K V)
    {t : Tree K V} (hb : BST cmp t) (habs : ∀ y ∈ t.entries, cmp e.key y.key ≠ 0) :
    ∃ pre post, t.entries = pre ++ post ∧ (insertTree cmp e t).entries = pre ++ e :: post ∧
      (∀ y ∈ pre, cmp y.key e.key < 0) ∧ (∀ y ∈ post, cmp e.key y.key < 0) := by
  obtain ⟨h1, h2⟩ := insertTree_entries cmp e t
  have hd := insertZ_decided cmp e.key t [] trivial
  have hasc := (BST_iff_Ascending hc t).mp hb
  rw [h1] at hasc
  obtain ⟨h3, h4⟩ := hd.bounds hc _ hasc
  refine ⟨_, _, h1, h2, ?_, h4⟩
  intro y hy
  have h5 := h3 y hy
  have h6 := habs y (by rw [h1]; simp [hy])
  have h7 : cmp y.key e.key ≠ 0 := fun h => h6 (hc.symm_eq h)
  omega

theorem insertTree_bst {cmp : K → K → Int} (hc : StrictCmp cmp) (e : Entry K V)
    {t : Tree K V} (hb : BST cmp t) (habs : ∀ y ∈ t.entries, cmp e.key y.key ≠ 0) :
    BST cmp (insertTree cmp e t) := by
  obtain ⟨pre, post, h1, h2, h3, h4⟩ := insertTree_sorted hc e hb habs
  have hasc := (BST_iff_Ascending hc t).mp hb
  rw [BST_iff_Ascending hc, h2]
  rw [h1] at hasc
  unfold Ascending at hasc ⊢
  rw [List.pairwise_append] at hasc ⊢
  refine ⟨hasc.1, ?_, ?_⟩
  · rw [List.pairwise_cons]
    exact ⟨h4, hasc.2.1⟩
  · intro a ha b hb'
    rcases List.mem_cons.mp hb' with rfl | hb'
    · exact h3 a ha
    · exact hasc.2.2 a ha b hb'

theorem lookupTree_entries (cmp : K → K → Int) (k : K) (rnd : Int) (t : Tree K V) :
    (lookupTree cmp k rnd t).entries.map (fun y => (y.addr, y.key, y.data)) =
      t.entries.map (fun y => (y.addr, y.key, y.data)) := by
  unfold lookupTree
  have h2 := descendZ_split cmp k t
  generalize descendZ cmp k [] t = z at h2
  obtain ⟨c, u⟩ := z
  cases u with
  | nil => rfl
  | node a x b =>
    simp only
    split
    · rfl
    · rw [siftZ_entries, entries_plug, h2]
      simp

theorem lookupTree_bst {cmp : K → K → Int} (hc : StrictCmp cmp) (k : K) (rnd : Int)
    {t : Tree K V} (hb : BST cmp t) : BST cmp (lookupTree cmp k rnd t) := by
  rw [BST_iff_Ascending hc] at hb ⊢
  refine Ascending_of_keys ?_ hb
  have h := congrArg (List.map (fun p : Nat × K × treap_data_element V => p.2.1))
    (lookupTree_entries cmp k rnd t)
  simpa [List.map_map, Function.comp_def] using h

theorem deleteTree_sublist (cmp : K → K → Int) (k : K) (t : Tree K V) :
    (deleteTree cmp k t).entries.Sublist t.entries := by
  unfold deleteTree
  have h2 := descendZ_split cmp k t
  generalize descendZ cmp k [] t = z at h2
  obtain ⟨c, u⟩ := z
  cases u with
  | nil => exact List.Sublist.refl _
  | node a x b =>
    simp only
    rw [removeAt_entries, h2]
    simp only [entries_node, List.append_assoc]
    refine List.Sublist.append_left ?_ _
    refine List.Sublist.append_left ?_ _
    exact List.sublist_cons_self _ _

theorem deleteTree_bst {cmp : K → K → Int} (hc : StrictCmp cmp) (k : K)
    {t : Tree K V} (hb : BST cmp t) : BST cmp (deleteTree cmp k t) := by
  rw [BST_iff_Ascending hc] at hb ⊢
  exact List.Pairwise.sublist (deleteTree_sublist cmp k t) hb

theorem deleteFirstTree_bst {cmp : K → K → Int} (hc : StrictCmp cmp)
    {t : Tree K V} (hb : BST cmp t) : BST cmp (deleteFirstTree t) := by
  rw [BST_iff_Ascending hc] at hb ⊢
  rw [deleteFirstTree_entries]
  exact List.Pairwise.sublist (List.tail_sublist _) hb

/-! ### Every operation returns, and leaves a well-formed treap -/

theorem Zip.congr {s s' : State K V} {c : Path K V} {t : Tree K V} (h : Zip s c t)
    (hm : s'.mem = s.mem) (hr : s'.root = s.root) : Zip s' c t := by
  unfold Zip at h ⊢
  rw [hm, hr]; exact h

theorem Treap_Lookup_total {s : State K V} {t : Tree K V} (cmp : K → K → Int) (k : K)
    {fuel : Nat} (hz : Zip s [] t) (hf : t.size < fuel) :
    ∃ s', Treap_Lookup fuel s cmp k = some (s', lookupData cmp k t) ∧
      Zip s' [] (lookupTree cmp k (s.rand s.draws) t) ∧ s'.rand = s.rand ∧
      s'.draws = (if lookupHit cmp k t then s.draws + 1 else s.draws) ∧
      (∀ e, e ∉ t.addrs → s'.mem e = s.mem e) ∧
      (lookupTree cmp k (s.rand s.draws) t = t → s'.mem = s.mem ∧ s'.root = s.root) := by
  rcases hu : (descendZ cmp k [] t).2 with _ | ⟨a, x, b⟩
  · have hd : descendZ cmp k [] t = ((descendZ cmp k [] t).1, .nil) := by rw [← hu]
    refine ⟨s, ?_, ?_, rfl, ?_, fun _ _ => rfl, fun _ => ⟨rfl, rfl⟩⟩
    · rw [Treap_Lookup_miss hz hf hu]; simp [lookupData, hu]
    · simp only [lookupTree, hu]; exact hz
    · simp [lookupHit, hu]
  · have hd : descendZ cmp k [] t = ((descendZ cmp k [] t).1, .node a x b) := by rw [← hu]
    by_cases hr : s.rand s.draws ≤ x.priority
    · refine ⟨{ s with draws := s.draws + 1 }, ?_, ?_, rfl, ?_, fun _ _ => rfl,
        fun _ => ⟨rfl, rfl⟩⟩
      · rw [Treap_Lookup_keep hz hf hu hr]; simp [lookupData, hu]
      · simp only [lookupTree, hu, hr, if_true]; exact hz.congr rfl rfl
      · simp [lookupHit, hu]
    · obtain ⟨s', h1, h2, h3, h4, h5⟩ := Treap_Lookup_boost hz hf hu hr
      refine ⟨s', ?_, ?_, h3, ?_, h5, ?_⟩
      · rw [h1]; simp [lookupData, hu]
      · simp only [lookupTree, hu, hr, if_false]; exact h2
      · simp [lookupHit, hu, h4]
      · intro heq
        exfalso
        have h6 : (lookupTree cmp k (s.rand s.draws) t).entries = t.entries := by rw [heq]
        simp only [lookupTree, hu, hr, if_false] at h6
        rw [siftZ_entries, entries_plug] at h6
        have h7 := descendZ_split cmp k t
        rw [hu] at h7
        rw [h7] at h6
        simp only [entries_node, List.append_assoc, List.append_cancel_left_eq,
          List.cons_append, List.cons.injEq, and_true] at h6
        have := congrArg Entry.priority h6
        simp only at this
        omega

theorem Treap_Delete_total {s : State K V} {t : Tree K V} (cmp : K → K → Int) (k : K)
    {fuel : Nat} (hz : Zip s [] t) (hf : t.size < fuel) :
    ∃ s' k' d, Treap_Delete fuel s cmp k = some (s', k', d) ∧
      Zip s' [] (deleteTree cmp k t) ∧ s'.rand = s.rand ∧ s'.draws = s.draws ∧
      (∀ e, e ∉ t.addrs → s'.mem e = s.mem e) := by
  rcases hu : (descendZ cmp k [] t).2 with _ | ⟨a, x, b⟩
  · have hd : descendZ cmp k [] t = ((descendZ cmp k [] t).1, .nil) := by rw [← hu]
    refine ⟨s, k, none, Treap_Delete_miss hz hf hu, ?_, rfl, rfl, fun _ _ => rfl⟩
    simp only [deleteTree, hu]; exact hz
  · have hd : descendZ cmp k [] t = ((descendZ cmp k [] t).1, .node a x b) := by rw [← hu]
    obtain ⟨s', h1, h2, h3, h4, h5, -⟩ := Treap_Delete_hit hz hf hu
    refine ⟨s', x.key, x.data, h1, ?_, h3, h4, h5⟩
    simp only [deleteTree, hu]; exact h2

theorem Treap_Delete_First_total {s : State K V} {t : Tree K V} (k : K)
    {fuel : Nat} (hz : Zip s [] t) (hf : t.size ≤ fuel) :
    ∃ s' k' d, Treap_Delete_First fuel s k = some (s', k', d) ∧
      Zip s' [] (deleteFirstTree t) ∧ s'.rand = s.rand ∧ s'.draws = s.draws ∧
      (∀ e, e ∉ t.addrs → s'.mem e = s.mem e) := by
  cases t with
  | nil =>
    exact ⟨s, k, none, Treap_Delete_First_empty fuel k hz.root, hz, rfl, rfl, fun _ _ => rfl⟩
  | node l x r =>
    obtain ⟨y, s', -, h2, h3, h4, h5, h6, -⟩ :=
      Treap_Delete_First_spec k hz (by simp) hf
    exact ⟨s', y.key, y.data, h2, h3, h4, h5, h6⟩

/-! ### The handle and the node without parent -/

theorem Repr.parent_cases {m : Mem K V} (t : Tree K V) :
    ∀ par : Ptr, Repr m par t → ∀ a ∈ t.addrs, ∀ n, m a = some n →
      (t.ptr = some a ∧ n.parent = par) ∨ (t.ptr ≠ some a ∧ ∃ b, n.parent = some b) := by
  induction t with
  | nil => intro _ _ a ha; simp at ha
  | node l x r ihl ihr =>
    intro par hrep a ha n hn
    obtain ⟨hx, hl, hr⟩ := hrep
    by_cases hax : a = x.addr
    · subst hax
      rw [hx] at hn
      simp only [Option.some.injEq] at hn
      subst hn
      exact Or.inl ⟨rfl, rfl⟩
    · refine Or.inr ⟨by simpa using fun h => hax h.symm, ?_⟩
      simp only [addrs_node, List.mem_append, List.mem_cons] at ha
      rcases ha with ha | ha | ha
      · rcases ihl _ hl a ha n hn with ⟨-, h⟩ | ⟨-, h⟩
        · exact ⟨_, h⟩
        · exact h
      · exact absurd ha hax
      · rcases ihr _ hr a ha n hn with ⟨-, h⟩ | ⟨-, h⟩
        · exact ⟨_, h⟩
        · exact h

theorem Zip.handle {s : State K V} {t : Tree K V} (hz : Zip s [] t) : HandleAtOrphan s t := by
  obtain ⟨hroot, hrep, -⟩ := hz
  simp only [PRepr] at hroot
  simp only [Path.par] at hrep
  refine ⟨fun h => by rw [hroot, h]; rfl, ?_⟩
  intro a ha n hn
  rcases Repr.parent_cases t none hrep a ha n hn with ⟨h1, h2⟩ | ⟨h1, b, h2⟩
  · rw [hroot]; exact ⟨fun _ => h1, fun _ => h2⟩
  · rw [hroot]
    constructor
    · intro h; rw [h2] at h; simp at h
    · intro h; exact absurd h h1

theorem demoState_eq : insertAll 6 mcmp demoEmpty demoItems = some demoState := by
  rfl

theorem demoState_zip : Zip demoState [] demoTree := by
  refine ⟨rfl, ⟨rfl, ⟨rfl, ⟨rfl, ⟨rfl, trivial, trivial⟩, trivial⟩, ⟨rfl, trivial, trivial⟩⟩,
    trivial⟩, by decide⟩

theorem demoTree_bst : BST mcmp demoTree :=
  (BST_iff_Ascending mcmp_strict _).mpr (by unfold Ascending; decide)

theorem demo_iterate : Treap_Iterate 6 demoState collect [] =
    some [(1, some "d"), (3, some "b"), (4, some "e"), (5, some "a"), (8, some "c")] := by
  decide

theorem demoState_isTreap : IsTreap demoState demoTree :=
  IsTreap_iff_Zip.mpr demoState_zip

theorem demoTree_heap : Heap demoTree := by
  simp [demoTree, Heap, rootLe]

/-! ## The properties of the specification -/

/-- C1. The BST invariant is preserved by every operation, for every priority
sequence: if the state holds a treap whose tree satisfies the BST invariant
under a comparator that orders the keys strictly, then `Treap_Insert` of a key
that compares equal to no stored key, `Treap_Delete`, `Treap_Delete_First` and
`Treap_Lookup` all return and leave a treap whose tree again satisfies the BST
invariant, whatever the random source `s.rand` returns. -/
theorem C1_bst_preserved (cmp : K → K → Int) (hc : StrictCmp cmp) (s : State K V)
    (t : Tree K V) (fuel : Nat) (hs : IsTreap s t) (hb : BST cmp t) (hf : t.size < fuel) :
    (∀ k d q, (∀ y ∈ t.entries, cmp k y.key ≠ 0) → s.mem q = none →
      ∃ s' t', Treap_Insert fuel s cmp k d q = some s' ∧ IsTreap s' t' ∧ BST cmp t') ∧
    (∀ k, ∃ s' k' d t', Treap_Delete fuel s cmp k = some (s', k', d) ∧ IsTreap s' t' ∧
      BST cmp t') ∧
    (∀ k, ∃ s' k' d t', Treap_Delete_First fuel s k = some (s', k', d) ∧ IsTreap s' t' ∧
      BST cmp t') ∧
    (∀ k, ∃ s' d t', Treap_Lookup fuel s cmp k = some (s', d) ∧ IsTreap s' t' ∧ BST cmp t') := by
  have hz := IsTreap_iff_Zip.mp hs
  refine ⟨?_, ?_, ?_, ?_⟩
  · intro k d q habs hq
    obtain ⟨s', h1, h2, -⟩ := Treap_Insert_spec cmp k d hz hq hf
    exact ⟨s', _, h1, IsTreap_iff_Zip.mpr h2, insertTree_bst hc _ hb habs⟩
  · intro k
    obtain ⟨s', k', d, h1, h2, -⟩ := Treap_Delete_total cmp k hz hf
    exact ⟨s', k', d, _, h1, IsTreap_iff_Zip.mpr h2, deleteTree_bst hc k hb⟩
  · intro k
    obtain ⟨s', k', d, h1, h2, -⟩ := Treap_Delete_First_total k hz (le_of_lt hf)
    exact ⟨s', k', d, _, h1, IsTreap_iff_Zip.mpr h2, deleteFirstTree_bst hc hb⟩
  · intro k
    obtain ⟨s', h1, h2, -⟩ := Treap_Lookup_total cmp k hz hf
    exact ⟨s', _, _, h1, IsTreap_iff_Zip.mpr h2, lookupTree_bst hc k _ hb⟩

/-- C1 on the example: the treap built from 5, 3, 8, 1, 4, then inserting 7,
deleting 3, deleting the first entry, looking up 4. -/
theorem C1_bst_preserved_witness :
    StrictCmp mcmp ∧ IsTreap demoState demoTree ∧ BST mcmp demoTree ∧ demoTree.size < 6 ∧
    (∃ s' t', Treap_Insert 6 demoState mcmp 7 (some "f") 6 = some s' ∧ IsTreap s' t' ∧
      BST mcmp t') ∧
    (∃ s' k' d t', Treap_Delete 6 demoState mcmp 3 = some (s', k', d) ∧ IsTreap s' t' ∧
      BST mcmp t') ∧
    (∃ s' k' d t', Treap_Delete_First 6 demoState 0 = some (s', k', d) ∧ IsTreap s' t' ∧
      BST mcmp t') ∧
    (∃ s' d t', Treap_Lookup 6 demoState mcmp 4 = some (s', d) ∧ IsTreap s' t' ∧
      BST mcmp t') :=
  have h := C1_bst_preserved mcmp mcmp_strict demoState demoTree 6 demoState_isTreap
    demoTree_bst (by decide)
  ⟨mcmp_strict, demoState_isTreap, demoTree_bst, by decide,
    h.1 7 (some "f") 6 (by decide) rfl, h.2.1 3, h.2.2.1 0, h.2.2.2 4⟩

/-- C2. The heap invariant is preserved by every operation: if the state holds
a treap in whose tree every non-root node has a priority at most its
parent's, then `Treap_Insert`, `Treap_Lookup` (hit or miss, with or without a
priority increase), `Treap_Delete` (ties between the children included) and
`Treap_Delete_First` all return and leave a treap with the same property,
whatever the random source returns. -/
theorem C2_heap_preserved (s : State K V) (t : Tree K V) (fuel : Nat)
    (hs : IsTreap s t) (hh : Heap t) (hf : t.size < fuel) :
    (∀ (cmp : K → K → Int) k d q, s.mem q = none →
      ∃ s' t', Treap_Insert fuel s cmp k d q = some s' ∧ IsTreap s' t' ∧ Heap t') ∧
    (∀ (cmp : K → K → Int) k, ∃ s' d t', Treap_Lookup fuel s cmp k = some (s', d) ∧
      IsTreap s' t' ∧ Heap t') ∧
    (∀ (cmp : K → K → Int) k, ∃ s' k' d t', Treap_Delete fuel s cmp k = some (s', k', d) ∧
      IsTreap s' t' ∧ Heap t') ∧
    (∀ k, ∃ s' k' d t', Treap_Delete_First fuel s k = some (s', k', d) ∧ IsTreap s' t' ∧
      Heap t') := by
  have hz := IsTreap_iff_Zip.mp hs
  refine ⟨?_, ?_, ?_, ?_⟩
  · intro cmp k d q hq
    obtain ⟨s', h1, h2, -⟩ := Treap_Insert_spec cmp k d hz hq hf
    exact ⟨s', _, h1, IsTreap_iff_Zip.mpr h2, insertTree_heap cmp _ hh⟩
  · intro cmp k
    obtain ⟨s', h1, h2, -⟩ := Treap_Lookup_total cmp k hz hf
    exact ⟨s', _, _, h1, IsTreap_iff_Zip.mpr h2, lookupTree_heap cmp k _ hh⟩
  · intro cmp k
    obtain ⟨s', k', d, h1, h2, -⟩ := Treap_Delete_total cmp k hz hf
    exact ⟨s', k', d, _, h1, IsTreap_iff_Zip.mpr h2, deleteTree_heap cmp k hh⟩
  · intro k
    obtain ⟨s', k', d, h1, h2, -⟩ := Treap_Delete_First_total k hz (le_of_lt hf)
    exact ⟨s', k', d, _, h1, IsTreap_iff_Zip.mpr h2, deleteFirstTree_heap hh⟩

/-- C2 on the example: inserting 7, looking up 1 (the draw 0 does not raise its
priority), deleting 4 (a node with two children), deleting the first entry. -/
theorem C2_heap_preserved_witness :
    IsTreap demoState demoTree ∧ Heap demoTree ∧ demoTree.size < 6 ∧
    (∃ s' t', Treap_Insert 6 demoState mcmp 7 (some "f") 6 = some s' ∧ IsTreap s' t' ∧
      Heap t') ∧
    (∃ s' d t', Treap_Lookup 6 demoState mcmp 1 = some (s', d) ∧ IsTreap s' t' ∧ Heap t') ∧
    (∃ s' k' d t', Treap_Delete 6 demoState mcmp 4 = some (s', k', d) ∧ IsTreap s' t' ∧
      Heap t') ∧
    (∃ s' k' d t', Treap_Delete_First 6 demoState 0 = some (s', k', d) ∧ IsTreap s' t' ∧
      Heap t') :=
  have h := C2_heap_preserved demoState demoTree 6 demoState_isTreap demoTree_heap (by decide)
  ⟨demoState_isTreap, demoTree_heap, by decide, h.1 mcmp 7 (some "f") 6 rfl, h.2.1 mcmp 1,
    h.2.2.1 mcmp 4, h.2.2.2 0⟩

/-- C3. Back-link consistency is preserved by every operation: if the nodes
reachable from the handle form a tree, the root's parent is absent and
`n->parent` is `p` exactly when `n` is `p->left` or `p->right` (never both),
then `Treap_Insert`, `Treap_Lookup`, `Treap_Delete` and `Treap_Delete_First`
all return and leave a state with the same property, in which the handle
points at the one node without parent (and is `NULL` when no node is left). -/
theorem C3_backlinks_preserved (s : State K V) (t : Tree K V) (fuel : Nat)
    (hs : Shape s t) (hbl : BackLinks s t) (hf : t.size < fuel) :
    (∀ (cmp : K → K → Int) k d q, s.mem q = none →
      ∃ s' t', Treap_Insert fuel s cmp k d q = some s' ∧ Shape s' t' ∧ BackLinks s' t' ∧
        HandleAtOrphan s' t') ∧
    (∀ (cmp : K → K → Int) k, ∃ s' d t', Treap_Lookup fuel s cmp k = some (s', d) ∧
      Shape s' t' ∧ BackLinks s' t' ∧ HandleAtOrphan s' t') ∧
    (∀ (cmp : K → K → Int) k, ∃ s' k' d t', Treap_Delete fuel s cmp k = some (s', k', d) ∧
      Shape s' t' ∧ BackLinks s' t' ∧ HandleAtOrphan s' t') ∧
    (∀ k, ∃ s' k' d t', Treap_Delete_First fuel s k = some (s', k', d) ∧
      Shape s' t' ∧ BackLinks s' t' ∧ HandleAtOrphan s' t') := by
  have hz : Zip s [] t := IsTreap_iff_Zip.mp ⟨hs, hbl⟩
  refine ⟨?_, ?_, ?_, ?_⟩
  · intro cmp k d q hq
    obtain ⟨s', h1, h2, -⟩ := Treap_Insert_spec cmp k d hz hq hf
    have h3 := IsTreap_iff_Zip.mpr h2
    exact ⟨s', _, h1, h3.1, h3.2, h2.handle⟩
  · intro cmp k
    obtain ⟨s', h1, h2, -⟩ := Treap_Lookup_total cmp k hz hf
    have h3 := IsTreap_iff_Zip.mpr h2
    exact ⟨s', _, _, h1, h3.1, h3.2, h2.handle⟩
  · intro cmp k
    obtain ⟨s', k', d, h1, h2, -⟩ := Treap_Delete_total cmp k hz hf
    have h3 := IsTreap_iff_Zip.mpr h2
    exact ⟨s', k', d, _, h1, h3.1, h3.2, h2.handle⟩
  · intro k
    obtain ⟨s', k', d, h1, h2, -⟩ := Treap_Delete_First_total k hz (le_of_lt hf)
    have h3 := IsTreap_iff_Zip.mpr h2
    exact ⟨s', k', d, _, h1, h3.1, h3.2, h2.handle⟩

/-- C3 on the example: inserting 7, looking up 1, deleting 8 (the root),
deleting the first entry. -/
theorem C3_backlinks_preserved_witness :
    Shape demoState demoTree ∧ BackLinks demoState demoTree ∧ demoTree.size < 6 ∧
    (∃ s' t', Treap_Insert 6 demoState mcmp 7 (some "f") 6 = some s' ∧ Shape s' t' ∧
      BackLinks s' t' ∧ HandleAtOrphan s' t') ∧
    (∃ s' d t', Treap_Lookup 6 demoState mcmp 1 = some (s', d) ∧ Shape s' t' ∧
      BackLinks s' t' ∧ HandleAtOrphan s' t') ∧
    (∃ s' k' d t', Treap_Delete 6 demoState mcmp 8 = some (s', k', d) ∧ Shape s' t' ∧
      BackLinks s' t' ∧ HandleAtOrphan s' t') ∧
    (∃ s' k' d t', Treap_Delete_First 6 demoState 0 = some (s', k', d) ∧ Shape s' t' ∧
      BackLinks s' t' ∧ HandleAtOrphan s' t') :=
  have h := C3_backlinks_preserved demoState demoTree 6 demoState_isTreap.1
    demoState_isTreap.2 (by decide)
  ⟨demoState_isTreap.1, demoState_isTreap.2, by decide, h.1 mcmp 7 (some "f") 6 rfl,
    h.2.1 mcmp 1, h.2.2.1 mcmp 8, h.2.2.2 0⟩

/-! ### A run of insertions -/

theorem visit_never_stop {σ : Type} (it : σ → K → treap_data_element V → σ × Int)
    (h : ∀ st k d, (it st k d).2 = 0) (es : List (Entry K V)) :
    ∀ st, visit it es st =
      (es.map fun x => (x.key, x.data)).foldl (fun st kd => (it st kd.1 kd.2).1) st := by
  induction es with
  | nil => intro st; rfl
  | cons x es ih =>
    intro st
    rw [visit_cons]
    simp only [h, ne_eq, not_true_eq_false, if_false, List.map_cons, List.foldl_cons]
    exact ih _

theorem insertAll_cons (fuel : Nat) (cmp : K → K → Int) (s s' : State K V) (k : K)
    (d : treap_data_element V) (q : Nat) (xs : List (K × treap_data_element V × Nat))
    (h : Treap_Insert fuel s cmp k d q = some s') :
    insertAll fuel cmp s ((k, d, q) :: xs) = insertAll fuel cmp s' xs := by
  simp [insertAll, h]

theorem insertAll_spec {cmp : K → K → Int} (hc : StrictCmp cmp) (fuel : Nat)
    (items : List (K × treap_data_element V × Nat)) :
    ∀ (s : State K V) (t : Tree K V), Zip s [] t → BST cmp t →
      (items.map fun x => x.1).Pairwise (fun a b => cmp a b ≠ 0) →
      (∀ x ∈ items, ∀ y ∈ t.entries, cmp x.1 y.key ≠ 0) →
      (items.map fun x => x.2.2).Nodup → (∀ x ∈ items, s.mem x.2.2 = none) →
      t.size + items.length ≤ fuel →
      ∃ s' t', insertAll fuel cmp s items = some s' ∧ Zip s' [] t' ∧ BST cmp t' ∧
        (t'.entries.map fun y => (y.key, y.data)).Perm
          ((t.entries.map fun y => (y.key, y.data)) ++ items.map fun x => (x.1, x.2.1)) ∧
        t'.size = t.size + items.length ∧ s'.rand = s.rand ∧
        s'.draws = s.draws + items.length := by
  induction items with
  | nil =>
    intro s t hz hb _ _ _ _ _
    exact ⟨s, t, rfl, hz, hb, by simp, rfl, rfl, rfl⟩
  | cons x xs ih =>
    obtain ⟨k, d, q⟩ := x
    intro s t hz hb hk habs hq hfree hf
    simp only [List.map_cons, List.pairwise_cons, List.nodup_cons, List.mem_map, not_exists,
      not_and, List.length_cons] at hk hq hf ⊢
    have habs0 : ∀ y ∈ t.entries, cmp k y.key ≠ 0 :=
      fun y hy => habs (k, d, q) (List.mem_cons_self _ _) y hy
    have hf1 : t.size < fuel := by omega
    obtain ⟨s1, h1, hz1, hr1, hd1, hfr1⟩ :=
      Treap_Insert_spec cmp k d (q := q) hz (hfree (k, d, q) (List.mem_cons_self _ _)) hf1
    obtain ⟨pre, post, hp1, hp2, -, -⟩ :=
      insertTree_sorted hc ⟨q, k, d, s.rand s.draws⟩ hb habs0
    have hsz : (insertTree cmp ⟨q, k, d, s.rand s.draws⟩ t).size = t.size + 1 := by
      rw [← entries_length, hp2, ← entries_length, hp1]
      simp only [List.length_append, List.length_cons]
      omega
    have habs1 : ∀ x ∈ xs, ∀ y ∈ (insertTree cmp ⟨q, k, d, s.rand s.draws⟩ t).entries,
        cmp x.1 y.key ≠ 0 := by
      intro x hx y hy
      rw [hp2] at hy
      simp only [List.mem_append, List.mem_cons] at hy
      rcases hy with hy | rfl | hy
      · exact habs x (List.mem_cons_of_mem _ hx) y (by rw [hp1]; simp [hy])
      · intro h
        exact hk.1 x.1 ⟨x, hx, rfl⟩ (hc.symm_eq h)
      · exact habs x (List.mem_cons_of_mem _ hx) y (by rw [hp1]; simp [hy])
    have hfree1 : ∀ x ∈ xs, s1.mem x.2.2 = none := by
      intro x hx
      have hxs := hfree x (List.mem_cons_of_mem _ hx)
      rw [hfr1 x.2.2 (fun h => hz.fwd.allocated h hxs) (fun h => hq.1 x hx h)]
      exact hxs
    obtain ⟨s', t', h2, hz2, hb2, hperm, hsz2, hr2, hd2⟩ := ih s1 _ hz1
      (insertTree_bst hc _ hb habs0) hk.2 habs1 hq.2 hfree1 (by omega)
    refine ⟨s', t', ?_, hz2, hb2, ?_, by omega, hr2.trans hr1, by omega⟩
    · rw [insertAll_cons fuel cmp s s1 k d q xs h1, h2]
    · refine hperm.trans ?_
      rw [hp2, hp1]
      simp only [List.map_append, List.map_cons, List.append_assoc]
      exact List.Perm.append_left _ List.perm_middle.symm

/-- C4. Sorted iteration: for pairwise distinct keys, inserted in any order
into an empty treap with `Treap_Insert` (each node at a fresh address), and for
any priority draws, the insertions return, and `Treap_Iterate` with a callback
that never asks to stop calls it on the list `out`: a rearrangement of the
inserted (key, value) pairs whose keys are strictly ascending.  So the callback
is called exactly once per inserted key, in ascending order, with the value
inserted with that key. -/
theorem C4_sorted_iteration (cmp : K → K → Int) (hc : StrictCmp cmp) (s : State K V)
    (items : List (K × treap_data_element V × Nat)) (fuel : Nat) (hroot : s.root = none)
    (hk : (items.map fun x => x.1).Pairwise (fun a b => cmp a b ≠ 0))
    (hq : (items.map fun x => x.2.2).Nodup) (hfree : ∀ x ∈ items, s.mem x.2.2 = none)
    (hf : items.length < fuel) :
    ∃ (s' : State K V) (out : List (K × treap_data_element V)),
      insertAll fuel cmp s items = some s' ∧
      out.Perm (items.map fun x => (x.1, x.2.1)) ∧
      (out.map Prod.fst).Pairwise (fun a b => cmp a b < 0) ∧
      ∀ (σ : Type) (it : σ → K → treap_data_element V → σ × Int) (st : σ),
        (∀ st k d, (it st k d).2 = 0) →
        Treap_Iterate fuel s' it st = some (out.foldl (fun st kd => (it st kd.1 kd.2).1) st) := by
  have hz : Zip s [] (.nil : Tree K V) := ⟨hroot, trivial, by simp⟩
  obtain ⟨s', t', h1, h2, h3, h4, h5, -⟩ := insertAll_spec hc fuel items s .nil hz trivial hk
    (fun _ _ y hy => by simp at hy) hq hfree (by simp only [Tree.size]; omega)
  refine ⟨s', t'.entries.map fun y => (y.key, y.data), h1, by simpa using h4, ?_, ?_⟩
  · have := (BST_iff_Ascending hc t').mp h3
    rw [List.map_map, List.pairwise_map]
    exact this
  · intro σ it st hstop
    rw [Treap_Iterate_spec it st h2 (by simp only [Tree.size] at h5; omega),
      visit_never_stop it hstop]

/-- C4 on the example of the specification: inserting 5, 3, 8, 1, 4 makes
`Treap_Iterate` yield 1, 3, 4, 5, 8. -/
theorem C4_sorted_iteration_witness :
    StrictCmp mcmp ∧ demoEmpty.root = none ∧
    (demoItems.map fun x => x.1).Pairwise (fun a b => mcmp a b ≠ 0) ∧
    (demoItems.map fun x => x.2.2).Nodup ∧ (∀ x ∈ demoItems, demoEmpty.mem x.2.2 = none) ∧
    demoItems.length < 6 ∧
    (∃ (s' : State Int String) (out : List (Int × treap_data_element String)),
      insertAll 6 mcmp demoEmpty demoItems = some s' ∧
      out.Perm (demoItems.map fun x => (x.1, x.2.1)) ∧
      (out.map Prod.fst).Pairwise (fun a b => mcmp a b < 0) ∧
      ∀ (σ : Type) (it : σ → Int → treap_data_element String → σ × Int) (st : σ),
        (∀ st k d, (it st k d).2 = 0) →
        Treap_Iterate 6 s' it st = some (out.foldl (fun st kd => (it st kd.1 kd.2).1) st)) ∧
    insertAll 6 mcmp demoEmpty demoItems = some demoState ∧
    Treap_Iterate 6 demoState collect [] =
      some [(1, some "d"), (3, some "b"), (4, some "e"), (5, some "a"), (8, some "c")] :=
  ⟨mcmp_strict, rfl, by decide, by decide, fun _ _ => rfl, by decide,
    C4_sorted_iteration mcmp mcmp_strict demoEmpty demoItems 6 rfl (by decide) (by decide)
      (fun _ _ => rfl) (by decide),
    demoState_eq, demo_iterate⟩

/-- C5. Insert/Lookup round trip: on a treap satisfying the BST invariant,
`Treap_Insert` of a key `k` that compares equal to no stored key, with value
`v`, followed by `Treap_Lookup` of `k`, returns `v`, whatever the two priority
draws are. -/
theorem C5_insert_lookup (cmp : K → K → Int) (hc : StrictCmp cmp) (s : State K V)
    (t : Tree K V) (fuel : Nat) (k : K) (v : treap_data_element V) (q : Nat)
    (hs : IsTreap s t) (hb : BST cmp t) (habs : ∀ y ∈ t.entries, cmp k y.key ≠ 0)
    (hq : s.mem q = none) (hf : t.size + 1 < fuel) :
    ∃ s1 s2, Treap_Insert fuel s cmp k v q = some s1 ∧
      Treap_Lookup fuel s1 cmp k = some (s2, v) := by
  have hz := IsTreap_iff_Zip.mp hs
  have hf1 : t.size < fuel := by omega
  obtain ⟨s1, h1, hz1, -⟩ := Treap_Insert_spec cmp k v hz hq hf1
  obtain ⟨pre, post, hp1, hp2, -, -⟩ := insertTree_sorted hc ⟨q, k, v, s.rand s.draws⟩ hb habs
  have hb1 := insertTree_bst hc ⟨q, k, v, s.rand s.draws⟩ hb habs
  have hsz : (insertTree cmp ⟨q, k, v, s.rand s.draws⟩ t).size = t.size + 1 := by
    rw [← entries_length, hp2, ← entries_length, hp1]
    simp only [List.length_append, List.length_cons]
    omega
  obtain ⟨a, b, hd⟩ := descendZ_present hc k _ [] ⟨q, k, v, s.rand s.draws⟩ hb1
    (by rw [hp2]; simp) (hc.refl k)
  have hf2 : (insertTree cmp ⟨q, k, v, s.rand s.draws⟩ t).size < fuel := by omega
  obtain ⟨s2, h2, -⟩ := Treap_Lookup_total cmp k hz1 hf2
  refine ⟨s1, s2, h1, ?_⟩
  rw [h2]
  simp [lookupData, hd]

/-- C5 on the example: inserting 7 with value "f" and looking 7 up. -/
theorem C5_insert_lookup_witness :
    StrictCmp mcmp ∧ IsTreap demoState demoTree ∧ BST mcmp demoTree ∧
    (∀ y ∈ demoTree.entries, mcmp 7 y.key ≠ 0) ∧ demoState.mem 6 = none ∧
    demoTree.size + 1 < 7 ∧
    ∃ s1 s2, Treap_Insert 7 demoState mcmp 7 (some "f") 6 = some s1 ∧
      Treap_Lookup 7 s1 mcmp 7 = some (s2, some "f") :=
  ⟨mcmp_strict, demoState_isTreap, demoTree_bst, by decide, rfl, by decide,
    C5_insert_lookup mcmp mcmp_strict demoState demoTree 7 7 (some "f") 6 demoState_isTreap
      demoTree_bst (by decide) rfl (by decide)⟩

/-- C6. Insert adds exactly one entry and disturbs no other: on a treap
satisfying the BST invariant, `Treap_Insert` of a key `k` that compares equal
to no stored key returns and leaves a treap with one node more, whose in-order
sequence is the old one with the new entry (key `k`, value `d`, the drawn
priority) put in after all smaller and before all larger keys; every entry
stored before is still there with its key, value and priority. -/
theorem C6_insert_adds_one (cmp : K → K → Int) (hc : StrictCmp cmp) (s : State K V)
    (t : Tree K V) (fuel : Nat) (k : K) (d : treap_data_element V) (q : Nat)
    (hs : IsTreap s t) (hb : BST cmp t) (habs : ∀ y ∈ t.entries, cmp k y.key ≠ 0)
    (hq : s.mem q = none) (hf : t.size < fuel) :
    ∃ s' t', Treap_Insert fuel s cmp k d q = some s' ∧ IsTreap s' t' ∧
      t'.size = t.size + 1 ∧
      (∃ pre post, t.entries = pre ++ post ∧
        t'.entries = pre ++ ⟨q, k, d, s.rand s.draws⟩ :: post ∧
        (∀ y ∈ pre, cmp y.key k < 0) ∧ (∀ y ∈ post, cmp k y.key < 0)) ∧
      ∀ y ∈ t.entries, y ∈ t'.entries := by
  have hz := IsTreap_iff_Zip.mp hs
  obtain ⟨s1, h1, hz1, -⟩ := Treap_Insert_spec cmp k d hz hq hf
  obtain ⟨pre, post, hp1, hp2, hp3, hp4⟩ :=
    insertTree_sorted hc ⟨q, k, d, s.rand s.draws⟩ hb habs
  refine ⟨s1, _, h1, IsTreap_iff_Zip.mpr hz1, ?_, ⟨pre, post, hp1, hp2, hp3, hp4⟩, ?_⟩
  · rw [← entries_length, hp2, ← entries_length, hp1]
    simp only [List.length_append, List.length_cons]
    omega
  · intro y hy
    rw [hp1] at hy
    rw [hp2]
    simp only [List.mem_append, List.mem_cons] at hy ⊢
    tauto

/-- C6 on the example: inserting 7 with value "f" at address 6. -/
theorem C6_insert_adds_one_witness :
    StrictCmp mcmp ∧ IsTreap demoState demoTree ∧ BST mcmp demoTree ∧
    (∀ y ∈ demoTree.entries, mcmp 7 y.key ≠ 0) ∧ demoState.mem 6 = none ∧
    demoTree.size < 6 ∧
    ∃ s' t', Treap_Insert 6 demoState mcmp 7 (some "f") 6 = some s' ∧ IsTreap s' t' ∧
      t'.size = demoTree.size + 1 ∧
      (∃ pre post, demoTree.entries = pre ++ post ∧
        t'.entries = pre ++ ⟨6, 7, some "f", demoState.rand demoState.draws⟩ :: post ∧
        (∀ y ∈ pre, mcmp y.key 7 < 0) ∧ (∀ y ∈ post, mcmp 7 y.key < 0)) ∧
      ∀ y ∈ demoTree.entries, y ∈ t'.entries :=
  ⟨mcmp_strict, demoState_isTreap, demoTree_bst, by decide, rfl, by decide,
    C6_insert_adds_one mcmp mcmp_strict demoState demoTree 6 7 (some "f") 6 demoState_isTreap
      demoTree_bst (by decide) rfl (by decide)⟩

theorem head_of_head? {α : Type} {l : List α} {x : α} (h : l.head? = some x) :
    l = x :: l.tail := by
  cases l with
  | nil => simp at h
  | cons a l => simp at h; simp [h]

/-- C7. Delete removes exactly one: on a treap satisfying the BST invariant,
for a probe key `k` that compares equal to the key of a stored entry `y`,
`Treap_Delete` returns the value of `y`, overwrites `*k` with the key stored in
`y`, and leaves a treap with one node less whose in-order sequence is the old
one without `y` (every other entry keeps its key, value and priority); a
`Treap_Lookup` of `k` afterwards returns not-found and changes nothing. -/
theorem C7_delete_removes_one (cmp : K → K → Int) (hc : StrictCmp cmp) (s : State K V)
    (t : Tree K V) (fuel : Nat) (k : K) (y : Entry K V)
    (hs : IsTreap s t) (hb : BST cmp t) (hy : y ∈ t.entries) (hk : cmp k y.key = 0)
    (hf : t.size < fuel) :
    ∃ s' t', Treap_Delete fuel s cmp k = some (s', y.key, y.data) ∧ IsTreap s' t' ∧
      t'.size + 1 = t.size ∧
      (∃ pre post, t.entries = pre ++ y :: post ∧ t'.entries = pre ++ post) ∧
      Treap_Lookup fuel s' cmp k = some (s', none) := by
  have hz := IsTreap_iff_Zip.mp hs
  obtain ⟨a, b, hd⟩ := descendZ_present hc k t [] y hb hy hk
  obtain ⟨s', h1, hz1, -⟩ := Treap_Delete_hit hz hf hd
  have hsplit := descendZ_split cmp k t
  rw [hd] at hsplit
  have hrem := removeAt_entries (descendZ cmp k [] t).1 a b y
  generalize (descendZ cmp k [] t).1 = c at hz1 hsplit hrem
  have hpre : t.entries = (Path.before c ++ a.entries) ++ y :: (b.entries ++ Path.after c) := by
    rw [hsplit]; simp
  have hpost : (removeAt c a y b).entries =
      (Path.before c ++ a.entries) ++ (b.entries ++ Path.after c) := by
    rw [hrem]; simp
  have hsz : (removeAt c a y b).size + 1 = t.size := by
    rw [← entries_length, hpost, ← entries_length, hpre]
    simp only [List.length_append, List.length_cons]
    omega
  have hasc := (BST_iff_Ascending hc t).mp hb
  rw [hpre] at hasc
  unfold Ascending at hasc
  rw [List.pairwise_append, List.pairwise_cons] at hasc
  have habs : ∀ z ∈ (removeAt c a y b).entries, cmp k z.key ≠ 0 := by
    intro z hz' h0
    rw [hpost] at hz'
    have hzk : cmp z.key k = 0 := hc.symm_eq h0
    have hyk : cmp y.key k = 0 := hc.symm_eq hk
    rcases List.mem_append.mp hz' with hm | hm
    · have h3 := hasc.2.2 z hm y (List.mem_cons_self _ _)
      have h4 := hc.trans y.key k z.key (le_of_eq hyk) (le_of_eq h0)
      have h5 := (hc.antisymm _ _).mp h3
      omega
    · have h3 := hasc.2.1.1 z hm
      have h4 := hc.trans z.key k y.key (le_of_eq hzk) (le_of_eq hk)
      have h5 := (hc.antisymm _ _).mp h3
      omega
  have hf' : (removeAt c a y b).size < fuel := by omega
  refine ⟨s', _, h1, IsTreap_iff_Zip.mpr hz1, hsz, ⟨_, _, hpre, hpost⟩, ?_⟩
  exact Treap_Lookup_miss hz1 hf' (descendZ_absent cmp k _ [] habs)

/-- C7 on the example of the specification: after inserting 5, 3, 8, 1, 4,
`Delete(3)` returns the stored pair, makes `Lookup(3)` not-found and `Iterate`
yield 1, 4, 5, 8. -/
theorem C7_delete_removes_one_witness :
    StrictCmp mcmp ∧ IsTreap demoState demoTree ∧ BST mcmp demoTree ∧
    (⟨2, 3, some "b", 3⟩ : Entry Int String) ∈ demoTree.entries ∧ mcmp 3 3 = 0 ∧
    demoTree.size < 6 ∧
    (∃ s' t', Treap_Delete 6 demoState mcmp 3 = some (s', 3, some "b") ∧ IsTreap s' t' ∧
      t'.size + 1 = demoTree.size ∧
      (∃ pre post, demoTree.entries = pre ++ ⟨2, 3, some "b", 3⟩ :: post ∧
        t'.entries = pre ++ post) ∧
      Treap_Lookup 6 s' mcmp 3 = some (s', none)) ∧
    ((Treap_Delete 6 demoState mcmp 3).bind fun r => Treap_Iterate 6 r.1 collect []) =
      some [(1, some "d"), (4, some "e"), (5, some "a"), (8, some "c")] :=
  ⟨mcmp_strict, demoState_isTreap, demoTree_bst, by decide, by decide, by decide,
    C7_delete_removes_one mcmp mcmp_strict demoState demoTree 6 3 ⟨2, 3, some "b", 3⟩
      demoState_isTreap demoTree_bst (by decide) (by decide) (by decide),
    by decide⟩

/-- C8. Delete of an absent key is a no-op: on a treap, for a probe key that
compares equal to no stored key, `Treap_Delete` returns `NULL`, leaves the
whole state as it was (shape, keys, values, priorities, root handle, node
count) and leaves `*k` as the caller set it.  Only the shape of the tree is
used: neither the BST invariant nor the parent links matter here. -/
theorem C8_delete_absent (cmp : K → K → Int) (s : State K V) (t : Tree K V) (fuel : Nat)
    (k : K) (hs : Shape s t) (habs : ∀ y ∈ t.entries, cmp k y.key ≠ 0)
    (hf : t.size < fuel) :
    Treap_Delete fuel s cmp k = some (s, k, none) := by
  obtain ⟨hroot, hfw, -⟩ := hs
  unfold Treap_Delete
  rw [hroot, descend_spec cmp k t [] fuel hfw hf, descendZ_absent cmp k t [] habs]
  rfl

/-- C8 on the example: deleting 7, which is not stored. -/
theorem C8_delete_absent_witness :
    Shape demoState demoTree ∧ (∀ y ∈ demoTree.entries, mcmp 7 y.key ≠ 0) ∧
    demoTree.size < 6 ∧ Treap_Delete 6 demoState mcmp 7 = some (demoState, 7, none) :=
  ⟨demoState_isTreap.1, by decide, by decide,
    C8_delete_absent mcmp demoState demoTree 6 7 demoState_isTreap.1 (by decide) (by decide)⟩

/-- C9. `Treap_Lookup_First` returns the minimum and is a pure read: on a
non-empty treap satisfying the BST invariant it stores in `*k` the key of an
entry `x` that compares less than every other stored key, returns the value
stored with it, and the state after the call is the state before it.  The
parent links are not used. -/
theorem C9_lookup_first (cmp : K → K → Int) (hc : StrictCmp cmp) (s : State K V)
    (t : Tree K V) (fuel : Nat) (k0 : K) (hs : Shape s t) (hb : BST cmp t)
    (hne : t ≠ .nil) (hf : t.size ≤ fuel) :
    ∃ x ∈ t.entries, Treap_Lookup_First fuel s k0 = some (s, x.key, x.data) ∧
      ∀ y ∈ t.entries, y = x ∨ cmp x.key y.key < 0 := by
  obtain ⟨x, h1, h2⟩ := Treap_Lookup_First_spec k0 hs hne hf
  rw [firstEntry_eq_head] at h1
  have h3 := head_of_head? h1
  have hasc := (BST_iff_Ascending hc t).mp hb
  rw [h3] at hasc
  unfold Ascending at hasc
  rw [List.pairwise_cons] at hasc
  refine ⟨x, by rw [h3]; simp, h2, ?_⟩
  intro y hy
  rw [h3] at hy
  rcases List.mem_cons.mp hy with h | h
  · exact Or.inl h
  · exact Or.inr (hasc.1 y h)

/-- C9 on the example: the first entry of the treap built from 5, 3, 8, 1, 4. -/
theorem C9_lookup_first_witness :
    StrictCmp mcmp ∧ Shape demoState demoTree ∧ BST mcmp demoTree ∧ demoTree ≠ .nil ∧
    demoTree.size ≤ 6 ∧
    (∃ x ∈ demoTree.entries, Treap_Lookup_First 6 demoState 0 = some (demoState, x.key, x.data) ∧
      ∀ y ∈ demoTree.entries, y = x ∨ mcmp x.key y.key < 0) ∧
    (Treap_Lookup_First 6 demoState 0).map Prod.snd = some (1, some "d") :=
  ⟨mcmp_strict, demoState_isTreap.1, demoTree_bst, by decide, by decide,
    C9_lookup_first mcmp mcmp_strict demoState demoTree 6 0 demoState_isTreap.1 demoTree_bst
      (by decide) (by decide),
    by decide⟩

/-- C10. `Treap_Delete_First` extracts exactly the minimum: on a non-empty
treap it returns the key and value that `Treap_Lookup_First` returns on the
same state, and leaves a treap whose in-order sequence of entries is the old
one without its first element (one node less, every other entry unchanged). -/
theorem C10_delete_first (s : State K V) (t : Tree K V) (fuel : Nat) (k0 : K)
    (hs : IsTreap s t) (hne : t ≠ .nil) (hf : t.size ≤ fuel) :
    ∃ x s' t', Treap_Lookup_First fuel s k0 = some (s, x.key, x.data) ∧
      Treap_Delete_First fuel s k0 = some (s', x.key, x.data) ∧ IsTreap s' t' ∧
      t.entries = x :: t'.entries ∧ t'.size + 1 = t.size := by
  have hz := IsTreap_iff_Zip.mp hs
  obtain ⟨x, h1, h2⟩ := Treap_Lookup_First_spec k0 hs.1 hne hf
  obtain ⟨x', s', h3, h4, h5, -⟩ := Treap_Delete_First_spec k0 hz hne hf
  rw [h1] at h3
  simp only [Option.some.injEq] at h3
  subst h3
  rw [firstEntry_eq_head] at h1
  have h6 := head_of_head? h1
  have h7 : t.entries = x :: (deleteFirstTree t).entries := by
    rw [deleteFirstTree_entries]; exact h6
  refine ⟨x, s', _, h2, h4, IsTreap_iff_Zip.mpr h5, h7, ?_⟩
  rw [← entries_length, ← entries_length, h7]
  simp

/-- C10 on the example of the specification: on an empty tree, `Insert(10, "x")`
then `Delete_First` returns (10, "x") and leaves the tree empty. -/
theorem C10_delete_first_witness :
    IsTreap demoOne (.node .nil ⟨1, 10, some "x", 5⟩ .nil) ∧
    (Tree.node .nil ⟨1, 10, some "x", 5⟩ .nil : Tree Int String) ≠ .nil ∧
    (Tree.node .nil ⟨1, 10, some "x", 5⟩ .nil : Tree Int String).size ≤ 1 ∧
    (∃ x s' t', Treap_Lookup_First 1 demoOne 0 = some (demoOne, x.key, x.data) ∧
      Treap_Delete_First 1 demoOne 0 = some (s', x.key, x.data) ∧ IsTreap s' t' ∧
      (Tree.node .nil ⟨1, 10, some "x", 5⟩ .nil : Tree Int String).entries = x :: t'.entries ∧
      t'.size + 1 = (Tree.node .nil ⟨1, 10, some "x", 5⟩ .nil : Tree Int String).size) ∧
    Treap_Insert 1 demoEmpty mcmp 10 (some "x") 1 = some demoOne ∧
    (Treap_Delete_First 1 demoOne 0).map (fun r => (r.1.root, r.2)) =
      some (none, 10, some "x") :=
  have h : IsTreap demoOne (.node .nil ⟨1, 10, some "x", 5⟩ .nil) :=
    IsTreap_iff_Zip.mpr ⟨rfl, ⟨rfl, trivial, trivial⟩, by decide⟩
  ⟨h, by decide, by decide,
    C10_delete_first demoOne (.node .nil ⟨1, 10, some "x", 5⟩ .nil) 1 0 h (by decide)
      (by decide),
    rfl, by decide⟩

/-! ### What `Treap_Iterate` calls the callback on -/

theorem listing_eq (t : Tree K V) : t.listing = t.entries.map fun x => (x.key, x.data) := by
  induction t with
  | nil => rfl
  | node l x r ihl ihr => simp [Tree.listing, Tree.entries, ihl, ihr]

theorem visit_traced {σ : Type} (it : σ → K → treap_data_element V → σ × Int)
    (es : List (Entry K V)) :
    ∀ (st : σ) (log : List (K × treap_data_element V)),
      visit (traced it) es (st, log) =
        (visit it es st, log ++ calls it (es.map fun x => (x.key, x.data)) st) := by
  induction es with
  | nil => intro st log; simp [visit, calls]
  | cons x xs ih =>
    intro st log
    rw [visit_cons, visit_cons]
    by_cases h : (it st x.key x.data).2 = 0
    · simp only [traced, h, ne_eq, not_true_eq_false, if_false, List.map_cons, calls]
      rw [ih]
      simp
    · simp [traced, h, calls]

theorem calls_prefix {σ : Type} (it : σ → K → treap_data_element V → σ × Int)
    (ps : List (K × treap_data_element V)) : ∀ st, calls it ps st <+: ps := by
  induction ps with
  | nil => intro st; simp [calls]
  | cons p ps ih =>
    intro st
    by_cases h : (it st p.1 p.2).2 = 0
    · simp only [calls, h, ne_eq, not_true_eq_false, if_false]
      exact (List.prefix_cons_inj p).mpr (ih _)
    · simp only [calls, h, ne_eq, not_false_eq_true, if_true]
      exact ⟨ps, rfl⟩

theorem calls_never_stop {σ : Type} (it : σ → K → treap_data_element V → σ × Int)
    (h : ∀ st k d, (it st k d).2 = 0) (ps : List (K × treap_data_element V)) :
    ∀ st, calls it ps st = ps := by
  induction ps with
  | nil => intro st; rfl
  | cons p ps ih => intro st; simp [calls, h, ih]

theorem calls_stateless {σ : Type} (it : σ → K → treap_data_element V → σ × Int)
    (stop : K → treap_data_element V → Int) (h : ∀ st k d, (it st k d).2 = stop k d)
    (ps : List (K × treap_data_element V)) :
    ∀ st, calls it ps st =
      ps.takeWhile (fun p => decide (stop p.1 p.2 = 0)) ++
        (ps.dropWhile (fun p => decide (stop p.1 p.2 = 0))).take 1 := by
  induction ps with
  | nil => intro st; rfl
  | cons p ps ih =>
    intro st
    by_cases hp : stop p.1 p.2 = 0
    · simp [calls, h, hp, ih]
    · simp [calls, h, hp]

/-- C13. Empty-tree behaviour: when the root handle is `NULL`, for every
comparator and key, `Treap_Lookup` and `Treap_Delete` return `NULL`,
`Treap_Lookup_First` and `Treap_Delete_First` return `NULL`, and `Treap_Iterate`
calls the callback on no pair (the record of a traced callback stays empty and
its state is the initial one).  In each case the state after the call is the
state before it, so no random draw is consumed and the tree is still empty, and
the key cell `*k` holds what the caller put there. -/
theorem C13_empty_tree (s : State K V) (fuel : Nat) (hroot : s.root = none) (hf : 0 < fuel) :
    (∀ (cmp : K → K → Int) k, Treap_Lookup fuel s cmp k = some (s, none)) ∧
    (∀ (cmp : K → K → Int) k, Treap_Delete fuel s cmp k = some (s, k, none)) ∧
    (∀ k, Treap_Lookup_First fuel s k = some (s, k, none)) ∧
    (∀ k, Treap_Delete_First fuel s k = some (s, k, none)) ∧
    (∀ (σ : Type) (it : σ → K → treap_data_element V → σ × Int) (st : σ),
      Treap_Iterate fuel s (traced it) (st, []) = some (st, [])) ∧
    IsTreap s .nil := by
  obtain ⟨n, rfl⟩ : ∃ n, fuel = n + 1 := ⟨fuel - 1, by omega⟩
  refine ⟨?_, ?_, ?_, ?_, ?_, ?_⟩
  · intro cmp k
    simp [Treap_Lookup, hroot, descend]
  · intro cmp k
    simp [Treap_Delete, hroot, descend]
  · intro k
    exact Treap_Lookup_First_empty _ k hroot
  · intro k
    exact Treap_Delete_First_empty _ k hroot
  · intro σ it st
    simp [Treap_Iterate, hroot]
  · refine ⟨⟨hroot, trivial, by simp [Tree.addrs, Tree.entries]⟩, ?_, ?_⟩
    · intro a ha; rw [hroot] at ha; cases ha
    · intro a ha; simp [Tree.addrs, Tree.entries] at ha

/-- C13 on the empty treap of the example, with the callback `collect`. -/
theorem C13_empty_tree_witness :
    demoEmpty.root = none ∧ 0 < 1 ∧
    ((∀ (cmp : Int → Int → Int) k, Treap_Lookup 1 demoEmpty cmp k = some (demoEmpty, none)) ∧
    (∀ (cmp : Int → Int → Int) k, Treap_Delete 1 demoEmpty cmp k = some (demoEmpty, k, none)) ∧
    (∀ k, Treap_Lookup_First 1 demoEmpty k = some (demoEmpty, k, none)) ∧
    (∀ k, Treap_Delete_First 1 demoEmpty k = some (demoEmpty, k, none)) ∧
    (∀ (σ : Type) (it : σ → Int → treap_data_element String → σ × Int) (st : σ),
      Treap_Iterate 1 demoEmpty (traced it) (st, []) = some (st, [])) ∧
    IsTreap demoEmpty .nil) :=
  ⟨rfl, by decide, C13_empty_tree demoEmpty 1 rfl (by decide)⟩

/-- C12. `Treap_Iterate` visits an in-order prefix and stops at the first stop
signal: on a treap (shape and back links) and for every callback, the run
returns, and the pairs on which the callback was called, in the order of the
calls, are the recursive in-order listing of the tree cut off immediately after
the first pair for which the callback returns non-zero (`calls`).  That sequence
is a prefix of the listing; for a callback whose verdict depends on the pair
only it is the longest prefix without a stop signal followed by the first pair
with one; if the callback never returns non-zero it is the whole listing, which
has one pair per node. -/
theorem C12_iterate_prefix {σ : Type} (s : State K V) (t : Tree K V) (fuel : Nat)
    (it : σ → K → treap_data_element V → σ × Int) (st : σ)
    (hs : IsTreap s t) (hf : t.size < fuel) :
    Treap_Iterate fuel s (traced it) (st, []) =
      some (visit it t.entries st, calls it t.listing st) ∧
    calls it t.listing st <+: t.listing ∧
    (∀ stop : K → treap_data_element V → Int, (∀ st k d, (it st k d).2 = stop k d) →
      calls it t.listing st =
        t.listing.takeWhile (fun p => decide (stop p.1 p.2 = 0)) ++
          (t.listing.dropWhile (fun p => decide (stop p.1 p.2 = 0))).take 1) ∧
    ((∀ st k d, (it st k d).2 = 0) → calls it t.listing st = t.listing) ∧
    t.listing.length = t.size := by
  refine ⟨?_, calls_prefix it _ st, fun stop h => calls_stateless it stop h _ st,
    fun h => calls_never_stop it h _ st, ?_⟩
  · rw [Treap_Iterate_spec (traced it) (st, []) (IsTreap_iff_Zip.mp hs) hf, visit_traced,
      listing_eq]
    simp
  · rw [listing_eq, List.length_map, entries_length]

/-- C12 on the example of the specification (keys 1, 3, 4, 5, 8 in order): a
callback that asks to stop at key 4 is called on 1, 3 and 4 only. -/
theorem C12_iterate_prefix_witness :
    IsTreap demoState demoTree ∧ demoTree.size < 6 ∧
    (Treap_Iterate 6 demoState (traced (stopAt 4)) (0, []) =
      some (visit (stopAt 4) demoTree.entries 0, calls (stopAt 4) demoTree.listing 0) ∧
      calls (stopAt 4) demoTree.listing 0 <+: demoTree.listing ∧
      (∀ stop : Int → treap_data_element String → Int,
        (∀ st k d, (stopAt 4 st k d).2 = stop k d) →
        calls (stopAt 4) demoTree.listing 0 =
          demoTree.listing.takeWhile (fun p => decide (stop p.1 p.2 = 0)) ++
            (demoTree.listing.dropWhile (fun p => decide (stop p.1 p.2 = 0))).take 1) ∧
      ((∀ st k d, (stopAt 4 st k d).2 = 0) →
        calls (stopAt 4) demoTree.listing 0 = demoTree.listing) ∧
      demoTree.listing.length = demoTree.size) ∧
    Treap_Iterate 6 demoState (traced (stopAt 4)) (0, []) =
      some (3, [(1, some "d"), (3, some "b"), (4, some "e")]) :=
  ⟨demoState_isTreap, by decide,
    C12_iterate_prefix demoState demoTree 6 (stopAt 4) 0 demoState_isTreap (by decide),
    by decide⟩

/-! ### What `Treap_Lookup` returns -/

theorem demoNull_isTreap : IsTreap demoNull demoNullTree :=
  IsTreap_iff_Zip.mpr ⟨rfl, ⟨rfl, trivial, trivial⟩, by decide⟩

theorem demoNull_bst : BST mcmp demoNullTree :=
  (BST_iff_Ascending mcmp_strict _).mpr (by unfold Ascending; decide)

/-- What `Treap_Lookup` returns on a treap with the BST invariant: the value
of the entry whose key compares equal to the probe, `NULL` when there is none. -/
theorem lookupData_spec {cmp : K → K → Int} (hc : StrictCmp cmp) (k : K) {t : Tree K V}
    (hb : BST cmp t) :
    ((∀ y ∈ t.entries, cmp k y.key ≠ 0) → lookupData cmp k t = none) ∧
    (∀ y ∈ t.entries, cmp k y.key = 0 → lookupData cmp k t = y.data) := by
  constructor
  · intro habs
    simp [lookupData, descendZ_absent cmp k t [] habs]
  · intro y hy hk
    obtain ⟨a, b, hd⟩ := descendZ_present hc k t [] y hb hy hk
    simp [lookupData, hd]

/-- C14, refuted as stated: after `Insert(10, NULL)` on the empty treap, key 10
is stored, and `Treap_Lookup` of 10 returns `NULL`, the very outcome it returns
for the absent key 11; so "returns not-found if and only if no stored key
compares equal" fails. -/
theorem C14_not_found_distinct_counterexample :
    Treap_Insert 1 demoEmpty mcmp 10 none 1 = some demoNull ∧
    IsTreap demoNull demoNullTree ∧ BST mcmp demoNullTree ∧
    (∃ y ∈ demoNullTree.entries, mcmp 10 y.key = 0) ∧
    (Treap_Lookup 2 demoNull mcmp 10).map Prod.snd = some none ∧
    (Treap_Lookup 2 demoNull mcmp 11).map Prod.snd = some none ∧
    ¬ (∀ (s : State Int String) (t : Tree Int String) (k : Int) (fuel : Nat)
        (r : State Int String × treap_data_element String),
        IsTreap s t → BST mcmp t → t.size < fuel → Treap_Lookup fuel s mcmp k = some r →
        (r.2 = none ↔ ∀ y ∈ t.entries, mcmp k y.key ≠ 0)) := by
  have h10 : Treap_Lookup 2 demoNull mcmp 10 =
      some ({ demoNull with draws := demoNull.draws + 1 }, none) := by
    rfl
  refine ⟨rfl, demoNull_isTreap, demoNull_bst, by decide, by rw [h10]; rfl, by decide, ?_⟩
  intro h
  have h1 := (h demoNull demoNullTree 10 2 _ demoNull_isTreap demoNull_bst (by decide) h10).mp rfl
  exact absurd h1 (by decide)

/-- C14, amended. On a treap with the BST invariant `Treap_Lookup` returns the
value stored with the key that compares equal to the probe, and `NULL` when no
stored key does.  The returned pointer is therefore `NULL` exactly when the key
is absent or is stored with the value `NULL`; when no stored value is `NULL`,
it is `NULL` if and only if no stored key compares equal to the probe. -/
theorem C14_not_found_distinct (cmp : K → K → Int) (hc : StrictCmp cmp) (s : State K V)
    (t : Tree K V) (fuel : Nat) (k : K) (hs : IsTreap s t) (hb : BST cmp t)
    (hf : t.size < fuel) :
    ∃ s' d, Treap_Lookup fuel s cmp k = some (s', d) ∧
      ((∀ y ∈ t.entries, cmp k y.key ≠ 0) → d = none) ∧
      (∀ y ∈ t.entries, cmp k y.key = 0 → d = y.data) ∧
      (d = none ↔ ((∀ y ∈ t.entries, cmp k y.key ≠ 0) ∨
        ∃ y ∈ t.entries, cmp k y.key = 0 ∧ y.data = none)) ∧
      ((∀ y ∈ t.entries, y.data ≠ none) → (d = none ↔ ∀ y ∈ t.entries, cmp k y.key ≠ 0)) := by
  obtain ⟨s', h1, -⟩ := Treap_Lookup_total cmp k (IsTreap_iff_Zip.mp hs) hf
  obtain ⟨habs, hpres⟩ := lookupData_spec hc k hb
  have hiff : lookupData cmp k t = none ↔ ((∀ y ∈ t.entries, cmp k y.key ≠ 0) ∨
      ∃ y ∈ t.entries, cmp k y.key = 0 ∧ y.data = none) := by
    constructor
    · intro hd
      by_cases hex : ∃ y ∈ t.entries, cmp k y.key = 0
      · obtain ⟨y, hy, hk⟩ := hex
        exact Or.inr ⟨y, hy, hk, (hpres y hy hk) ▸ hd⟩
      · exact Or.inl fun y hy hk => hex ⟨y, hy, hk⟩
    · rintro (h | ⟨y, hy, hk, hd⟩)
      · exact habs h
      · rw [hpres y hy hk, hd]
  refine ⟨s', _, h1, habs, hpres, hiff, fun hnn => ?_⟩
  rw [hiff]
  constructor
  · rintro (h | ⟨y, hy, -, hd⟩)
    · exact h
    · exact absurd hd (hnn y hy)
  · exact Or.inl

/-- C14 (amended) on the example of the specification: `Lookup(4)` returns "e",
which is not `NULL`, and 4 is stored. -/
theorem C14_not_found_distinct_witness :
    StrictCmp mcmp ∧ IsTreap demoState demoTree ∧ BST mcmp demoTree ∧ demoTree.size < 6 ∧
    (∃ s' d, Treap_Lookup 6 demoState mcmp 4 = some (s', d) ∧
      ((∀ y ∈ demoTree.entries, mcmp 4 y.key ≠ 0) → d = none) ∧
      (∀ y ∈ demoTree.entries, mcmp 4 y.key = 0 → d = y.data) ∧
      (d = none ↔ ((∀ y ∈ demoTree.entries, mcmp 4 y.key ≠ 0) ∨
        ∃ y ∈ demoTree.entries, mcmp 4 y.key = 0 ∧ y.data = none)) ∧
      ((∀ y ∈ demoTree.entries, y.data ≠ none) →
        (d = none ↔ ∀ y ∈ demoTree.entries, mcmp 4 y.key ≠ 0))) ∧
    (Treap_Lookup 6 demoState mcmp 4).map Prod.snd = some (some "e") ∧
    (Treap_Lookup 6 demoState mcmp 7).map Prod.snd = some none :=
  ⟨mcmp_strict, demoState_isTreap, demoTree_bst, by decide,
    C14_not_found_distinct mcmp mcmp_strict demoState demoTree 6 4 demoState_isTreap
      demoTree_bst (by decide), by decide, by decide⟩

/-- The entries of the tree after a `Treap_Lookup` that finds the entry `x`:
only the priority of `x` may have changed, to the maximum of the old priority
and the draw. -/
theorem lookupTree_hit_entries (cmp : K → K → Int) (k : K) (rnd : Int) {t a b : Tree K V}
    {x : Entry K V} (hd : (descendZ cmp k [] t).2 = .node a x b) :
    t.entries = (Path.before (descendZ cmp k [] t).1 ++ a.entries) ++
      x :: (b.entries ++ Path.after (descendZ cmp k [] t).1) ∧
    (lookupTree cmp k rnd t).entries = (Path.before (descendZ cmp k [] t).1 ++ a.entries) ++
      { x with priority := max x.priority rnd } ::
        (b.entries ++ Path.after (descendZ cmp k [] t).1) ∧
    (rnd ≤ x.priority → lookupTree cmp k rnd t = t) := by
  have hsp := descendZ_split cmp k t
  rw [hd] at hsp
  simp only [entries_node, List.append_assoc, List.cons_append] at hsp
  refine ⟨by rw [hsp]; simp, ?_, ?_⟩
  · by_cases hr : rnd ≤ x.priority
    · simp only [lookupTree, hd, hr, if_true, max_eq_left hr]
      rw [hsp]; simp
    · simp only [lookupTree, hd, hr, if_false]
      rw [siftZ_entries, entries_plug, max_eq_right (le_of_lt (not_le.mp hr))]
      simp
  · intro hr
    simp only [lookupTree, hd, hr, if_true]

/-- C15. The priority boost of `Treap_Lookup` only ever raises the priority of
the found node.  On a treap with the BST invariant, for a probe that compares
equal to the key of the stored entry `y` and for the draw `r = s.rand s.draws`:
the call returns the stored value, consumes one draw, and the in-order sequence
of entries afterwards is the one before with the priority of `y` replaced by
`max y.priority r` (so every other node keeps its priority, and all keys,
values and cells stay as they were); when `r ≤ y.priority` the heap, the root
cell and the tree are what they were.  When no stored key compares equal to
the probe, the call returns `NULL` and the whole state, the draw counter
included, is unchanged. -/
theorem C15_lookup_boost (cmp : K → K → Int) (hc : StrictCmp cmp) (s : State K V)
    (t : Tree K V) (fuel : Nat) (k : K) (hs : IsTreap s t) (hb : BST cmp t)
    (hf : t.size < fuel) :
    (∀ y ∈ t.entries, cmp k y.key = 0 →
      ∃ s' t', Treap_Lookup fuel s cmp k = some (s', y.data) ∧ IsTreap s' t' ∧
        s'.draws = s.draws + 1 ∧ s'.rand = s.rand ∧
        (∃ pre post, t.entries = pre ++ y :: post ∧
          t'.entries = pre ++ { y with priority := max y.priority (s.rand s.draws) } :: post) ∧
        (s.rand s.draws ≤ y.priority → s'.mem = s.mem ∧ s'.root = s.root ∧ t' = t)) ∧
    ((∀ y ∈ t.entries, cmp k y.key ≠ 0) → Treap_Lookup fuel s cmp k = some (s, none)) := by
  have hz := IsTreap_iff_Zip.mp hs
  constructor
  · intro y hy hk
    obtain ⟨a, b, hd⟩ := descendZ_present hc k t [] y hb hy hk
    obtain ⟨s', h1, h2, h3, h4, -, h6⟩ := Treap_Lookup_total cmp k hz hf
    obtain ⟨e1, e2, e3⟩ := lookupTree_hit_entries cmp k (s.rand s.draws) hd
    refine ⟨s', _, ?_, IsTreap_iff_Zip.mpr h2, ?_, h3, ⟨_, _, e1, e2⟩, fun hr => ?_⟩
    · rw [h1]; simp [lookupData, hd]
    · rw [h4]; simp [lookupHit, hd]
    · exact ⟨(h6 (e3 hr)).1, (h6 (e3 hr)).2, e3 hr⟩
  · intro habs
    exact Treap_Lookup_miss hz hf (descendZ_absent cmp k t [] habs)

/-- C15 on the example of the specification, continued with one more draw: in
`demoState` the next draw is 0, so `Lookup(4)` changes nothing but the draw
counter; with the next draw set to 8 the entry of key 4 (priority 7) gets
priority 8. -/
theorem C15_lookup_boost_witness :
    StrictCmp mcmp ∧ IsTreap demoState demoTree ∧ BST mcmp demoTree ∧ demoTree.size < 6 ∧
    ((∀ y ∈ demoTree.entries, mcmp 4 y.key = 0 →
      ∃ s' t', Treap_Lookup 6 demoState mcmp 4 = some (s', y.data) ∧ IsTreap s' t' ∧
        s'.draws = demoState.draws + 1 ∧ s'.rand = demoState.rand ∧
        (∃ pre post, demoTree.entries = pre ++ y :: post ∧
          t'.entries = pre ++
            { y with priority := max y.priority (demoState.rand demoState.draws) } :: post) ∧
        (demoState.rand demoState.draws ≤ y.priority →
          s'.mem = demoState.mem ∧ s'.root = demoState.root ∧ t' = demoTree)) ∧
    ((∀ y ∈ demoTree.entries, mcmp 4 y.key ≠ 0) →
      Treap_Lookup 6 demoState mcmp 4 = some (demoState, none))) ∧
    (⟨5, 4, some "e", 7⟩ : Entry Int String) ∈ demoTree.entries ∧
    ((Treap_Lookup 6 { demoState with rand := fun _ => 8 } mcmp 4).bind fun r =>
      (r.1.mem 5).map fun n => (r.2, n.priority, n.parent, r.1.draws)) =
      some (some "e", 8, some 3, 6) :=
  ⟨mcmp_strict, demoState_isTreap, demoTree_bst, by decide,
    C15_lookup_boost mcmp mcmp_strict demoState demoTree 6 4 demoState_isTreap demoTree_bst
      (by decide), by decide, by decide⟩

/-- C18. Inserting a key that is already present creates a second node: on a
treap with the BST invariant that holds an entry `y` whose key compares equal to
`k`, `Treap_Insert` of `k` (with the new node at the fresh address `q`) returns,
the node count grows by one, every entry that was stored is still stored as it
was, and the entry of the new node comes directly after `y` in the in-order
sequence. -/
theorem C18_duplicate_insert (cmp : K → K → Int) (hc : StrictCmp cmp) (s : State K V)
    (t : Tree K V) (fuel : Nat) (k : K) (d : treap_data_element V) (q : Nat) (y : Entry K V)
    (hs : IsTreap s t) (hb : BST cmp t) (hy : y ∈ t.entries) (hk : cmp k y.key = 0)
    (hq : s.mem q = none) (hf : t.size < fuel) :
    ∃ s' t', Treap_Insert fuel s cmp k d q = some s' ∧ IsTreap s' t' ∧
      t'.size = t.size + 1 ∧
      ∃ pre post, t.entries = pre ++ y :: post ∧
        t'.entries = pre ++ y :: ⟨q, k, d, s.rand s.draws⟩ :: post := by
  have hz := IsTreap_iff_Zip.mp hs
  obtain ⟨s', h1, h2, -⟩ := Treap_Insert_spec cmp k d hz hq hf
  obtain ⟨e1, e2⟩ := insertTree_entries cmp ⟨q, k, d, s.rand s.draws⟩ t
  simp only at e1 e2
  have hdec := insertZ_decided cmp k t [] trivial
  have hasc := (BST_iff_Ascending hc t).mp hb
  rw [e1] at hasc
  obtain ⟨hbef, haft⟩ := Decided.bounds hc _ hdec hasc
  -- `y` is not after the new node, so it is before it
  have hyb : y ∈ Path.before (insertZ cmp k [] t) := by
    rw [e1, List.mem_append] at hy
    rcases hy with hy | hy
    · exact hy
    · exact absurd (haft y hy) (by rw [hk]; exact lt_irrefl _)
  obtain ⟨pre, rest, hsplit⟩ := List.append_of_mem hyb
  -- and nothing lies between `y` and the new node
  have hrest : rest = [] := by
    rcases rest with _ | ⟨z, rest⟩
    · rfl
    · exfalso
      have hz1 : cmp y.key z.key < 0 := by
        rw [hsplit] at hasc
        have h3 := (List.pairwise_append.mp hasc).1
        have h4 := (List.pairwise_append.mp h3).2.1
        exact (List.pairwise_cons.mp h4).1 z (List.mem_cons_self _ _)
      have hz2 : cmp z.key k ≤ 0 := hbef z (by rw [hsplit]; simp)
      have hz3 : cmp z.key y.key ≤ 0 := hc.trans _ _ _ hz2 (le_of_eq hk)
      have hz4 := (hc.antisymm _ _).mp hz1
      omega
  subst hrest
  refine ⟨s', _, h1, IsTreap_iff_Zip.mpr h2, ?_, pre, Path.after (insertZ cmp k [] t), ?_, ?_⟩
  · rw [← entries_length, ← entries_length, e2, e1]
    simp only [List.length_append, List.length_cons]
    omega
  · rw [e1, hsplit]; simp
  · rw [e2, hsplit]; simp

/-- C18 on the example of the specification: a second `Insert` of key 3 puts the
new node directly after the node that holds (3, "b"), and `Iterate` then yields
both. -/
theorem C18_duplicate_insert_witness :
    StrictCmp mcmp ∧ IsTreap demoState demoTree ∧ BST mcmp demoTree ∧
    (⟨2, 3, some "b", 3⟩ : Entry Int String) ∈ demoTree.entries ∧ mcmp 3 3 = 0 ∧
    demoState.mem 6 = none ∧ demoTree.size < 6 ∧
    (∃ s' t', Treap_Insert 6 demoState mcmp 3 (some "z") 6 = some s' ∧ IsTreap s' t' ∧
      t'.size = demoTree.size + 1 ∧
      ∃ pre post, demoTree.entries = pre ++ ⟨2, 3, some "b", 3⟩ :: post ∧
        t'.entries = pre ++ ⟨2, 3, some "b", 3⟩ ::
          ⟨6, 3, some "z", demoState.rand demoState.draws⟩ :: post) ∧
    ((Treap_Insert 6 demoState mcmp 3 (some "z") 6).bind fun s' =>
      Treap_Iterate 7 s' collect []) =
      some [(1, some "d"), (3, some "b"), (3, some "z"), (4, some "e"), (5, some "a"),
        (8, some "c")] :=
  ⟨mcmp_strict, demoState_isTreap, demoTree_bst, by decide, by decide, by decide, by decide,
    C18_duplicate_insert mcmp mcmp_strict demoState demoTree 6 3 (some "z") 6
      ⟨2, 3, some "b", 3⟩ demoState_isTreap demoTree_bst (by decide) (by decide) (by decide)
      (by decide), by decide⟩

/-! ### Draining a treap -/

theorem size_eq_zero {t : Tree K V} (h : t.size = 0) : t = .nil := by
  cases t with
  | nil => rfl
  | node l x r => simp [Tree.size] at h

/-- Calling `Treap_Delete_First` as many times as the treap has nodes hands
back the in-order listing and leaves the empty treap. -/
theorem drain_spec (fuel : Nat) :
    ∀ (n : Nat) (t : Tree K V) (s : State K V) (k : K), Zip s [] t → t.size = n →
      t.size ≤ fuel →
      ∃ s2, drain fuel n s k = some (s2, t.listing) ∧ Zip s2 [] .nil ∧
        s2.rand = s.rand ∧ s2.draws = s.draws := by
  intro n
  induction n with
  | zero =>
    intro t s k hz hn _
    obtain rfl := size_eq_zero hn
    exact ⟨s, rfl, hz, rfl, rfl⟩
  | succ n ih =>
    intro t s k hz hn hf
    have hne : t ≠ .nil := by rintro rfl; simp [Tree.size] at hn
    obtain ⟨x, s', hx, hdel, hz', hr, hd, -⟩ := Treap_Delete_First_spec k hz hne hf
    rw [firstEntry_eq_head] at hx
    have hes := head_of_head? hx
    rw [← deleteFirstTree_entries] at hes
    have hsz : (deleteFirstTree t).size = n := by
      have h1 := congrArg List.length hes
      rw [List.length_cons, entries_length, entries_length] at h1
      omega
    obtain ⟨s2, h2, hz2, hr2, hd2⟩ := ih (deleteFirstTree t) s' x.key hz' hsz (by omega)
    refine ⟨s2, ?_, hz2, hr2.trans hr, hd2.trans hd⟩
    simp only [drain, hdel, h2]
    rw [listing_eq, listing_eq, hes]
    rfl

/-- C11, refuted as stated: the treap built by `Insert(10, NULL)` has one node,
yet the first `Treap_Delete_First` already returns `NULL`, the result of an
empty treap; so "returns a non-empty result exactly n times" fails for a
stored value that is the null pointer. -/
theorem C11_drain_sorted_counterexample :
    insertAll 2 mcmp demoEmpty [(10, none, 1)] = some demoNull ∧
    IsTreap demoNull demoNullTree ∧ demoNullTree.size = 1 ∧
    (Treap_Delete_First 2 demoNull 0).map (fun r => (r.1.root, r.2)) =
      some (none, 10, none) ∧
    (drain 2 1 demoNull 0).map Prod.snd = some [(10, none)] ∧
    ¬ (∀ (items : List (Int × treap_data_element String × Nat)) (s1 s2 : State Int String)
        (out : List (Int × treap_data_element String)),
        (items.map fun x => x.1).Pairwise (fun a b => mcmp a b ≠ 0) →
        insertAll (items.length + 1) mcmp demoEmpty items = some s1 →
        drain (items.length + 1) items.length s1 0 = some (s2, out) →
        ∀ p ∈ out, p.2 ≠ none) := by
  have hd : drain 2 1 demoNull 0 =
      some (⟨demoNull.mem.release 1, none, demoNull.rand, demoNull.draws⟩, [(10, none)]) := by
    rfl
  refine ⟨rfl, demoNull_isTreap, rfl, by decide, by rw [hd]; rfl, ?_⟩
  intro h
  exact h [(10, none, 1)] demoNull _ _ (by decide) rfl hd (10, none) (by simp) rfl

/-- C11, amended. Draining by `Treap_Delete_First` sorts: take any treap built
by `Treap_Insert` from the empty treap out of `n` items with pairwise distinct
keys (any order, any draws, fresh cells).  Then `n` calls of
`Treap_Delete_First` all return, the `n` pairs (key cell, returned value) they
hand back are the inserted pairs, each key with its stored value, in strictly
ascending comparator order; the treap is empty afterwards and every further call
returns `NULL` and leaves the key cell alone.  The `n` returned values are
non-`NULL` when no inserted value is `NULL`. -/
theorem C11_drain_sorted (cmp : K → K → Int) (hc : StrictCmp cmp) (s : State K V)
    (items : List (K × treap_data_element V × Nat)) (fuel : Nat) (k0 : K)
    (hroot : s.root = none)
    (hk : (items.map fun x => x.1).Pairwise (fun a b => cmp a b ≠ 0))
    (hq : (items.map fun x => x.2.2).Nodup) (hfree : ∀ x ∈ items, s.mem x.2.2 = none)
    (hf : items.length ≤ fuel) :
    ∃ (s1 s2 : State K V) (t : Tree K V) (out : List (K × treap_data_element V)),
      insertAll fuel cmp s items = some s1 ∧ IsTreap s1 t ∧ t.size = items.length ∧
      drain fuel items.length s1 k0 = some (s2, out) ∧
      out.length = items.length ∧
      out.Perm (items.map fun x => (x.1, x.2.1)) ∧
      (out.map Prod.fst).Pairwise (fun a b => cmp a b < 0) ∧
      s2.root = none ∧ IsTreap s2 .nil ∧
      (∀ k, Treap_Delete_First fuel s2 k = some (s2, k, none)) ∧
      ((∀ x ∈ items, x.2.1 ≠ none) → ∀ p ∈ out, p.2 ≠ none) := by
  have hz0 : Zip s [] (.nil : Tree K V) :=
    ⟨hroot, trivial, by simp [Path.addrs, Path.before, Path.after, Tree.addrs, Tree.entries]⟩
  obtain ⟨s1, t, h1, hz1, hb1, hperm, hsz, -, -⟩ :=
    insertAll_spec hc fuel items s .nil hz0 trivial hk (by simp [Tree.entries]) hq hfree
      (by simp only [Tree.size, zero_add]; exact hf)
  simp only [Tree.size, zero_add, entries_nil, List.map_nil, List.nil_append] at hsz hperm
  obtain ⟨s2, h2, hz2, -, -⟩ := drain_spec fuel items.length t s1 k0 hz1 hsz (by omega)
  have hasc := (BST_iff_Ascending hc t).mp hb1
  refine ⟨s1, s2, t, t.listing, h1, IsTreap_iff_Zip.mpr hz1, hsz, h2, ?_, ?_, ?_, hz2.root,
    IsTreap_iff_Zip.mpr hz2, fun k => Treap_Delete_First_empty fuel k hz2.root, ?_⟩
  · rw [listing_eq, List.length_map, entries_length, hsz]
  · rw [listing_eq]; exact hperm
  · rw [listing_eq, List.map_map]
    unfold Ascending at hasc
    exact (List.pairwise_map).mpr hasc
  · intro hnn p hp
    rw [listing_eq] at hp
    have hp2 := hperm.mem_iff.mp hp
    obtain ⟨x, hx, rfl⟩ := List.mem_map.mp hp2
    exact hnn x hx

/-- C11 (amended) on the example of the specification: after inserting 5, 3, 8,
1, 4, five calls of `Treap_Delete_First` hand back 1, 3, 4, 5, 8 with their
values. -/
theorem C11_drain_sorted_witness :
    StrictCmp mcmp ∧ demoEmpty.root = none ∧
    (demoItems.map fun x => x.1).Pairwise (fun a b => mcmp a b ≠ 0) ∧
    (demoItems.map fun x => x.2.2).Nodup ∧ (∀ x ∈ demoItems, demoEmpty.mem x.2.2 = none) ∧
    demoItems.length ≤ 6 ∧
    (∃ (s1 s2 : State Int String) (t : Tree Int String)
      (out : List (Int × treap_data_element String)),
      insertAll 6 mcmp demoEmpty demoItems = some s1 ∧ IsTreap s1 t ∧
      t.size = demoItems.length ∧
      drain 6 demoItems.length s1 0 = some (s2, out) ∧
      out.length = demoItems.length ∧
      out.Perm (demoItems.map fun x => (x.1, x.2.1)) ∧
      (out.map Prod.fst).Pairwise (fun a b => mcmp a b < 0) ∧
      s2.root = none ∧ IsTreap s2 .nil ∧
      (∀ k, Treap_Delete_First 6 s2 k = some (s2, k, none)) ∧
      ((∀ x ∈ demoItems, x.2.1 ≠ none) → ∀ p ∈ out, p.2 ≠ none)) ∧
    (drain 6 5 demoState 0).map Prod.snd =
      some [(1, some "d"), (3, some "b"), (4, some "e"), (5, some "a"), (8, some "c")] :=
  ⟨mcmp_strict, rfl, by decide, by decide, by decide, by decide,
    C11_drain_sorted mcmp mcmp_strict demoEmpty demoItems 6 0 rfl (by decide) (by decide)
      (by decide) (by decide), by decide⟩

/-! ### One rotation -/

theorem Swapped.of_paths {s s1 : State K V} {c : Path K V} {p q : Nat}
    {pn pn1 qn1 : Treap_node K V}
    (hc : PRepr s.mem s.root c (some p)) (hc1 : PRepr s1.mem s1.root c (some q))
    (hp : s.mem p = some pn) (hp1 : s1.mem p = some pn1) (hq1 : s1.mem q = some qn1)
    (h1 : pn.parent = Path.par c) (h2 : qn1.parent = Path.par c) (h3 : pn1.parent = some q)
    (h4 : qn1.left = some p ∨ qn1.right = some p) : Swapped s s1 p q := by
  refine ⟨pn, pn1, qn1, hp, hp1, hq1, h2.trans h1.symm, h3, h4, ?_⟩
  rw [h1]
  cases c with
  | nil => exact ⟨hc, hc1⟩
  | cons f c =>
    cases f with
    | left g r =>
      exact ⟨_, _, hc.1, hc1.1, Or.inl ⟨rfl, rfl, rfl⟩⟩
    | right l g =>
      exact ⟨_, _, hc.1, hc1.1, Or.inr ⟨rfl, rfl, rfl⟩⟩

theorem IsTreap_plug {s : State K V} {c : Path K V} {t : Tree K V} :
    IsTreap s (plug c t) ↔ Zip s c t := by
  rw [IsTreap_iff_Zip, ← Zip_plug]

/-- C16. Rotation preserves the BST order.  Let the state hold a treap, seen
as a subtree in the hole of a path `c`.
(1) If `q` (entry `x`) is the left child of `p` (entry `y`), the body of the
loop of `sift_upwards` run on `q` is a right rotation; (2) if `q` is the right
child of `p`, it is a left rotation; (3) if `p` (entry `x`) has two children,
the body of the push-down loop of `Treap_Delete` run on `p` is a right rotation
with its left child as `q` when that child has the larger priority, and a left
rotation with its right child as `q` otherwise.  In every case, whatever the
keys and priorities are, the body returns, the state holds a treap again, the
in-order sequence of entries of the whole tree is the same as before, and `q`
has taken the place of `p` (root cell included) with `p` as a child of `q`. -/
theorem C16_rotation_preserves_order (s : State K V) (c : Path K V) :
    (∀ (x y : Entry K V) (a b r : Tree K V),
      IsTreap s (plug c (.node (.node a x b) y r)) →
      ∃ s1, sift_body s x.addr = some s1 ∧
        IsTreap s1 (plug c (.node a x (.node b y r))) ∧
        (plug c (.node a x (.node b y r))).entries =
          (plug c (.node (.node a x b) y r)).entries ∧
        Swapped s s1 y.addr x.addr) ∧
    (∀ (x y : Entry K V) (l a b : Tree K V),
      IsTreap s (plug c (.node l y (.node a x b))) →
      ∃ s1, sift_body s x.addr = some s1 ∧
        IsTreap s1 (plug c (.node (.node l y a) x b)) ∧
        (plug c (.node (.node l y a) x b)).entries =
          (plug c (.node l y (.node a x b))).entries ∧
        Swapped s s1 y.addr x.addr) ∧
    (∀ (x lx rx : Entry K V) (ll lr rl rr : Tree K V),
      IsTreap s (plug c (.node (.node ll lx lr) x (.node rl rx rr))) →
      ∃ s1, delete_body s.mem s.root x.addr = some (s1.mem, s1.root) ∧
        if lx.priority > rx.priority then
          IsTreap s1 (plug c (.node ll lx (.node lr x (.node rl rx rr)))) ∧
          (plug c (.node ll lx (.node lr x (.node rl rx rr)))).entries =
            (plug c (.node (.node ll lx lr) x (.node rl rx rr))).entries ∧
          Swapped s s1 x.addr lx.addr
        else
          IsTreap s1 (plug c (.node (.node (.node ll lx lr) x rl) rx rr)) ∧
          (plug c (.node (.node (.node ll lx lr) x rl) rx rr)).entries =
            (plug c (.node (.node ll lx lr) x (.node rl rx rr))).entries ∧
          Swapped s s1 x.addr rx.addr) := by
  refine ⟨?_, ?_, ?_⟩
  · intro x y a b r hs
    have hz : Zip s (.left y r :: c) (.node a x b) := Zip_left.mpr (IsTreap_plug.mp hs)
    obtain ⟨s1, hb, hz1, -⟩ := sift_body_right hz
    refine ⟨s1, hb, IsTreap_plug.mpr hz1, ?_, ?_⟩
    · simp only [entries_plug, entries_node, List.append_assoc, List.cons_append]
    · exact Swapped.of_paths hz.1.2.2 hz1.1 hz.1.1 hz1.2.1.2.2.1 hz1.2.1.1 rfl rfl rfl
        (Or.inr rfl)
  · intro x y l a b hs
    have hz : Zip s (.right l y :: c) (.node a x b) := Zip_right.mpr (IsTreap_plug.mp hs)
    obtain ⟨s1, hb, hz1, -⟩ := sift_body_left hz
    refine ⟨s1, hb, IsTreap_plug.mpr hz1, ?_, ?_⟩
    · simp only [entries_plug, entries_node, List.append_assoc, List.cons_append]
    · exact Swapped.of_paths hz.1.2.2 hz1.1 hz.1.1 hz1.2.1.2.1.1 hz1.2.1.1 rfl rfl rfl
        (Or.inl rfl)
  · intro x lx rx ll lr rl rr hs
    have hz := IsTreap_plug.mp hs
    by_cases hgt : lx.priority > rx.priority
    · obtain ⟨s1, hb, hz1, -⟩ := delete_body_right hz
        (rfl : (Tree.node rl rx rr).ptr = some rx.addr) hz.2.1.2.2.1 hgt
      have hz2 := Zip_right.mp hz1
      refine ⟨s1, hb, ?_⟩
      rw [if_pos hgt]
      refine ⟨IsTreap_plug.mpr hz2, ?_, ?_⟩
      · simp only [entries_plug, entries_node, List.append_assoc, List.cons_append]
      · exact Swapped.of_paths hz.1 hz2.1 hz.2.1.1 hz2.2.1.2.2.1 hz2.2.1.1 rfl rfl rfl
          (Or.inr rfl)
    · obtain ⟨s1, hb, hz1, -⟩ := delete_body_left hz
        (rfl : (Tree.node ll lx lr).ptr = some lx.addr) hz.2.1.2.1.1 hgt
      have hz2 := Zip_left.mp hz1
      refine ⟨s1, hb, ?_⟩
      rw [if_neg hgt]
      refine ⟨IsTreap_plug.mpr hz2, ?_, ?_⟩
      · simp only [entries_plug, entries_node, List.append_assoc, List.cons_append]
      · exact Swapped.of_paths hz.1 hz2.1 hz.2.1.1 hz2.2.1.2.1.1 hz2.2.1.1 rfl rfl rfl
          (Or.inl rfl)

/-- C16 on the example of the specification (root 8 with left child 4, whose
children are 3 and 5): the body of `sift_upwards` run on the node of key 4
(a left child) and on the node of key 5 (a right child), and the body of the
push-down loop run on the node of key 4 (two children), each leave the in-order
walk 1, 3, 4, 5, 8 as it was. -/
theorem C16_rotation_preserves_order_witness :
    IsTreap demoState demoTree ∧
    (∃ s1, sift_body demoState 5 = some s1 ∧
      IsTreap s1 (plug [] (.node
        (.node (.node .nil ⟨4, 1, some "d", 1⟩ .nil) ⟨2, 3, some "b", 3⟩ .nil)
        ⟨5, 4, some "e", 7⟩
        (.node (.node .nil ⟨1, 5, some "a", 5⟩ .nil) ⟨3, 8, some "c", 9⟩ .nil))) ∧
      (plug [] (.node
        (.node (.node .nil ⟨4, 1, some "d", 1⟩ .nil) ⟨2, 3, some "b", 3⟩ .nil)
        ⟨5, 4, some "e", 7⟩
        (.node (.node .nil ⟨1, 5, some "a", 5⟩ .nil) ⟨3, 8, some "c", 9⟩ .nil))).entries =
        (plug [] demoTree).entries ∧
      Swapped demoState s1 3 5) ∧
    (∃ s1, sift_body demoState 1 = some s1 ∧
      IsTreap s1 (plug [.left ⟨3, 8, some "c", 9⟩ .nil] (.node
        (.node (.node (.node .nil ⟨4, 1, some "d", 1⟩ .nil) ⟨2, 3, some "b", 3⟩ .nil)
          ⟨5, 4, some "e", 7⟩ .nil)
        ⟨1, 5, some "a", 5⟩ .nil)) ∧
      (plug [.left ⟨3, 8, some "c", 9⟩ .nil] (.node
        (.node (.node (.node .nil ⟨4, 1, some "d", 1⟩ .nil) ⟨2, 3, some "b", 3⟩ .nil)
          ⟨5, 4, some "e", 7⟩ .nil)
        ⟨1, 5, some "a", 5⟩ .nil)).entries = demoTree.entries ∧
      Swapped demoState s1 5 1) ∧
    (∃ s1, delete_body demoState.mem demoState.root 5 = some (s1.mem, s1.root) ∧
      IsTreap s1 (plug [.left ⟨3, 8, some "c", 9⟩ .nil] (.node
        (.node (.node (.node .nil ⟨4, 1, some "d", 1⟩ .nil) ⟨2, 3, some "b", 3⟩ .nil)
          ⟨5, 4, some "e", 7⟩ .nil)
        ⟨1, 5, some "a", 5⟩ .nil)) ∧
      Swapped demoState s1 5 1) ∧
    ((sift_body demoState 5).bind fun s1 => Treap_Iterate 6 s1 collect []) =
      some [(1, some "d"), (3, some "b"), (4, some "e"), (5, some "a"), (8, some "c")] ∧
    (sift_body demoState 5).map (fun s1 => s1.root) = some (some 5) ∧
    ((sift_body demoState 1).bind fun s1 => Treap_Iterate 6 s1 collect []) =
      some [(1, some "d"), (3, some "b"), (4, some "e"), (5, some "a"), (8, some "c")] ∧
    ((delete_body demoState.mem demoState.root 5).bind fun r =>
        Treap_Iterate 6 ⟨r.1, r.2, demoState.rand, demoState.draws⟩ collect []) =
      some [(1, some "d"), (3, some "b"), (4, some "e"), (5, some "a"), (8, some "c")] :=
  ⟨demoState_isTreap,
    (C16_rotation_preserves_order demoState []).1 ⟨5, 4, some "e", 7⟩ ⟨3, 8, some "c", 9⟩
      (.node (.node .nil ⟨4, 1, some "d", 1⟩ .nil) ⟨2, 3, some "b", 3⟩ .nil)
      (.node .nil ⟨1, 5, some "a", 5⟩ .nil) .nil demoState_isTreap,
    (C16_rotation_preserves_order demoState [.left ⟨3, 8, some "c", 9⟩ .nil]).2.1
      ⟨1, 5, some "a", 5⟩ ⟨5, 4, some "e", 7⟩
      (.node (.node .nil ⟨4, 1, some "d", 1⟩ .nil) ⟨2, 3, some "b", 3⟩ .nil) .nil .nil
      demoState_isTreap,
    (by
      obtain ⟨s1, h1, h2⟩ :=
        (C16_rotation_preserves_order demoState [.left ⟨3, 8, some "c", 9⟩ .nil]).2.2
          ⟨5, 4, some "e", 7⟩ ⟨2, 3, some "b", 3⟩ ⟨1, 5, some "a", 5⟩
          (.node .nil ⟨4, 1, some "d", 1⟩ .nil) .nil .nil .nil demoState_isTreap
      rw [if_neg (by decide)] at h2
      exact ⟨s1, h1, h2.1, h2.2.2⟩),
    by decide, by decide, by decide, by decide⟩

/-! ### `sift_upwards` and the heap invariant -/

/-- On a represented tree with the heap invariant, every node other than the
root of the tree has a parent cell with at least its priority. -/
theorem Repr.heap_parent {m : Mem K V} (t : Tree K V) :
    ∀ par : Ptr, Repr m par t → Heap t → ∀ a ∈ t.addrs, ∀ n, m a = some n →
      (t.ptr = some a ∧ n.parent = par ∧ ∀ p, rootLe p t → n.priority ≤ p) ∨
        ∃ p pn, n.parent = some p ∧ m p = some pn ∧ n.priority ≤ pn.priority := by
  induction t with
  | nil => intro par _ _ a ha; simp [Tree.addrs, Tree.entries] at ha
  | node l x r ihl ihr =>
    intro par hr hh a ha n hn
    obtain ⟨hx, hl, hr'⟩ := hr
    obtain ⟨hxl, hxr, hhl, hhr⟩ := hh
    simp only [addrs_node, List.mem_append, List.mem_cons] at ha
    rcases ha with ha | rfl | ha
    · rcases ihl _ hl hhl a ha n hn with ⟨-, h2, h3⟩ | h
      · exact Or.inr ⟨x.addr, _, h2, hx, h3 _ hxl⟩
      · exact Or.inr h
    · rw [hx] at hn
      cases hn
      exact Or.inl ⟨rfl, rfl, fun p hp => hp⟩
    · rcases ihr _ hr' hhr a ha n hn with ⟨-, h2, h3⟩ | h
      · exact Or.inr ⟨x.addr, _, h2, hx, h3 _ hxr⟩
      · exact Or.inr h

/-- The heap invariant of the tree, read off the cells of the nodes. -/
theorem Zip.heap_cells {s : State K V} {t : Tree K V} (hz : Zip s [] t) (hh : Heap t) :
    HeapOrdered s t := by
  intro a ha n p pn hn hp hpn
  rcases Repr.heap_parent t _ hz.2.1 hh a ha n hn with ⟨-, h2, -⟩ | ⟨p', pn', h1, h2, h3⟩
  · rw [hp] at h2; cases h2
  · rw [hp] at h1
    cases h1
    rw [hpn] at h2
    cases h2
    exact h3

/-- Where `sift_upwards` stops: the node is the root, or its parent has at
least its priority. -/
theorem Zip.at_rest {s : State K V} {c : Path K V} {a b : Tree K V} {x : Entry K V}
    (hz : Zip s c (.node a x b)) (hh : HoleLe c (.node a x b)) :
    ∃ qn, s.mem x.addr = some qn ∧
      ((qn.parent = none ∧ s.root = some x.addr) ∨
        ∃ p pn, qn.parent = some p ∧ s.mem p = some pn ∧ qn.priority ≤ pn.priority) := by
  refine ⟨_, hz.2.1.1, ?_⟩
  cases c with
  | nil => exact Or.inl ⟨rfl, hz.1⟩
  | cons f c =>
    cases f with
    | left y r => exact Or.inr ⟨y.addr, _, rfl, hz.1.1, hh⟩
    | right l y => exact Or.inr ⟨y.addr, _, rfl, hz.1.1, hh⟩

/-- C17, refuted as stated: in `demoSift` the subtree of `q` satisfies the
heap invariant and the edge between `q` and its parent `p` is the only edge
with the larger priority below, yet after `sift_upwards` on `q` the node `b`
(priority 8) is a child of `p` (priority 5): the heap invariant does not hold. -/
theorem C17_sift_restores_heap_counterexample :
    IsTreap demoSift (plug demoSiftPath demoSiftSub) ∧ Heap demoSiftSub ∧
    HeapPath demoSiftPath ∧
    sift_upwards 2 demoSift 2 = some demoSiftAfter ∧
    IsTreap demoSiftAfter demoSiftOut ∧ ¬ Heap demoSiftOut ∧
    ¬ HeapOrdered demoSiftAfter demoSiftOut ∧
    (demoSiftAfter.mem 3).map (fun n => (n.parent, n.priority)) = some (some 1, 8) ∧
    (demoSiftAfter.mem 1).map (fun n => n.priority) = some 5 := by
  refine ⟨IsTreap_iff_Zip.mpr ⟨rfl, ⟨rfl, ⟨rfl, trivial, ⟨rfl, trivial, trivial⟩⟩, trivial⟩,
    by decide⟩, by simp [demoSiftSub, Heap, rootLe], by simp [demoSiftPath, HeapPath, rootLe,
    Heap, Frame.sibling], rfl,
    IsTreap_iff_Zip.mpr ⟨rfl, ⟨rfl, trivial, ⟨rfl, ⟨rfl, trivial, trivial⟩, trivial⟩⟩,
    by decide⟩, by simp [demoSiftOut, Heap, rootLe], ?_, rfl, rfl⟩
  intro h
  have h1 := h 3 (by decide) _ 1 _ rfl rfl rfl
  exact absurd h1 (by decide)

/-- C17, amended. `sift_upwards` restores the heap invariant when, next to
what the claim asks (the subtree of `q` satisfies the heap invariant, and so
does every edge of the tree outside it except the one between `q` and its
parent), the priorities of the children of `q` do not exceed the priority of
the parent of `q`.  Here `q` is the node of entry `x` with subtrees `a` and `b`,
in the hole of the path `c`.  Then `sift_upwards` returns, the state holds a
treap with the same in-order entries whose tree satisfies the heap invariant,
in the cells every node with a parent has at most the priority of that parent,
and `q` is the root or has a parent whose priority is at least its own. -/
theorem C17_sift_restores_heap (s : State K V) (c : Path K V) (a b : Tree K V)
    (x : Entry K V) (fuel : Nat) (hs : IsTreap s (plug c (.node a x b)))
    (hsub : Heap (.node a x b)) (hpath : HeapPath c) (ha : HoleLe c a) (hb : HoleLe c b)
    (hf : c.length < fuel) :
    ∃ s' t', sift_upwards fuel s x.addr = some s' ∧ IsTreap s' t' ∧ Heap t' ∧
      t'.entries = (plug c (.node a x b)).entries ∧ HeapOrdered s' t' ∧
      ∃ qn, s'.mem x.addr = some qn ∧
        ((qn.parent = none ∧ s'.root = some x.addr) ∨
          ∃ p pn, qn.parent = some p ∧ s'.mem p = some pn ∧ qn.priority ≤ pn.priority) := by
  obtain ⟨s', h1, h2, -⟩ := sift_upwards_spec c fuel s a b x (IsTreap_plug.mp hs) hf
  have hh := siftZ_heap c a b x hpath hsub.2.2.1 hsub.2.2.2 hsub.1 hsub.2.1 ha hb
  have hz := (Zip_plug _ _).mp h2
  obtain ⟨a', b', hab⟩ := siftZ_root c a b x
  refine ⟨s', _, h1, IsTreap_iff_Zip.mpr hz, hh, siftZ_entries c _, hz.heap_cells hh, ?_⟩
  rw [hab] at h2
  refine h2.at_rest ?_
  rw [← hab]
  exact ((Heap_plug _ _).mp hh).2.2

/-- C17 (amended) on `demoSift` with the priority of `b` lowered to 4, which
is below the priority 5 of the parent of `q`: `sift_upwards` on `q` restores
the heap invariant. -/
theorem C17_sift_restores_heap_witness :
    IsTreap demoSiftOk (plug demoSiftPath
      (.node .nil ⟨2, 10, some "q", 10⟩ (.node .nil ⟨3, 15, some "b", 4⟩ .nil))) ∧
    Heap (.node .nil ⟨2, 10, some "q", 10⟩ (.node .nil ⟨3, 15, some "b", 4⟩ .nil) :
      Tree Int String) ∧
    HeapPath demoSiftPath ∧ HoleLe demoSiftPath (.nil : Tree Int String) ∧
    HoleLe demoSiftPath (.node .nil ⟨3, 15, some "b", 4⟩ .nil : Tree Int String) ∧
    demoSiftPath.length < 2 ∧
    (∃ s' t', sift_upwards 2 demoSiftOk (⟨2, 10, some "q", 10⟩ : Entry Int String).addr =
        some s' ∧
      IsTreap s' t' ∧ Heap t' ∧
      t'.entries = (plug demoSiftPath
        (.node .nil ⟨2, 10, some "q", 10⟩ (.node .nil ⟨3, 15, some "b", 4⟩ .nil))).entries ∧
      HeapOrdered s' t' ∧
      ∃ qn, s'.mem (⟨2, 10, some "q", 10⟩ : Entry Int String).addr = some qn ∧
        ((qn.parent = none ∧
            s'.root = some (⟨2, 10, some "q", 10⟩ : Entry Int String).addr) ∨
          ∃ p pn, qn.parent = some p ∧ s'.mem p = some pn ∧ qn.priority ≤ pn.priority)) ∧
    (sift_upwards 2 demoSiftOk 2).map (fun s' => s'.root) = some (some 2) :=
  have hs : IsTreap demoSiftOk (plug demoSiftPath
      (.node .nil ⟨2, 10, some "q", 10⟩ (.node .nil ⟨3, 15, some "b", 4⟩ .nil))) :=
    IsTreap_iff_Zip.mpr ⟨rfl, ⟨rfl, ⟨rfl, trivial, ⟨rfl, trivial, trivial⟩⟩, trivial⟩,
      by decide⟩
  have hh : Heap (.node .nil ⟨2, 10, some "q", 10⟩ (.node .nil ⟨3, 15, some "b", 4⟩ .nil) :
      Tree Int String) := by
    simp [Heap, rootLe]
  have hp : HeapPath demoSiftPath := by
    simp [demoSiftPath, HeapPath, Heap, rootLe, Frame.sibling]
  have hb : HoleLe demoSiftPath (.node .nil ⟨3, 15, some "b", 4⟩ .nil : Tree Int String) := by
    simp [demoSiftPath, HoleLe, rootLe, Frame.entry]
  ⟨hs, hh, hp, trivial, hb, by decide,
    C17_sift_restores_heap demoSiftOk demoSiftPath .nil _ ⟨2, 10, some "q", 10⟩ 2 hs hh hp
      trivial hb (by decide), by decide⟩

/-! ### Termination -/

/-- The loop of `Treap_Iterate` is the call of the callback followed by the
successor step. -/
theorem iterate_loop_unfold {σ : Type} (m : Mem K V)
    (it : σ → K → treap_data_element V → σ × Int) (inner fuel p : Nat) (st : σ) :
    iterate_loop m it inner (fuel + 1) p st =
      (m p).bind fun pn =>
        if (it st pn.key pn.data).2 ≠ 0 then some (it st pn.key pn.data).1
        else (successor m inner p).bind fun next =>
          match next with
          | none => some (it st pn.key pn.data).1
          | some p' => iterate_loop m it inner fuel p' (it st pn.key pn.data).1 := by
  rw [iterate_loop]
  cases h1 : m p with
  | none => rfl
  | some pn =>
    simp only [Option.bind_eq_bind, Option.some_bind, Option.pure_def, successor, h1]
    split
    · rfl
    · cases h2 : pn.right with
      | none =>
        simp only [Option.bind_assoc, Option.some_bind]
        rfl
      | some r => simp only [Option.bind_assoc, Option.some_bind]

theorem depth_spec {s : State K V} (c : Path K V) :
    ∀ (t : Tree K V) (a fuel : Nat), Zip s c t → t.ptr = some a → c.length < fuel →
      depth s.mem fuel a = some c.length := by
  induction c with
  | nil =>
    intro t a fuel hz ha hf
    obtain ⟨fuel, rfl⟩ : ∃ n, fuel = n + 1 := ⟨fuel - 1, by omega⟩
    cases t with
    | nil => simp at ha
    | node l x r =>
      simp only [ptr_node, Option.some.injEq] at ha
      subst ha
      simp [depth, hz.2.1.1, Path.par]
  | cons f c ih =>
    intro t a fuel hz ha hf
    obtain ⟨fuel, rfl⟩ : ∃ n, fuel = n + 1 := ⟨fuel - 1, by omega⟩
    simp only [List.length_cons, Nat.add_lt_add_iff_right] at hf
    cases t with
    | nil => simp at ha
    | node l x r =>
      simp only [ptr_node, Option.some.injEq] at ha
      subst ha
      have hx := hz.2.1.1
      cases f with
      | left y w =>
        have h := ih _ y.addr fuel (Zip_left.mp hz) rfl hf
        simp [depth, hx, Path.par, Frame.entry, h]
      | right w y =>
        have h := ih _ y.addr fuel (Zip_right.mp hz) rfl hf
        simp [depth, hx, Path.par, Frame.entry, h]

theorem subtree_size_spec {m : Mem K V} (t : Tree K V) :
    ∀ fuel : Nat, Fwd m t → t.size < fuel → subtree_size m fuel t.ptr = some t.size := by
  induction t with
  | nil =>
    intro fuel _ hf
    obtain ⟨fuel, rfl⟩ : ∃ n, fuel = n + 1 := ⟨fuel - 1, by omega⟩
    rfl
  | node l x r ihl ihr =>
    intro fuel hfw hf
    obtain ⟨fuel, rfl⟩ : ∃ n, fuel = n + 1 := ⟨fuel - 1, by omega⟩
    obtain ⟨⟨par, hx⟩, hl, hr⟩ := hfw
    simp only [Tree.size] at hf
    simp [subtree_size, hx, ihl fuel hl (by omega), ihr fuel hr (by omega), Tree.size]

/-- Every node of a tree is the root of a subtree in the hole of a path. -/
theorem focus (t : Tree K V) :
    ∀ (c : Path K V), ∀ a ∈ t.addrs, ∃ c' l x r, x.addr = a ∧
      plug c' (.node l x r) = plug c t := by
  induction t with
  | nil => intro c a ha; simp [Tree.addrs, Tree.entries] at ha
  | node l y r ihl ihr =>
    intro c a ha
    simp only [addrs_node, List.mem_append, List.mem_cons] at ha
    rcases ha with ha | rfl | ha
    · exact ihl (.left y r :: c) a ha
    · exact ⟨c, l, y, r, rfl, rfl⟩
    · exact ihr (.right l y :: c) a ha

/-- The successor step on the tree: it yields the node that comes next in
in-order, seen again as the root of a subtree in the hole of a path, or `NULL`
after the last node. -/
theorem successor_spec {s : State K V} {c : Path K V} {l r : Tree K V} {x : Entry K V}
    {inner : Nat} (hz : Zip s c (.node l x r)) (hin : (plug c (.node l x r)).size ≤ inner) :
    (r.entries ++ Path.after c = [] ∧ successor s.mem inner x.addr = some none) ∨
    ∃ c2 l2 x2 r2, Zip s c2 (.node l2 x2 r2) ∧
      plug c2 (.node l2 x2 r2) = plug c (.node l x r) ∧
      successor s.mem inner x.addr = some (some x2.addr) ∧
      x2 :: r2.entries ++ Path.after c2 = r.entries ++ Path.after c := by
  have hx := hz.2.1.1
  cases r with
  | node rl rx rr =>
    right
    obtain ⟨c2, x2, r2, h1, h2, -, h4, -, -⟩ :=
      leftZ_spec (.node rl rx rr) (by simp) (.right l x :: c)
    have hsz := size_plug c (.node l x (.node rl rx rr))
    have hlm := leftmost_spec (m := s.mem) (.node rl rx rr) (.right l x :: c) inner rx.addr
      hz.2.1.2.2.toFwd rfl (by simp only [Tree.size] at hsz ⊢; omega)
    rw [h1] at hlm
    have hz2 : Zip s c2 (.node .nil x2 r2) := by
      rw [Zip_plug, h2, ← Zip_plug]; exact Zip_right.mpr hz
    refine ⟨c2, .nil, x2, r2, hz2, h2, ?_, ?_⟩
    · simp [successor, hx, hlm]
    · rw [h4]; rfl
  | nil =>
    obtain ⟨h1, h2, h3, h4⟩ := climbZ_spec c (.node l x .nil)
    have hcl := climb_spec (s := s) c (.node l x .nil) x.addr inner hz rfl (by
      have := length_lt_size_plug c (t := .node l x .nil) (by simp [Tree.size])
      omega)
    have hz2 : Zip s (climbZ c (.node l x .nil)).1 (climbZ c (.node l x .nil)).2 := by
      rw [Zip_plug, h1, ← Zip_plug]; exact hz
    generalize (climbZ c (.node l x .nil)).1 = c2 at *
    generalize (climbZ c (.node l x .nil)).2 = t2 at *
    cases t2 with
    | nil => exact absurd rfl (h4 (by simp))
    | node l2 x2 r2 =>
      have hx2 := hz2.2.1.1
      cases c2 with
      | nil =>
        left
        simp only [Path.after] at h2
        refine ⟨by simp [← h2], ?_⟩
        simp [successor, hx, hcl, hx2, Path.par]
      | cons f c3 =>
        cases f with
        | right w y => rcases h3 with h | h <;> simp [Path.holeIsLeft] at h
        | left y w =>
          right
          simp only [Path.after] at h2
          refine ⟨c3, _, y, w, Zip_left.mp hz2, h1, ?_, ?_⟩
          · simp [successor, hx, hcl, hx2, Path.par, Frame.entry]
          · simp [← h2]

/-- From a node on, the successor step goes through the rest of the in-order
sequence. -/
theorem walk_spec {s : State K V} (inner : Nat) (fuel : Nat) :
    ∀ (c : Path K V) (l r : Tree K V) (x : Entry K V),
      Zip s c (.node l x r) → (plug c (.node l x r)).size ≤ inner →
      (r.entries ++ Path.after c).length + 1 < fuel →
      walk s.mem inner fuel (some x.addr) =
        some ((x :: r.entries ++ Path.after c).map Entry.addr) := by
  induction fuel with
  | zero => intro c l r x _ _ hf; simp at hf
  | succ fuel ih =>
    intro c l r x hz hin hf
    rcases successor_spec hz hin with ⟨h1, h2⟩ | ⟨c2, l2, x2, r2, hz2, hpl, h2, h3⟩
    · obtain ⟨fuel, rfl⟩ : ∃ n, fuel = n + 1 := ⟨fuel - 1, by omega⟩
      simp [walk, h2, h1]
    · have h3' : (x2 :: (r2.entries ++ Path.after c2)) = r.entries ++ Path.after c := by
        rw [← h3]; rfl
      have hlen := congrArg List.length h3'
      simp only [List.length_cons] at hlen
      have := ih c2 l2 r2 x2 hz2 (by rw [hpl]; exact hin) (by omega)
      have h5 := congrArg (List.map Entry.addr) h3'
      simp only [List.map_cons, List.map_append] at h5
      simp only [walk, h2, this, Option.bind_eq_bind, Option.some_bind, Option.pure_def,
        List.cons_append, List.map_cons, List.map_append, h5]

theorem visited_spec {s : State K V} {t : Tree K V} {fuel : Nat}
    (hz : Zip s [] t) (hf : t.size < fuel) : visited fuel s = some t.addrs := by
  cases t with
  | nil => simp [visited, hz.root, Tree.addrs, Tree.entries]
  | node l x r =>
    obtain ⟨c2, x2, r2, h1, h2, -, h4, -, -⟩ := leftZ_spec (.node l x r) (by simp) []
    have hlm := leftmost_spec (m := s.mem) (.node l x r) [] fuel x.addr hz.fwd rfl (by omega)
    rw [h1] at hlm
    have hz2 : Zip s c2 (.node .nil x2 r2) := by
      rw [Zip_plug, h2]; exact hz
    simp only [Path.after, List.append_nil] at h4
    have hlen : (Tree.node l x r).entries.length = (Tree.node l x r).size := entries_length _
    simp only [visited, hz.root, ptr_node, hlm, Option.bind_eq_bind, Option.some_bind]
    rw [walk_spec fuel fuel c2 .nil r2 x2 hz2
      (by rw [h2]; show (Tree.node l x r).size ≤ fuel; omega)
      (by rw [← h4] at hlen; simp only [List.length_cons, List.cons_append] at hlen; omega),
      h4]
    rfl

theorem size_lt_of_plug {c : Path K V} {t : Tree K V} {fuel : Nat}
    (h : (plug c t).size < fuel) : t.size < fuel := by
  rw [size_plug] at h; omega

/-- C19. Every operation terminates.  On a treap (shape and back links) with
tree `t`, for every comparator, key and callback and every fuel above the
number of nodes, each of the six operations returns (`Treap_Insert` with its
new node in a fresh cell): no loop runs more often than the tree has nodes,
plus one.  For the three loops that are not a plain descent:
the body of the loop of `sift_upwards`, run on any node `q` that has a parent,
leaves a treap in which the depth of `q` is one less, and the loop started at a
node of depth `d` returns on any fuel above `d`;
the body of the push-down loop of `Treap_Delete`, run on any node `p` that has
two children, leaves a treap in which the subtree of `p` has fewer nodes, and
the loop started at a node whose subtree has `n` nodes returns on any fuel
from `n` on;
the successor step of `Treap_Iterate`, started at the leftmost node, goes
through the nodes in in-order and then yields `NULL`, and that sequence has no
node twice. -/
theorem C19_termination (s : State K V) (t : Tree K V) (fuel : Nat) (hs : IsTreap s t)
    (hf : t.size < fuel) :
    ((∀ (cmp : K → K → Int) k, ∃ r, Treap_Lookup fuel s cmp k = some r) ∧
      (∀ (cmp : K → K → Int) k d q, s.mem q = none →
        ∃ r, Treap_Insert fuel s cmp k d q = some r) ∧
      (∀ (cmp : K → K → Int) k, ∃ r, Treap_Delete fuel s cmp k = some r) ∧
      (∀ k, ∃ r, Treap_Lookup_First fuel s k = some r) ∧
      (∀ k, ∃ r, Treap_Delete_First fuel s k = some r) ∧
      (∀ (σ : Type) (it : σ → K → treap_data_element V → σ × Int) (st : σ),
        ∃ r, Treap_Iterate fuel s it st = some r)) ∧
    (∀ q ∈ t.addrs, ∀ qn p, s.mem q = some qn → qn.parent = some p →
      ∃ s1 t1 d, sift_body s q = some s1 ∧ IsTreap s1 t1 ∧ t1.entries = t.entries ∧
        depth s.mem fuel q = some (d + 1) ∧ depth s1.mem fuel q = some d) ∧
    (∀ q ∈ t.addrs, ∃ d, depth s.mem fuel q = some d ∧
      ∀ fuel', d < fuel' → ∃ r, sift_upwards fuel' s q = some r) ∧
    (∀ p ∈ t.addrs, ∀ pn l r, s.mem p = some pn → pn.left = some l → pn.right = some r →
      ∃ s1 t1 n n1, delete_body s.mem s.root p = some (s1.mem, s1.root) ∧ IsTreap s1 t1 ∧
        t1.entries = t.entries ∧ subtree_size s.mem fuel (some p) = some n ∧
        subtree_size s1.mem fuel (some p) = some n1 ∧ n1 < n) ∧
    (∀ p ∈ t.addrs, ∃ n, subtree_size s.mem fuel (some p) = some n ∧
      ∀ fuel', n ≤ fuel' → ∃ r, delete_loop fuel' s.mem s.root p = some r) ∧
    (visited fuel s = some t.addrs ∧ t.addrs.Nodup) := by
  have hz := IsTreap_iff_Zip.mp hs
  refine ⟨⟨?_, ?_, ?_, ?_, ?_, ?_⟩, ?_, ?_, ?_, ?_, visited_spec hz hf, hs.1.2.2⟩
  · intro cmp k
    obtain ⟨s', h, -⟩ := Treap_Lookup_total cmp k hz hf
    exact ⟨_, h⟩
  · intro cmp k d q hq
    obtain ⟨s', h, -⟩ := Treap_Insert_spec cmp k d hz hq hf
    exact ⟨_, h⟩
  · intro cmp k
    obtain ⟨s', k', d, h, -⟩ := Treap_Delete_total cmp k hz hf
    exact ⟨_, h⟩
  · intro k
    by_cases ht : t = .nil
    · subst ht
      exact ⟨_, Treap_Lookup_First_empty fuel k hz.root⟩
    · obtain ⟨x, -, h⟩ := Treap_Lookup_First_spec k hs.1 ht (le_of_lt hf)
      exact ⟨_, h⟩
  · intro k
    obtain ⟨s', k', d, h, -⟩ := Treap_Delete_First_total k hz (le_of_lt hf)
    exact ⟨_, h⟩
  · intro σ it st
    exact ⟨_, Treap_Iterate_spec it st hz hf⟩
  · intro q hq qn p hqn hpar
    obtain ⟨c, l, x, r, rfl, hpl⟩ := focus t [] q hq
    change plug c (.node l x r) = t at hpl
    subst hpl
    have hzc : Zip s c (.node l x r) := IsTreap_plug.mp hs
    have hx := hzc.2.1.1
    rw [hqn] at hx
    cases hx
    have hlen := length_lt_size_plug c (t := .node l x r) (by simp [Tree.size])
    cases c with
    | nil => simp [Path.par] at hpar
    | cons f c =>
      have hd := depth_spec (f :: c) _ x.addr fuel hzc rfl (by omega)
      cases f with
      | left y w =>
        obtain ⟨s1, hb, hz1, -⟩ := sift_body_right hzc
        refine ⟨s1, _, c.length, hb, IsTreap_plug.mpr hz1, ?_, hd, ?_⟩
        · simp only [entries_plug, entries_node, Path.before, Path.after, List.append_assoc,
            List.cons_append]
        · exact depth_spec c _ x.addr fuel hz1 rfl (by simp only [List.length_cons] at hlen; omega)
      | right w y =>
        obtain ⟨s1, hb, hz1, -⟩ := sift_body_left hzc
        refine ⟨s1, _, c.length, hb, IsTreap_plug.mpr hz1, ?_, hd, ?_⟩
        · simp only [entries_plug, entries_node, Path.before, Path.after, List.append_assoc,
            List.cons_append, List.nil_append]
        · exact depth_spec c _ x.addr fuel hz1 rfl (by simp only [List.length_cons] at hlen; omega)
  · intro q hq
    obtain ⟨c, l, x, r, rfl, hpl⟩ := focus t [] q hq
    change plug c (.node l x r) = t at hpl
    subst hpl
    have hzc : Zip s c (.node l x r) := IsTreap_plug.mp hs
    have hlen := length_lt_size_plug c (t := .node l x r) (by simp [Tree.size])
    refine ⟨c.length, depth_spec c _ x.addr fuel hzc rfl (by omega), fun fuel' hf' => ?_⟩
    obtain ⟨s', h, -⟩ := sift_upwards_spec c fuel' s l r x hzc hf'
    exact ⟨_, h⟩
  · intro p hp pn la ra hpn hl hr
    obtain ⟨c, l, x, r, rfl, hpl⟩ := focus t [] p hp
    change plug c (.node l x r) = t at hpl
    subst hpl
    have hzc : Zip s c (.node l x r) := IsTreap_plug.mp hs
    have hx := hzc.2.1.1
    rw [hpn] at hx
    cases hx
    have hn := subtree_size_spec (m := s.mem) (.node l x r) fuel hzc.2.1.toFwd (size_lt_of_plug hf)
    cases l with
    | nil => simp at hl
    | node ll lx lr =>
      cases r with
      | nil => simp at hr
      | node rl rx rr =>
        by_cases hgt : lx.priority > rx.priority
        · obtain ⟨s1, hb, hz1, -⟩ := delete_body_right hzc
            (rfl : (Tree.node rl rx rr).ptr = some rx.addr) hzc.2.1.2.2.1 hgt
          have hsz : (plug (.right ll lx :: c) (.node lr x (.node rl rx rr))).size =
              (plug c (.node (.node ll lx lr) x (.node rl rx rr))).size := by
            simp only [size_plug, Path.before, Path.after, Tree.size, List.length_append,
              entries_length, List.length_cons, List.length_nil]
            omega
          refine ⟨s1, _, _, _, hb, IsTreap_plug.mpr hz1, ?_, hn,
            subtree_size_spec (m := s1.mem) (.node lr x (.node rl rx rr)) fuel hz1.2.1.toFwd
              (size_lt_of_plug (c := .right ll lx :: c) (by rw [hsz]; exact hf)), ?_⟩
          · simp only [entries_plug, entries_node, Path.before, Path.after, List.append_assoc,
              List.cons_append, List.nil_append]
          · simp only [Tree.size]; omega
        · obtain ⟨s1, hb, hz1, -⟩ := delete_body_left hzc
            (rfl : (Tree.node ll lx lr).ptr = some lx.addr) hzc.2.1.2.1.1 hgt
          have hsz : (plug (.left rx rr :: c) (.node (.node ll lx lr) x rl)).size =
              (plug c (.node (.node ll lx lr) x (.node rl rx rr))).size := by
            simp only [size_plug, Path.before, Path.after, Tree.size, List.length_append,
              entries_length, List.length_cons, List.length_nil]
            omega
          refine ⟨s1, _, _, _, hb, IsTreap_plug.mpr hz1, ?_, hn,
            subtree_size_spec (m := s1.mem) (.node (.node ll lx lr) x rl) fuel hz1.2.1.toFwd
              (size_lt_of_plug (c := .left rx rr :: c) (by rw [hsz]; exact hf)), ?_⟩
          · simp only [entries_plug, entries_node, Path.before, Path.after, List.append_assoc,
              List.cons_append, List.nil_append]
          · simp only [Tree.size]; omega
  · intro p hp
    obtain ⟨c, l, x, r, rfl, hpl⟩ := focus t [] p hp
    change plug c (.node l x r) = t at hpl
    subst hpl
    have hzc : Zip s c (.node l x r) := IsTreap_plug.mp hs
    refine ⟨_, subtree_size_spec (m := s.mem) (.node l x r) fuel hzc.2.1.toFwd (size_lt_of_plug hf),
      fun fuel' hf' => ?_⟩
    obtain ⟨s', h, -⟩ := delete_loop_spec x (l.size + r.size) c l r s fuel' hzc (le_refl _)
      (by simp only [Tree.size] at hf'; omega)
    exact ⟨_, h⟩

/-- C19 on the example of the specification, with fuel 6 for its 5 nodes; the
node of key 1 (address 4) has depth 3 and depth 2 after one rotation upwards,
the subtree of the node of key 4 (address 5) has 4 nodes and 3 after one
rotation downwards, and the successor step visits the cells 4, 2, 5, 1, 3. -/
theorem C19_termination_witness :
    IsTreap demoState demoTree ∧ demoTree.size < 6 ∧
    (((∀ (cmp : Int → Int → Int) k, ∃ r, Treap_Lookup 6 demoState cmp k = some r) ∧
      (∀ (cmp : Int → Int → Int) k d q, demoState.mem q = none →
        ∃ r, Treap_Insert 6 demoState cmp k d q = some r) ∧
      (∀ (cmp : Int → Int → Int) k, ∃ r, Treap_Delete 6 demoState cmp k = some r) ∧
      (∀ k, ∃ r, Treap_Lookup_First 6 demoState k = some r) ∧
      (∀ k, ∃ r, Treap_Delete_First 6 demoState k = some r) ∧
      (∀ (σ : Type) (it : σ → Int → treap_data_element String → σ × Int) (st : σ),
        ∃ r, Treap_Iterate 6 demoState it st = some r)) ∧
    (∀ q ∈ demoTree.addrs, ∀ qn p, demoState.mem q = some qn → qn.parent = some p →
      ∃ s1 t1 d, sift_body demoState q = some s1 ∧ IsTreap s1 t1 ∧
        t1.entries = demoTree.entries ∧
        depth demoState.mem 6 q = some (d + 1) ∧ depth s1.mem 6 q = some d) ∧
    (∀ q ∈ demoTree.addrs, ∃ d, depth demoState.mem 6 q = some d ∧
      ∀ fuel', d < fuel' → ∃ r, sift_upwards fuel' demoState q = some r) ∧
    (∀ p ∈ demoTree.addrs, ∀ pn l r, demoState.mem p = some pn → pn.left = some l →
      pn.right = some r →
      ∃ s1 t1 n n1, delete_body demoState.mem demoState.root p = some (s1.mem, s1.root) ∧
        IsTreap s1 t1 ∧ t1.entries = demoTree.entries ∧
        subtree_size demoState.mem 6 (some p) = some n ∧
        subtree_size s1.mem 6 (some p) = some n1 ∧ n1 < n) ∧
    (∀ p ∈ demoTree.addrs, ∃ n, subtree_size demoState.mem 6 (some p) = some n ∧
      ∀ fuel', n ≤ fuel' → ∃ r, delete_loop fuel' demoState.mem demoState.root p = some r) ∧
    (visited 6 demoState = some demoTree.addrs ∧ demoTree.addrs.Nodup)) ∧
    visited 6 demoState = some [4, 2, 5, 1, 3] ∧
    depth demoState.mem 6 4 = some 3 ∧
    ((sift_body demoState 4).bind fun s1 => depth s1.mem 6 4) = some 2 ∧
    subtree_size demoState.mem 6 (some 5) = some 4 ∧
    ((delete_body demoState.mem demoState.root 5).bind fun r =>
      subtree_size r.1 6 (some 5)) = some 3 :=
  ⟨demoState_isTreap, by decide,
    C19_termination demoState demoTree 6 demoState_isTreap (by decide),
    by decide, by decide, by decide, by decide, by decide⟩

/-! ### The shape of a treap is determined by its triples -/

theorem rootLe_entries {t : Tree K V} (hh : Heap t) :
    ∀ p, rootLe p t → ∀ y ∈ t.entries, y.priority ≤ p := by
  induction t with
  | nil => intro p _ y hy; simp [Tree.entries] at hy
  | node l x r ihl ihr =>
    intro p hp y hy
    obtain ⟨hxl, hxr, hhl, hhr⟩ := hh
    simp only [entries_node, List.mem_append, List.mem_cons] at hy
    have hp' : x.priority ≤ p := hp
    rcases hy with hy | rfl | hy
    · exact le_trans (ihl hhl _ hxl y hy) hp'
    · exact hp'
    · exact le_trans (ihr hhr _ hxr y hy) hp'

/-- In a tree with the heap invariant the root has the largest priority. -/
theorem Heap.root_max {l r : Tree K V} {x : Entry K V} (hh : Heap (.node l x r)) :
    ∀ y ∈ (Tree.node l x r).entries, y.priority ≤ x.priority :=
  rootLe_entries hh x.priority (le_refl _)

/-- A list whose elements have pairwise distinct marks splits in one way only
at an element with a given mark. -/
theorem split_unique {α β : Type} (f : α → β) :
    ∀ (A A' B B' : List α) (a a' : α), A ++ a :: B = A' ++ a' :: B' → f a = f a' →
      ((A ++ a :: B).map f).Nodup → A = A' ∧ a = a' ∧ B = B' := by
  intro A
  induction A with
  | nil =>
    intro A' B B' a a' h hf hnd
    cases A' with
    | nil =>
      simp only [List.nil_append, List.cons.injEq] at h
      exact ⟨rfl, h.1, h.2⟩
    | cons h' A'' =>
      exfalso
      simp only [List.nil_append, List.cons_append, List.cons.injEq] at h
      obtain ⟨rfl, hB⟩ := h
      simp only [List.nil_append, List.map_cons, List.nodup_cons, List.mem_map, not_exists,
        not_and] at hnd
      exact hnd.1 a' (by rw [hB]; simp) hf.symm
  | cons h A ih =>
    intro A' B B' a a' he hf hnd
    cases A' with
    | nil =>
      exfalso
      simp only [List.nil_append, List.cons_append, List.cons.injEq] at he
      obtain ⟨rfl, -⟩ := he
      simp only [List.cons_append, List.map_cons, List.nodup_cons, List.mem_map, not_exists,
        not_and] at hnd
      exact hnd.1 a (by simp) hf
    | cons h' A'' =>
      simp only [List.cons_append, List.cons.injEq] at he
      obtain ⟨rfl, he⟩ := he
      simp only [List.cons_append, List.map_cons, List.nodup_cons] at hnd
      obtain ⟨h1, h2, h3⟩ := ih A'' B B' a a' he hf hnd.2
      exact ⟨by rw [h1], h2, h3⟩

theorem entries_eq_nil {t : Tree K V} (h : t.entries = []) : t = .nil := by
  cases t with
  | nil => rfl
  | node l x r => simp [Tree.entries] at h

/-- A tree with the heap invariant and pairwise distinct priorities is
determined, up to the addresses of its cells, by its in-order sequence of
triples. -/
theorem heap_unique (t1 : Tree K V) :
    ∀ t2 : Tree K V, Heap t1 → Heap t2 →
      t1.entries.map Entry.triple = t2.entries.map Entry.triple →
      (t1.entries.map Entry.priority).Nodup → t1.strip = t2.strip := by
  induction t1 with
  | nil =>
    intro t2 _ _ he _
    have : t2.entries = [] := by
      simpa [Tree.entries] using he.symm
    rw [entries_eq_nil this]
  | node l x r ihl ihr =>
    intro t2 h1 h2 he hnd
    cases t2 with
    | nil => simp [Tree.entries] at he
    | node l' x' r' =>
      have hmem1 : x'.triple ∈ (Tree.node l x r).entries.map Entry.triple := by
        rw [he]; simp [Tree.entries]
      have hmem2 : x.triple ∈ (Tree.node l' x' r').entries.map Entry.triple := by
        rw [← he]; simp [Tree.entries]
      obtain ⟨y, hy, hyt⟩ := List.mem_map.mp hmem1
      obtain ⟨y', hy', hyt'⟩ := List.mem_map.mp hmem2
      have hp1 : x'.priority ≤ x.priority := by
        have := h1.root_max y hy
        have e : y.priority = x'.priority := congrArg (fun p => p.2.2) hyt
        omega
      have hp2 : x.priority ≤ x'.priority := by
        have := h2.root_max y' hy'
        have e : y'.priority = x.priority := congrArg (fun p => p.2.2) hyt'
        omega
      have hpe : x.priority = x'.priority := le_antisymm hp2 hp1
      simp only [entries_node, List.map_append, List.map_cons] at he hnd
      have hnd' : ((l.entries.map Entry.triple ++ x.triple :: r.entries.map Entry.triple).map
          (fun p => p.2.2)).Nodup := by
        simpa [List.map_append, List.map_map, Function.comp, Entry.triple] using hnd
      obtain ⟨hl, hx, hr⟩ := split_unique (fun p : K × treap_data_element V × Int => p.2.2)
        _ _ _ _ _ _ he hpe hnd'
      have hndl : (l.entries.map Entry.priority).Nodup := (List.nodup_append.mp hnd).1
      have hndr : (r.entries.map Entry.priority).Nodup :=
        (List.nodup_cons.mp (List.nodup_append.mp hnd).2.1).2
      simp only [Tree.strip]
      rw [ihl l' h1.2.2.1 h2.2.2.1 hl hndl, ihr r' h1.2.2.2 h2.2.2.2 hr hndr]
      have hx' : ({ x with addr := 0 } : Entry K V) = { x' with addr := 0 } := by
        simp only [Entry.triple, Prod.mk.injEq] at hx
        cases x; cases x'
        simp only [Entry.mk.injEq, true_and]
        exact hx
      rw [hx']

/-- A tree with the BST invariant and the heap invariant is determined, up to
the addresses of its cells, by the set of its triples when the priorities are
pairwise distinct. -/
theorem treap_unique {cmp : K → K → Int} (hc : StrictCmp cmp) {t1 t2 : Tree K V}
    (hb1 : BST cmp t1) (hb2 : BST cmp t2) (hh1 : Heap t1) (hh2 : Heap t2)
    (hp : (t1.entries.map Entry.triple).Perm (t2.entries.map Entry.triple))
    (hnd : (t1.entries.map Entry.priority).Nodup) : t1.strip = t2.strip := by
  refine heap_unique t1 t2 hh1 hh2 ?_ hnd
  have ha1 := (BST_iff_Ascending hc t1).mp hb1
  have ha2 := (BST_iff_Ascending hc t2).mp hb2
  haveI : IsAntisymm (K × treap_data_element V × Int) (fun a b => cmp a.1 b.1 < 0) :=
    ⟨fun a b h1 h2 => by
      have := (hc.antisymm a.1 b.1).mp h1
      omega⟩
  refine List.eq_of_perm_of_sorted (r := fun a b => cmp a.1 b.1 < 0) hp ?_ ?_
  · exact List.pairwise_map.mpr ha1
  · exact List.pairwise_map.mpr ha2

/-- What the caller `insertAll` builds when the `i`-th draw is the priority
assigned to the `i`-th item: a treap with the BST and the heap invariant whose
entries are the old ones and the items. -/
theorem insertAll_entries {cmp : K → K → Int} (hc : StrictCmp cmp) (fuel : Nat)
    (its : List (Entry K V)) :
    ∀ (s : State K V) (t : Tree K V), Zip s [] t → BST cmp t → Heap t →
      (its.map Entry.key).Pairwise (fun a b => cmp a b ≠ 0) →
      (∀ x ∈ its, ∀ y ∈ t.entries, cmp x.key y.key ≠ 0) →
      (its.map Entry.addr).Nodup → (∀ x ∈ its, s.mem x.addr = none) →
      (∀ i e, its[i]? = some e → s.rand (s.draws + i) = e.priority) →
      t.size + its.length ≤ fuel →
      ∃ s' t', insertAll fuel cmp s (its.map fun e => (e.key, e.data, e.addr)) = some s' ∧
        Zip s' [] t' ∧ BST cmp t' ∧ Heap t' ∧ t'.entries.Perm (t.entries ++ its) ∧
        s'.rand = s.rand ∧ s'.draws = s.draws + its.length := by
  induction its with
  | nil =>
    intro s t hz hb hh _ _ _ _ _ _
    exact ⟨s, t, rfl, hz, hb, hh, by simp, rfl, rfl⟩
  | cons x xs ih =>
    intro s t hz hb hh hk habs hq hfree hrand hf
    simp only [List.map_cons, List.pairwise_cons, List.nodup_cons, List.mem_map, not_exists,
      not_and, List.length_cons] at hk hq hf ⊢
    have habs0 : ∀ y ∈ t.entries, cmp x.key y.key ≠ 0 :=
      fun y hy => habs x (List.mem_cons_self _ _) y hy
    have hf1 : t.size < fuel := by omega
    have hpx : s.rand s.draws = x.priority := hrand 0 x (by simp)
    obtain ⟨s1, h1, hz1, hr1, hd1, hfr1⟩ :=
      Treap_Insert_spec cmp x.key x.data (q := x.addr) hz
        (hfree x (List.mem_cons_self _ _)) hf1
    have hex : (⟨x.addr, x.key, x.data, s.rand s.draws⟩ : Entry K V) = x := by
      rw [hpx]
    rw [hex] at hz1
    obtain ⟨pre, post, hp1, hp2, -, -⟩ := insertTree_sorted hc x hb habs0
    have hsz : (insertTree cmp x t).size = t.size + 1 := by
      rw [← entries_length, hp2, ← entries_length, hp1]
      simp only [List.length_append, List.length_cons]
      omega
    have habs1 : ∀ z ∈ xs, ∀ y ∈ (insertTree cmp x t).entries, cmp z.key y.key ≠ 0 := by
      intro z hz' y hy
      rw [hp2] at hy
      simp only [List.mem_append, List.mem_cons] at hy
      rcases hy with hy | rfl | hy
      · exact habs z (List.mem_cons_of_mem _ hz') y (by rw [hp1]; simp [hy])
      · intro h
        exact hk.1 z.key ⟨z, hz', rfl⟩ (hc.symm_eq h)
      · exact habs z (List.mem_cons_of_mem _ hz') y (by rw [hp1]; simp [hy])
    have hfree1 : ∀ z ∈ xs, s1.mem z.addr = none := by
      intro z hz'
      have hxs := hfree z (List.mem_cons_of_mem _ hz')
      rw [hfr1 z.addr (fun h => hz.fwd.allocated h hxs) (fun h => hq.1 z hz' h)]
      exact hxs
    have hrand1 : ∀ i e, xs[i]? = some e → s1.rand (s1.draws + i) = e.priority := by
      intro i e hi
      rw [hr1, hd1, Nat.add_assoc, Nat.add_comm 1 i]
      exact hrand (i + 1) e (by simpa using hi)
    obtain ⟨s', t', h2, hz2, hb2, hh2, hperm, hr2, hd2⟩ := ih s1 _ hz1
      (insertTree_bst hc _ hb habs0) (insertTree_heap cmp _ hh) hk.2 habs1 hq.2 hfree1 hrand1
      (by omega)
    refine ⟨s', t', ?_, hz2, hb2, hh2, ?_, hr2.trans hr1, by omega⟩
    · rw [insertAll_cons fuel cmp s s1 x.key x.data x.addr _ h1, h2]
    · refine hperm.trans ?_
      rw [hp2, hp1]
      simp only [List.append_assoc]
      exact List.Perm.append_left _ List.perm_middle.symm

theorem rand_of_range {its : List (Entry K V)} {s : State K V}
    (h : its.map Entry.priority = (List.range its.length).map fun i => s.rand (s.draws + i)) :
    ∀ i e, its[i]? = some e → s.rand (s.draws + i) = e.priority := by
  intro i e hi
  have h1 := congrArg (fun l => l[i]?) h
  simp only [List.getElem?_map, hi, Option.map_some'] at h1
  have hlt : i < its.length := by
    by_contra hge
    have := List.getElem?_eq_none (l := its) (n := i) (by omega)
    rw [this] at hi
    cases hi
  rw [List.getElem?_range hlt] at h1
  simpa using h1.symm

theorem map_key_eq (its : List (Entry K V)) :
    its.map Entry.key = (its.map Entry.triple).map Prod.fst := by
  simp [List.map_map, Function.comp, Entry.triple]

theorem map_priority_eq (its : List (Entry K V)) :
    its.map Entry.priority = (its.map Entry.triple).map fun p => p.2.2 := by
  simp [List.map_map, Function.comp, Entry.triple]

/-- A caller's list of items builds, from an empty treap, the tree with the
BST and heap invariants over the triples of the items. -/
theorem build_spec {cmp : K → K → Int} (hc : StrictCmp cmp) {fuel : Nat}
    {its : List (Entry K V)} {s : State K V} (hroot : s.root = none)
    (hk : (its.map Entry.key).Pairwise (fun a b => cmp a b ≠ 0))
    (hq : (its.map Entry.addr).Nodup) (hfree : ∀ x ∈ its, s.mem x.addr = none)
    (hd : its.map Entry.priority = (List.range its.length).map fun i => s.rand (s.draws + i))
    (hf : its.length ≤ fuel) :
    ∃ s' t, insertAll fuel cmp s (its.map fun e => (e.key, e.data, e.addr)) = some s' ∧
      Zip s' [] t ∧ BST cmp t ∧ Heap t ∧
      (t.entries.map Entry.triple).Perm (its.map Entry.triple) := by
  have hz0 : Zip s [] (.nil : Tree K V) :=
    ⟨hroot, trivial, by simp [Path.addrs, Path.before, Path.after, Tree.addrs, Tree.entries]⟩
  obtain ⟨s', t, h1, hz, hb, hh, hperm, -, -⟩ :=
    insertAll_entries hc fuel its s .nil hz0 trivial trivial hk (by simp [Tree.entries]) hq
      hfree (rand_of_range hd) (by simp only [Tree.size, zero_add]; exact hf)
  simp only [entries_nil, List.nil_append] at hperm
  exact ⟨s', t, h1, hz, hb, hh, hperm.map _⟩

theorem pairwise_keys_of_perm {cmp : K → K → Int} (hc : StrictCmp cmp)
    {l1 l2 : List (K × treap_data_element V × Int)} (hp : l1.Perm l2)
    (h : (l1.map Prod.fst).Pairwise (fun a b => cmp a b ≠ 0)) :
    (l2.map Prod.fst).Pairwise (fun a b => cmp a b ≠ 0) :=
  (List.Perm.pairwise_iff (fun h1 h2 => h1 (hc.symm_eq h2)) (hp.map Prod.fst)).mp h

/-- C20. The shape of a treap is canonical.  Take a finite set of (key, value,
priority) triples with pairwise distinct keys and pairwise distinct priorities,
listed in two orders `its1` and `its2` (each item with the cell `malloc` hands
out for it), and insert each list with `Treap_Insert` into an empty treap whose
`i`-th draw is the priority assigned to the `i`-th item.  Both runs return and
leave treaps whose trees are identical up to the addresses of the cells; that
tree satisfies the BST and the heap invariant, and every tree over the same
triples that satisfies both is identical to it.  Moreover `Treap_Delete` of a
stored key leaves the tree that inserting all the other triples alone (in any
order `its3`) builds. -/
theorem C20_canonical_shape (cmp : K → K → Int) (hc : StrictCmp cmp) (fuel : Nat)
    (its1 its2 : List (Entry K V)) (s1 s2 : State K V)
    (hperm : (its1.map Entry.triple).Perm (its2.map Entry.triple))
    (hk : (its1.map Entry.key).Pairwise (fun a b => cmp a b ≠ 0))
    (hp : (its1.map Entry.priority).Nodup)
    (hr1 : s1.root = none) (hr2 : s2.root = none)
    (hq1 : (its1.map Entry.addr).Nodup) (hq2 : (its2.map Entry.addr).Nodup)
    (hfree1 : ∀ x ∈ its1, s1.mem x.addr = none) (hfree2 : ∀ x ∈ its2, s2.mem x.addr = none)
    (hd1 : its1.map Entry.priority =
      (List.range its1.length).map fun i => s1.rand (s1.draws + i))
    (hd2 : its2.map Entry.priority =
      (List.range its2.length).map fun i => s2.rand (s2.draws + i))
    (hf : its1.length < fuel) :
    ∃ s1' s2' t1 t2,
      insertAll fuel cmp s1 (its1.map fun e => (e.key, e.data, e.addr)) = some s1' ∧
      insertAll fuel cmp s2 (its2.map fun e => (e.key, e.data, e.addr)) = some s2' ∧
      IsTreap s1' t1 ∧ IsTreap s2' t2 ∧ t1.strip = t2.strip ∧
      BST cmp t1 ∧ Heap t1 ∧ (t1.entries.map Entry.triple).Perm (its1.map Entry.triple) ∧
      (∀ t : Tree K V, BST cmp t → Heap t →
        (t.entries.map Entry.triple).Perm (its1.map Entry.triple) → t.strip = t1.strip) ∧
      ∀ (k : K) (y : Entry K V) (its3 : List (Entry K V)) (s3 : State K V),
        y ∈ its1 → cmp k y.key = 0 →
        (y.triple :: its3.map Entry.triple).Perm (its1.map Entry.triple) →
        s3.root = none → (its3.map Entry.addr).Nodup → (∀ x ∈ its3, s3.mem x.addr = none) →
        its3.map Entry.priority =
          (List.range its3.length).map (fun i => s3.rand (s3.draws + i)) →
        ∃ s1d k' d s3' td t3, Treap_Delete fuel s1' cmp k = some (s1d, k', d) ∧
          IsTreap s1d td ∧
          insertAll fuel cmp s3 (its3.map fun e => (e.key, e.data, e.addr)) = some s3' ∧
          IsTreap s3' t3 ∧ td.strip = t3.strip := by
  have hlen : its2.length = its1.length := by
    have := hperm.length_eq
    simpa using this.symm
  have hk2 : (its2.map Entry.key).Pairwise (fun a b => cmp a b ≠ 0) := by
    rw [map_key_eq] at hk ⊢
    exact pairwise_keys_of_perm hc hperm hk
  obtain ⟨s1', t1, hi1, hz1, hb1, hh1, hp1⟩ := build_spec hc hr1 hk hq1 hfree1 hd1 (le_of_lt hf)
  have hf2 : its2.length ≤ fuel := by omega
  obtain ⟨s2', t2, hi2, hz2, hb2, hh2, hp2⟩ := build_spec hc hr2 hk2 hq2 hfree2 hd2 hf2
  have hnd1 : (t1.entries.map Entry.priority).Nodup := by
    rw [map_priority_eq] at hp ⊢
    exact ((hp1.map _).nodup_iff).mpr hp
  have hsz1 : t1.size = its1.length := by
    have := hp1.length_eq
    simpa [entries_length] using this
  refine ⟨s1', s2', t1, t2, hi1, hi2, IsTreap_iff_Zip.mpr hz1, IsTreap_iff_Zip.mpr hz2,
    treap_unique hc hb1 hb2 hh1 hh2 (hp1.trans (hperm.trans hp2.symm)) hnd1, hb1, hh1, hp1,
    ?_, ?_⟩
  · intro t hb hh hpt
    have hndt : (t.entries.map Entry.priority).Nodup := by
      rw [map_priority_eq] at hp ⊢
      exact ((hpt.map _).nodup_iff).mpr hp
    exact treap_unique hc hb hb1 hh hh1 (hpt.trans hp1.symm) hndt
  · intro k y its3 s3 hy hky h3 hr3 hq3 hfree3 hd3
    -- the entry of the tree that holds the triple of `y`
    have hyt : y.triple ∈ t1.entries.map Entry.triple :=
      hp1.mem_iff.mpr (List.mem_map_of_mem _ hy)
    obtain ⟨y', hy', hyy⟩ := List.mem_map.mp hyt
    have hkey : y'.key = y.key := congrArg Prod.fst hyy
    obtain ⟨a, b, hd⟩ := descendZ_present hc k t1 [] y' hb1 hy' (by rw [hkey]; exact hky)
    have hft : t1.size < fuel := by omega
    obtain ⟨s1d, hdel, hzd, -⟩ := Treap_Delete_hit hz1 hft hd
    have htd : removeAt (descendZ cmp k [] t1).1 a y' b = deleteTree cmp k t1 := by
      simp only [deleteTree, hd]
    rw [htd] at hzd
    -- the triples that are left are those of `its3`
    have hsplit := descendZ_split cmp k t1
    have hent : (deleteTree cmp k t1).entries =
        Path.before (descendZ cmp k [] t1).1 ++ (a.entries ++ b.entries) ++
          Path.after (descendZ cmp k [] t1).1 := by
      rw [← htd, removeAt_entries]
    rw [hd] at hsplit
    have hpd : ((deleteTree cmp k t1).entries.map Entry.triple).Perm
        (its3.map Entry.triple) := by
      have h4 : (t1.entries.map Entry.triple).Perm
          (y.triple :: (deleteTree cmp k t1).entries.map Entry.triple) := by
        rw [hsplit, hent, ← hyy]
        simp only [entries_node, List.map_append, List.map_cons, List.append_assoc]
        refine List.Perm.trans ?_ List.perm_middle
        refine List.Perm.append_left _ ?_
        exact List.perm_middle
      exact (h4.symm.trans (hp1.trans h3.symm)).cons_inv
    have hk3 : (its3.map Entry.key).Pairwise (fun a b => cmp a b ≠ 0) := by
      rw [map_key_eq] at hk ⊢
      have := pairwise_keys_of_perm hc h3.symm hk
      simp only [List.map_cons, List.pairwise_cons] at this
      exact this.2
    have hlen3 : its3.length + 1 = its1.length := by
      have := h3.length_eq
      simpa using this
    have hf3 : its3.length ≤ fuel := by omega
    obtain ⟨s3', t3, hi3, hz3, hb3, hh3, hp3⟩ := build_spec hc hr3 hk3 hq3 hfree3 hd3 hf3
    have hndd : ((deleteTree cmp k t1).entries.map Entry.priority).Nodup :=
      List.Nodup.sublist ((deleteTree_sublist cmp k t1).map _) hnd1
    exact ⟨s1d, _, _, s3', _, t3, hdel, IsTreap_iff_Zip.mpr hzd, hi3, IsTreap_iff_Zip.mpr hz3,
      treap_unique hc (deleteTree_bst hc k hb1) hb3 (deleteTree_heap cmp k hh1) hh3
        (hpd.trans hp3.symm) hndd⟩
/-- C20 on the example of the specification: the keys 5, 3, 8, 1, 4 with the
priorities 5, 3, 9, 1, 7, inserted in this order and in the reverse order (in
other cells), give the same tree up to addresses; deleting key 3 gives the tree
that inserting 8, 1, 5, 4 alone gives. -/
theorem C20_canonical_shape_witness :
    StrictCmp mcmp ∧
    (demoEntries.map Entry.triple).Perm (demoEntriesRev.map Entry.triple) ∧
    (demoEntries.map Entry.key).Pairwise (fun a b => mcmp a b ≠ 0) ∧
    (demoEntries.map Entry.priority).Nodup ∧
    demoEmpty.root = none ∧ demoEmptyRev.root = none ∧
    (demoEntries.map Entry.addr).Nodup ∧ (demoEntriesRev.map Entry.addr).Nodup ∧
    (∀ x ∈ demoEntries, demoEmpty.mem x.addr = none) ∧
    (∀ x ∈ demoEntriesRev, demoEmptyRev.mem x.addr = none) ∧
    demoEntries.map Entry.priority =
      (List.range demoEntries.length).map (fun i => demoEmpty.rand (demoEmpty.draws + i)) ∧
    demoEntriesRev.map Entry.priority =
      (List.range demoEntriesRev.length).map
        (fun i => demoEmptyRev.rand (demoEmptyRev.draws + i)) ∧
    demoEntries.length < 6 ∧
    (∃ s1' s2' t1 t2,
      insertAll 6 mcmp demoEmpty (demoEntries.map fun e => (e.key, e.data, e.addr)) =
        some s1' ∧
      insertAll 6 mcmp demoEmptyRev (demoEntriesRev.map fun e => (e.key, e.data, e.addr)) =
        some s2' ∧
      IsTreap s1' t1 ∧ IsTreap s2' t2 ∧ t1.strip = t2.strip ∧ BST mcmp t1 ∧ Heap t1 ∧
      (t1.entries.map Entry.triple).Perm (demoEntries.map Entry.triple) ∧
      (∀ t : Tree Int String, BST mcmp t → Heap t →
        (t.entries.map Entry.triple).Perm (demoEntries.map Entry.triple) →
        t.strip = t1.strip) ∧
      ∃ s1d k' d s3' td t3, Treap_Delete 6 s1' mcmp 3 = some (s1d, k', d) ∧
        IsTreap s1d td ∧
        insertAll 6 mcmp demoEmptyRest (demoEntriesRest.map fun e => (e.key, e.data, e.addr)) =
          some s3' ∧
        IsTreap s3' t3 ∧ td.strip = t3.strip) :=
  ⟨mcmp_strict, by decide, by decide, by decide, rfl, rfl, by decide, by decide, by decide,
    by decide, by decide, by decide, by decide, by
    obtain ⟨s1', s2', t1, t2, h1, h2, h3, h4, h5, h6, h7, h8, h9, h10⟩ :=
      C20_canonical_shape mcmp mcmp_strict 6 demoEntries demoEntriesRev demoEmpty demoEmptyRev
        (by decide) (by decide) (by decide) rfl rfl (by decide) (by decide) (by decide)
        (by decide) (by decide) (by decide) (by decide)
    exact ⟨s1', s2', t1, t2, h1, h2, h3, h4, h5, h6, h7, h8, h9,
      h10 3 ⟨2, 3, some "b", 3⟩ demoEntriesRest demoEmptyRest (by decide) (by decide)
        (by decide) rfl (by decide) (by decide) (by decide)⟩⟩

end Treap
